import Mathlib

/-!
# PlanSys2 domain expert / problem expert: expression trees, knowledge base, service wrapper

A shallow embedding of the logic sub-language (`Predicate`, `PredicateTree`), of the
problem knowledge base (`ProblemExpert`) and of the request/response wrapper
(`DomainExpertNode` callbacks, `DomainExpertClient` readers), followed by the
properties settled about them.

Texts (`std::string`) are `String`; the character-level algorithms work on the
underlying `List Char`.
-/

namespace plansys2

set_option maxRecDepth 100000

/-! ## Text codec -/

/-- First pass of `getReducedString` (domain_expert_test.cpp, "Same function in Types.cpp"):
`std::regex_replace(expr, "[\n\t]*", "")` deletes every newline and every tab. -/
def removeNT (s : List Char) : List Char :=
  s.filter (fun c => !(c = Char.ofNat 10 || c = Char.ofNat 9))

/-- Second pass of `getReducedString`: `std::regex_replace(ret, "\\( ", "(")` rewrites,
left to right and without overlap, every occurrence of "( " to "(". -/
def replaceOpen : List Char → List Char
  | [] => []
  | [c] => [c]
  | c :: d :: r =>
    if c = '(' ∧ d = ' ' then '(' :: replaceOpen r else c :: replaceOpen (d :: r)

/-- Third pass of `getReducedString`: `std::regex_replace(ret, " \\)", ")")` rewrites,
left to right and without overlap, every occurrence of " )" to ")". -/
def replaceClose : List Char → List Char
  | [] => []
  | [c] => [c]
  | c :: d :: r =>
    if c = ' ' ∧ d = ')' then ')' :: replaceClose r else c :: replaceClose (d :: r)

/-- The three passes of `getReducedString` on the characters of the text. -/
def reduceChars (s : List Char) : List Char :=
  replaceClose (replaceOpen (removeNT s))

/-- The function `getReducedString` of domain_expert_test.cpp (lines 26-35). -/
def getReducedString (expr : String) : String :=
  String.mk (reduceChars expr.data)

/-- Modelled from the spec: the end of a top-level element in `splitTopLevel` (Types.cpp is
not under src/): the element being read joins the finished ones; an empty run between
separators is no element. -/
def flushElem (cur : List Char) (acc : List (List Char)) : List (List Char) :=
  if cur = [] then acc else acc ++ [cur]

/-- Modelled from the spec: the scanner behind `splitTopLevel` (Types.cpp is not under src/).
It reads the body left to right with the current parenthesis depth, the element being
read and the elements finished so far. At depth 0 a space ends the current element, an
opening parenthesis ends it and starts a group (adjacency separates as well), a closing
parenthesis is unbalanced; inside a group every character, spaces included, belongs to
the group, which ends with the parenthesis that brings the depth back to 0. -/
def splitAux : List Char → Nat → List Char → List (List Char) → Option (List (List Char))
  | [], depth, cur, acc => if depth = 0 then some (flushElem cur acc) else none
  | c :: r, 0, cur, acc =>
    if c = ' ' then splitAux r 0 [] (flushElem cur acc)
    else if c = '(' then splitAux r 1 ['('] (flushElem cur acc)
    else if c = ')' then none
    else splitAux r 0 (cur ++ [c]) acc
  | c :: r, d + 1, cur, acc =>
    if c = '(' then splitAux r (d + 2) (cur ++ [c]) acc
    else if c = ')' then
      (if d = 0 then splitAux r 0 [] (acc ++ [cur ++ [c]]) else splitAux r d (cur ++ [c]) acc)
    else splitAux r (d + 1) (cur ++ [c]) acc

/-- Modelled from the spec: `splitTopLevel(text)` of section 4.1 (Types.cpp is not under
src/): the top-level elements of the body of a parenthesized form, `none` standing for
`MalformedExpression` on unbalanced parentheses. -/
def splitTopLevel (body : List Char) : Option (List (List Char)) :=
  splitAux body 0 [] []

/-- Modelled from the spec: the "outer parens stripped" of section 4.1 (Types.cpp is not
under src/): the body of a parenthesized form is the text between its first character,
which must be an opening parenthesis, and its last one, which must be a closing
parenthesis. -/
def stripOuter : List Char → Option (List Char)
  | [] => none
  | c :: r => if c = '(' ∧ r.getLast? = some ')' then some r.dropLast else none

/-! ## Data model (Types.hpp) -/

/-- The struct `plansys2::Param`, as the tests fill it. -/
structure Param where
  name : String
  type : String
  deriving DecidableEq, Repr

/-- The class `plansys2::Predicate`: a name and its ordered parameters. -/
structure Predicate where
  name : String
  parameters : List Param
  deriving DecidableEq, Repr

/-- The node classes `PredicateNode`, `NotNode`, `AndNode`, `OrNode` below `TreeNode`. -/
inductive TreeNode where
  | PredicateNode (predicate_ : Predicate)
  | NotNode (op : TreeNode)
  | AndNode (ops : List TreeNode)
  | OrNode (ops : List TreeNode)
  deriving Repr

/-- The class `plansys2::PredicateTree` (also used as `Goal`): a root node or no root. -/
structure PredicateTree where
  root_ : Option TreeNode
  deriving Repr

/-- The empty tree, the state of a default-constructed `PredicateTree`. -/
def PredicateTree.empty : PredicateTree := ⟨none⟩

/-- The alias `plansys2::Goal` used by the problem expert. -/
abbrev Goal := PredicateTree

/-- Modelled from the spec: the `join(" ")` of the rendering rules of section 4.2: texts
joined by single spaces. -/
def joinSpace : List (List Char) → List Char
  | [] => []
  | [a] => a
  | a :: b :: r => a ++ ' ' :: joinSpace (b :: r)

/-- Modelled from the spec: `Predicate::toString` (Types.hpp is not under src/), section
4.2: an opening parenthesis, the name, one space, the parameter names joined by single
spaces, a closing parenthesis. -/
def Predicate.toChars (p : Predicate) : List Char :=
  '(' :: p.name.data ++ ' ' :: joinSpace (p.parameters.map (fun q => q.name.data)) ++ [')']

/-- Modelled from the spec: the text of `Predicate::toString` (Types.hpp is not under
src/). -/
def Predicate.toString (p : Predicate) : String := String.mk p.toChars

mutual
/-- Modelled from the spec: the virtual `TreeNode::toString` of the four node classes
(Types.hpp is not under src/), section 4.2: the keyword with one space after it, then the
renderings of the operands appended one after the other. -/
def TreeNode.toChars : TreeNode → List Char
  | .PredicateNode p => p.toChars
  | .NotNode op => "(not ".data ++ op.toChars ++ [')']
  | .AndNode ops => "(and ".data ++ TreeNode.toCharsList ops ++ [')']
  | .OrNode ops => "(or ".data ++ TreeNode.toCharsList ops ++ [')']
/-- Modelled from the spec: the loop over `ops` of the And / Or renderings, section 4.2:
no separator between siblings. -/
def TreeNode.toCharsList : List TreeNode → List Char
  | [] => []
  | t :: ts => t.toChars ++ TreeNode.toCharsList ts
end

/-- Modelled from the spec: `PredicateTree::toString` (Types.hpp is not under src/): the
rendering of the root, the empty text for the empty tree. -/
def PredicateTree.toString (t : PredicateTree) : String :=
  match t.root_ with
  | none => ""
  | some r => String.mk r.toChars

/-- The failures of `fromString`: the spec's `MalformedExpression`, and the exhaustion of
the recursion budget of the embedding (see `get_tree_node`). -/
inductive ParseError where
  | MalformedExpression
  | FuelExhausted
  deriving DecidableEq, Repr

/-- Applies a fallible reader to every element, left to right, failing at the first
failure. -/
def mapExcept {α β : Type} (f : α → Except ParseError β) : List α → Except ParseError (List β)
  | [] => .ok []
  | a :: r =>
    match f a with
    | .error e => .error e
    | .ok b =>
      match mapExcept f r with
      | .error e => .error e
      | .ok bs => .ok (b :: bs)

/-- Modelled from the spec: `get_tree_node` (Types.cpp is not under src/), section 4.2
`parse`: the first top-level element of a parenthesized form decides the variant; `and` /
`or` parse every remaining element as an operand, `not` wants exactly one, any other
first element is a predicate name and the remaining elements are its parameters, with
the type left empty. The first argument bounds the nesting depth. -/
def get_tree_node : Nat → List Char → Except ParseError TreeNode
  | 0, _ => .error .FuelExhausted
  | n + 1, expr =>
    match stripOuter expr with
    | none => .error .MalformedExpression
    | some body =>
      match splitTopLevel body with
      | none => .error .MalformedExpression
      | some [] => .error .MalformedExpression
      | some (head :: rest) =>
        if head = "and".data then
          match mapExcept (get_tree_node n) rest with
          | .error e => .error e
          | .ok ops => .ok (.AndNode ops)
        else if head = "or".data then
          match mapExcept (get_tree_node n) rest with
          | .error e => .error e
          | .ok ops => .ok (.OrNode ops)
        else if head = "not".data then
          match rest with
          | [x] =>
            match get_tree_node n x with
            | .error e => .error e
            | .ok op => .ok (.NotNode op)
          | _ => .error .MalformedExpression
        else
          .ok (.PredicateNode
            ⟨String.mk head, rest.map (fun t => ⟨String.mk t, ""⟩)⟩)

/-- Modelled from the spec: `PredicateTree::fromString` (Types.hpp is not under src/),
section 4.2 `parse`: the empty text gives the empty tree; any other text is normalized
and read as one parenthesized form. A form nests less deeply than it is long, so its
length is budget enough. -/
def PredicateTree.fromString (expr : String) : Except ParseError PredicateTree :=
  if expr = "" then .ok ⟨none⟩
  else
    match get_tree_node (reduceChars expr.data).length (reduceChars expr.data) with
    | .error e => .error e
    | .ok r => .ok ⟨some r⟩

/-! ## Domain model (DomainExpert) -/

/-- The struct `plansys2::Action`: a simple action with its two expression trees. -/
structure Action where
  name : String
  parameters : List Param
  preconditions : PredicateTree
  effects : PredicateTree

/-- The struct `plansys2::DurativeAction` with its five expression trees. -/
structure DurativeAction where
  name : String
  parameters : List Param
  at_start_requirements : PredicateTree
  over_all_requirements : PredicateTree
  at_end_requirements : PredicateTree
  at_start_effects : PredicateTree
  at_end_effects : PredicateTree

/-- Modelled from the spec: the state of `plansys2::DomainExpert` (DomainExpert.cpp is not
under src/), section 3 `DomainModel`: the domain name, the declared types in first-seen
order, and the predicate, action and durative-action signatures in declaration order. -/
structure DomainExpert where
  name : String
  types : List String
  predicates : List Predicate
  actions : List Action
  durative_actions : List DurativeAction

/-- A text with its letters A-Z lowered, the key of the case-insensitive comparisons. -/
def lowerCase (s : String) : String := String.mk (s.data.map Char.toLower)

/-- Modelled from the spec: `DomainExpert::getTypes`, the declared types in order. -/
def DomainExpert.getTypes (d : DomainExpert) : List String := d.types

/-- Modelled from the spec: `DomainExpert::getPredicates`, the declared predicate names. -/
def DomainExpert.getPredicates (d : DomainExpert) : List String :=
  d.predicates.map (fun p => p.name)

/-- Modelled from the spec: `DomainExpert::getPredicate` (DomainExpert.cpp is not under
src/), section 4.3: the signature whose name equals the requested one up to letter case,
with the stored name in its original case; empty when there is none. -/
def DomainExpert.getPredicate (d : DomainExpert) (predicate : String) : Option Predicate :=
  d.predicates.find? (fun p => decide (lowerCase p.name = lowerCase predicate))

/-- Modelled from the spec: `DomainExpert::getActions`, the names of the simple actions. -/
def DomainExpert.getActions (d : DomainExpert) : List String :=
  d.actions.map (fun a => a.name)

/-- Modelled from the spec: `DomainExpert::getDurativeActions`, the names of the durative
actions in declaration order. -/
def DomainExpert.getDurativeActions (d : DomainExpert) : List String :=
  d.durative_actions.map (fun a => a.name)

/-- Modelled from the spec: `DomainExpert::getAction` (DomainExpert.cpp is not under
src/), section 4.3: the simple action of that name, empty when there is none. -/
def DomainExpert.getAction (d : DomainExpert) (action : String) : Option Action :=
  d.actions.find? (fun a => decide (a.name = action))

/-- Modelled from the spec: `DomainExpert::getDurativeAction` (DomainExpert.cpp is not
under src/), section 4.3: the durative action of that name, empty when there is none. -/
def DomainExpert.getDurativeAction (d : DomainExpert) (action : String) :
    Option DurativeAction :=
  d.durative_actions.find? (fun a => decide (a.name = action))

/-! ## Problem knowledge base (ProblemExpert) -/

/-- The struct `plansys2::Instance`, built in the tests as `Instance{"Paco", "person"}`. -/
structure Instance where
  name : String
  type : String
  deriving DecidableEq, Repr

/-- Modelled from the spec: the state of `plansys2::ProblemExpert` (ProblemExpert.cpp is
not under src/), section 3 `ProblemKnowledgeBase`: the domain it validates against, the
instances and the facts in insertion order, and the goal. -/
structure ProblemExpert where
  domain_expert_ : DomainExpert
  instances_ : List Instance
  predicates_ : List Predicate
  goal_ : Goal

/-- The constructor `ProblemExpert(domain_expert)` of the tests: nothing stored, no goal. -/
def ProblemExpert.init (domain_expert : DomainExpert) : ProblemExpert :=
  ⟨domain_expert, [], [], PredicateTree.empty⟩

/-- Modelled from the spec: `matches(predicate_a, predicate_b)` of section 4.2
(Types.cpp is not under src/): the names are equal up to letter case and the ordered
parameter names are equal; the parameter types are ignored. -/
def predicateMatches (a b : Predicate) : Bool :=
  decide (lowerCase a.name = lowerCase b.name) &&
    decide (a.parameters.map (fun q => q.name) = b.parameters.map (fun q => q.name))

/-- Modelled from the spec: `getInstances`, the instances in insertion order. -/
def ProblemExpert.getInstances (kb : ProblemExpert) : List Instance := kb.instances_

/-- Modelled from the spec: `getInstance(name)` (ProblemExpert.cpp is not under src/):
the stored instance of that name (case-sensitive), empty when there is none. -/
def ProblemExpert.getInstance (kb : ProblemExpert) (name : String) : Option Instance :=
  kb.instances_.find? (fun i => decide (i.name = name))

/-- Modelled from the spec: the test "`instance.name` already present" of section 4.4
(ProblemExpert.cpp is not under src/). -/
def ProblemExpert.existInstance (kb : ProblemExpert) (name : String) : Bool :=
  kb.instances_.any (fun i => decide (i.name = name))

/-- Modelled from the spec: the test "`instance.type` is in the bound DomainModel's type
set" of section 4.4 (ProblemExpert.cpp is not under src/). -/
def ProblemExpert.isValidType (kb : ProblemExpert) (type : String) : Bool :=
  decide (type ∈ kb.domain_expert_.getTypes)

/-- Modelled from the spec: `addInstance(instance)` of section 4.4 (ProblemExpert.cpp is
not under src/): rejected without mutation when the name is already present or the type
is not a type of the domain; otherwise appended. -/
def ProblemExpert.addInstance (kb : ProblemExpert) (inst : Instance) : Bool × ProblemExpert :=
  if kb.existInstance inst.name then (false, kb)
  else if !kb.isValidType inst.type then (false, kb)
  else (true, { kb with instances_ := kb.instances_ ++ [inst] })

/-- Modelled from the spec: `removeInstance(name)` of section 4.4 (ProblemExpert.cpp is
not under src/): false if absent; otherwise the instance is removed. The facts are not
touched. -/
def ProblemExpert.removeInstance (kb : ProblemExpert) (name : String) : Bool × ProblemExpert :=
  if kb.existInstance name then
    (true, { kb with instances_ := kb.instances_.eraseP (fun i => decide (i.name = name)) })
  else (false, kb)

/-- Modelled from the spec: `getPredicates`, the facts in insertion order. -/
def ProblemExpert.getPredicates (kb : ProblemExpert) : List Predicate := kb.predicates_

/-- Modelled from the spec: the test "an identical predicate (by `matches`) already exists
in `facts`" of section 4.4 (ProblemExpert.cpp is not under src/). -/
def ProblemExpert.existPredicate (kb : ProblemExpert) (predicate : Predicate) : Bool :=
  kb.predicates_.any (fun q => predicateMatches q predicate)

/-- Modelled from the spec: what `addPredicate` requires of the arguments of a fact
against the declared signature beyond their count (ProblemExpert.cpp is not under src/),
as a function of the knowledge base, the fact and the declared signature. Section 4.4
says that nothing is required (`countOnly`); the unit test `addget_predicates`
(problem_expert_test.cpp, line 151) asserts that `person_at(kitchen, paco)` is rejected
against `person_at(person, room)`. No file under src/ shows the comparison itself, so
the operations take it as a parameter. -/
abbrev ArgumentCheck := ProblemExpert → Predicate → Predicate → Bool

/-- Modelled from the spec: the validation of a fact against the domain, section 4.4
(ProblemExpert.cpp is not under src/): the name is declared, the parameter count is the
declared arity, and the arguments pass the comparison `typesAgree` (see
`ArgumentCheck`). -/
def ProblemExpert.isValidPredicate (typesAgree : ArgumentCheck) (kb : ProblemExpert)
    (predicate : Predicate) : Bool :=
  match kb.domain_expert_.getPredicate predicate.name with
  | none => false
  | some model_predicate =>
    decide (model_predicate.parameters.length = predicate.parameters.length) &&
      typesAgree kb predicate model_predicate

/-- Modelled from the spec: `addPredicate(predicate)` of section 4.4 (ProblemExpert.cpp is
not under src/): rejected without mutation when a matching fact is stored or the fact is
not valid for the domain; otherwise appended. -/
def ProblemExpert.addPredicate (typesAgree : ArgumentCheck) (kb : ProblemExpert)
    (predicate : Predicate) : Bool × ProblemExpert :=
  if kb.existPredicate predicate then (false, kb)
  else if kb.isValidPredicate typesAgree predicate then
    (true, { kb with predicates_ := kb.predicates_ ++ [predicate] })
  else (false, kb)

/-- Modelled from the spec: `removePredicate(predicate)` of section 4.4 (ProblemExpert.cpp
is not under src/): false if no matching fact is stored; otherwise exactly one match, the
first in insertion order, is removed. -/
def ProblemExpert.removePredicate (kb : ProblemExpert) (predicate : Predicate) :
    Bool × ProblemExpert :=
  if kb.existPredicate predicate then
    (true, { kb with
      predicates_ := kb.predicates_.eraseP (fun q => predicateMatches q predicate) })
  else (false, kb)

/-- Modelled from the spec: `setGoal(tree)` of section 4.4 (ProblemExpert.cpp is not under
src/): replaces the current goal and succeeds. -/
def ProblemExpert.setGoal (kb : ProblemExpert) (goal : Goal) : Bool × ProblemExpert :=
  (true, { kb with goal_ := goal })

/-- Modelled from the spec: `getGoal()`, the current goal. -/
def ProblemExpert.getGoal (kb : ProblemExpert) : Goal := kb.goal_

/-- Modelled from the spec: `clearGoal()` of section 4.4 (ProblemExpert.cpp is not under
src/): sets the goal to the empty tree and succeeds. -/
def ProblemExpert.clearGoal (kb : ProblemExpert) : Bool × ProblemExpert :=
  (true, { kb with goal_ := PredicateTree.empty })

/-- Modelled from the spec: the indentation of the pretty form, section 6: a run of tab
characters. -/
def tabs (n : Nat) : List Char := List.replicate n (Char.ofNat 9)

/-- Modelled from the spec: the spaced rendering of a predicate in the problem text,
section 6 (ProblemExpert.cpp is not under src/): "( name args )" with the arguments
joined by single spaces. -/
def Predicate.spacedChars (p : Predicate) : List Char :=
  "( ".data ++ p.name.data ++ ' ' :: joinSpace (p.parameters.map (fun q => q.name.data))
    ++ " )".data

mutual
/-- Modelled from the spec: the pretty form of the goal, sections 4.4 and 6
(ProblemExpert.cpp is not under src/): a node on its own line behind its indentation;
every child of a boolean node on its own line, one tab deeper; the closing parenthesis
of a boolean node on its own line at the indentation of the node. -/
def TreeNode.prettyChars : Nat → TreeNode → List Char
  | k, .PredicateNode p => tabs k ++ p.spacedChars ++ "\n".data
  | k, .NotNode op =>
    tabs k ++ "( not\n".data ++ TreeNode.prettyChars (k + 1) op ++ tabs k ++ ")\n".data
  | k, .AndNode ops =>
    tabs k ++ "( and\n".data ++ TreeNode.prettyCharsList (k + 1) ops ++ tabs k ++ ")\n".data
  | k, .OrNode ops =>
    tabs k ++ "( or\n".data ++ TreeNode.prettyCharsList (k + 1) ops ++ tabs k ++ ")\n".data
/-- Modelled from the spec: the children of a boolean node in the pretty form, one after
the other. -/
def TreeNode.prettyCharsList : Nat → List TreeNode → List Char
  | _, [] => []
  | k, t :: ts => TreeNode.prettyChars k t ++ TreeNode.prettyCharsList k ts
end

/-- Modelled from the spec: the grouping of the instances by type, section 4.4: the names
of the stored instances of one type, in insertion order. -/
def ProblemExpert.instancesOfType (kb : ProblemExpert) (type : String) : List (List Char) :=
  (kb.instances_.filter (fun i => decide (i.type = type))).map (fun i => i.name.data)

/-- Modelled from the spec: the `:objects` lines for the given types, in order, section 6
(ProblemExpert.cpp is not under src/); a type without instances emits no line (the
test's domain declares `message`, its expected text has no line for it). -/
def ProblemExpert.objectsChars (kb : ProblemExpert) : List String → List Char
  | [] => []
  | type :: rest =>
    (if kb.instancesOfType type = [] then []
     else "\t".data ++ joinSpace (kb.instancesOfType type) ++ " - ".data ++ type.data
       ++ "\n".data)
    ++ kb.objectsChars rest

/-- Modelled from the spec: the `:init` lines for the given facts, in order, section 6
(ProblemExpert.cpp is not under src/). -/
def initChars : List Predicate → List Char
  | [] => []
  | p :: rest => "\t".data ++ p.spacedChars ++ "\n".data ++ initChars rest

/-- Modelled from the spec: the `:goal` block, section 6 (ProblemExpert.cpp is not under
src/): omitted entirely when the goal is empty. -/
def goalChars (goal : Goal) : List Char :=
  match goal.root_ with
  | none => []
  | some r => "( :goal\n".data ++ r.prettyChars 1 ++ ")\n".data

/-- Modelled from the spec: `getProblem()` of sections 4.4 and 6 (ProblemExpert.cpp is not
under src/): the header with the fixed problem name, the domain name, the objects grouped
by type in the domain's type order, the facts in insertion order, the goal block. -/
def ProblemExpert.getProblem (kb : ProblemExpert) : String :=
  String.mk ("( define ( problem problem_1 )\n".data
    ++ "( :domain ".data ++ kb.domain_expert_.name.data ++ " )\n".data
    ++ "( :objects\n".data ++ kb.objectsChars kb.domain_expert_.getTypes ++ ")\n".data
    ++ "( :init\n".data ++ initChars kb.predicates_ ++ ")\n".data
    ++ goalChars kb.goal_
    ++ ")\n".data)

/-! ## Service wrapper (DomainExpertNode.cpp, DomainExpertClient.cpp) -/

/-- The response of `plansys2_msgs::srv::GetDomainPredicateDetails`, with the fields the
callback and the client use. -/
structure GetDomainPredicateDetailsResponse where
  name : String
  param_names : List String
  param_types : List String
  success : Bool
  error_info : String
  deriving DecidableEq, Repr

/-- A freshly constructed predicate-details response. -/
def GetDomainPredicateDetailsResponse.empty : GetDomainPredicateDetailsResponse :=
  ⟨"", [], [], false, ""⟩

/-- The response of `plansys2_msgs::srv::GetDomainActionDetails`, with the fields the
callback and the client use. -/
structure GetDomainActionDetailsResponse where
  name : String
  type : String
  param_names : List String
  param_types : List String
  at_start_requirements : String
  over_all_requirements : String
  at_end_requirements : String
  at_start_effects : String
  at_end_effects : String
  success : Bool
  error_info : String
  deriving DecidableEq, Repr

/-- A freshly constructed action-details response. -/
def GetDomainActionDetailsResponse.empty : GetDomainActionDetailsResponse :=
  ⟨"", "", [], [], "", "", "", "", "", false, ""⟩

/-- The callback `DomainExpertNode::get_domain_predicate_details_service_callback`
(DomainExpertNode.cpp, lines 267-296); `domain_expert_` is `none` for the null pointer. -/
def get_domain_predicate_details_service_callback (domain_expert_ : Option DomainExpert)
    (request_predicate : String) (response : GetDomainPredicateDetailsResponse) :
    GetDomainPredicateDetailsResponse :=
  match domain_expert_ with
  | none =>
    { response with success := false, error_info := "Requesting service in non-active state" }
  | some domain_expert =>
    match domain_expert.getPredicate request_predicate with
    | some params =>
      { response with
        name := request_predicate
        param_names := response.param_names ++ params.parameters.map (fun param => param.name)
        param_types := response.param_types ++ params.parameters.map (fun param => param.type)
        success := true }
    | none => { response with success := false, error_info := "Predicate not found" }

/-- The callback `DomainExpertNode::get_domain_action_details_service_callback`
(DomainExpertNode.cpp, lines 200-249). -/
def get_domain_action_details_service_callback (domain_expert_ : Option DomainExpert)
    (request_action : String) (response : GetDomainActionDetailsResponse) :
    GetDomainActionDetailsResponse :=
  match domain_expert_ with
  | none =>
    { response with success := false, error_info := "Requesting service in non-active state" }
  | some domain_expert =>
    match domain_expert.getAction request_action,
      domain_expert.getDurativeAction request_action with
    | some action, _ =>
      { response with
        name := request_action
        type := "action"
        param_names := response.param_names ++ action.parameters.map (fun param => param.name)
        param_types := response.param_types ++ action.parameters.map (fun param => param.type)
        at_start_requirements := action.preconditions.toString
        at_start_effects := action.effects.toString
        success := true }
    | none, some durative_action =>
      { response with
        name := request_action
        type := "durative-action"
        param_names :=
          response.param_names ++ durative_action.parameters.map (fun param => param.name)
        param_types :=
          response.param_types ++ durative_action.parameters.map (fun param => param.type)
        at_start_requirements := durative_action.at_start_requirements.toString
        over_all_requirements := durative_action.over_all_requirements.toString
        at_end_requirements := durative_action.at_end_requirements.toString
        at_start_effects := durative_action.at_start_effects.toString
        at_end_effects := durative_action.at_end_effects.toString
        success := true }
    | none, none => { response with success := false, error_info := "Action not found" }

/-- The loop `for (i = 0; i < param_names.size(); i++)` of the client readers: it pairs
`param_names[i]` with `param_types[i]`; a read past the end of `param_types` is
rendered as the empty text. -/
def rebuildParams (param_names param_types : List String) : List Param :=
  (List.range param_names.length).map
    (fun i => ⟨param_names.getD i "", param_types.getD i ""⟩)

/-- The reader `DomainExpertClient::getPredicate` (DomainExpertClient.cpp, lines 102-150)
on the outcome of the service call: `none` when the call did not complete in time,
else the response. -/
def DomainExpertClient.getPredicate (future_result : Option GetDomainPredicateDetailsResponse) :
    Option Predicate :=
  match future_result with
  | none => none
  | some result =>
    if result.success then
      some ⟨result.name, rebuildParams result.param_names result.param_types⟩
    else none

/-- The reader `DomainExpertClient::getAction` (DomainExpertClient.cpp, lines 185-239) on
the outcome of the service call; a failure of `fromString` is passed on. -/
def DomainExpertClient.getAction (future_result : Option GetDomainActionDetailsResponse) :
    Except ParseError (Option Action) :=
  match future_result with
  | none => .ok none
  | some result =>
    if result.success then
      if result.type = "action" then
        match PredicateTree.fromString result.at_start_requirements,
          PredicateTree.fromString result.at_start_effects with
        | .ok preconditions, .ok effects =>
          .ok (some ⟨result.name, rebuildParams result.param_names result.param_types,
            preconditions, effects⟩)
        | .error e, _ => .error e
        | .ok _, .error e => .error e
      else .ok none
    else .ok none

/-- Modelled from the spec: the text of the virtual `TreeNode::toString` (Types.hpp is not
under src/). -/
def TreeNode.toString (t : TreeNode) : String := String.mk t.toChars

/-! ## Fixtures of the unit tests -/

/-- The value `param_1` of the unit tests. -/
def param_1 : Param := ⟨"r2d2", "robot"⟩

/-- The value `param_2` of the unit tests. -/
def param_2 : Param := ⟨"bedroom", "room"⟩

/-- The value `param_3` of the unit tests. -/
def param_3 : Param := ⟨"kitchen", "room"⟩

/-- The value `param_4` of the unit tests. -/
def param_4 : Param := ⟨"paco", "person"⟩

/-- The fact `robot_at(r2d2, bedroom)` of the unit tests. -/
def predicate_1 : Predicate := ⟨"robot_at", [param_1, param_2]⟩

/-- The fact `robot_at(r2d2, kitchen)` of the unit tests. -/
def predicate_2 : Predicate := ⟨"robot_at", [param_1, param_3]⟩

/-- The fact `person_at(paco, bedroom)` of the unit tests. -/
def predicate_3 : Predicate := ⟨"person_at", [param_4, param_2]⟩

/-- The fact `person_at(paco, kitchen)` of the unit tests. -/
def predicate_4 : Predicate := ⟨"person_at", [param_4, param_3]⟩

/-- The four-parameter fact `predicate_5` of problem_expert_test.cpp. -/
def predicate_5 : Predicate := ⟨"person_at", [param_4, param_3, param_1, param_2]⟩

/-- The fact `person_at(kitchen, paco)`, `predicate_6` of problem_expert_test.cpp. -/
def predicate_6 : Predicate := ⟨"person_at", [param_3, param_4]⟩

/-- The tree `pn_and` of types_test.cpp (lines 78-100). -/
def pn_and : TreeNode :=
  .AndNode [.PredicateNode predicate_1, .NotNode (.PredicateNode predicate_2),
    .OrNode [.PredicateNode predicate_3, .PredicateNode predicate_4]]

/-- The types and predicate signatures of `domain_simple.pddl` as the unit tests of
`getTypes`, `getPredicates` and `getPredicate` show them (the file itself is not under
src/); the actions are left out. -/
def domain_simple : DomainExpert :=
  { name := "simple"
    types := ["person", "message", "robot", "room"]
    predicates :=
      [⟨"robot_talk", [⟨"?robot0", "robot"⟩, ⟨"?message1", "message"⟩, ⟨"?person2", "person"⟩]⟩,
       ⟨"robot_near_person", [⟨"?robot0", "robot"⟩, ⟨"?person1", "person"⟩]⟩,
       ⟨"robot_at", [⟨"?robot0", "robot"⟩, ⟨"?room1", "room"⟩]⟩,
       ⟨"person_at", [⟨"?person0", "person"⟩, ⟨"?room1", "room"⟩]⟩]
    actions := []
    durative_actions := [] }

/-- The knowledge base of the tests after the four `addInstance` calls
(problem_expert_test.cpp, lines 135-138). -/
def kb_instances : ProblemExpert :=
  ((((ProblemExpert.init domain_simple).addInstance ⟨"paco", "person"⟩).2.addInstance
    ⟨"r2d2", "robot"⟩).2.addInstance ⟨"bedroom", "room"⟩).2.addInstance ⟨"kitchen", "room"⟩ |>.2

/-- The knowledge base of the tests after the four `addPredicate` calls that the test
asserts to succeed (problem_expert_test.cpp, lines 143-149): a successful call appends
its fact. -/
def kb_facts : ProblemExpert :=
  { kb_instances with predicates_ := [predicate_1, predicate_2, predicate_3, predicate_4] }

/-- The fact `PERSON_AT(paco, kitchen)`: `predicate_4` of the unit tests with its name in
capital letters. -/
def predicate_4_upper : Predicate := ⟨"PERSON_AT", [param_4, param_3]⟩

/-- The results that `TEST(problem_expert, addget_predicates)` asserts of `addPredicate`
(problem_expert_test.cpp, lines 143-154), for the knowledge base with the comparison
`typesAgree`: `predicate_1` is accepted and then rejected as a duplicate, `predicate_2`,
`predicate_3` and `predicate_4` are accepted, the four-parameter `predicate_5` and the
swapped `predicate_6` are rejected, and four facts are stored. -/
def addget_predicates_asserts (typesAgree : ArgumentCheck) : Bool :=
  let r1 := kb_instances.addPredicate typesAgree predicate_1
  let r1_again := r1.2.addPredicate typesAgree predicate_1
  let r2 := r1_again.2.addPredicate typesAgree predicate_2
  let r3 := r2.2.addPredicate typesAgree predicate_3
  let r4 := r3.2.addPredicate typesAgree predicate_4
  let r5 := r4.2.addPredicate typesAgree predicate_5
  let r6 := r5.2.addPredicate typesAgree predicate_6
  r1.1 && !r1_again.1 && r2.1 && r3.1 && r4.1 && !r5.1 && !r6.1 &&
    r6.2.getPredicates.length == 4

/-- The goal of the tests as `fromString` builds it from
"(and (robot_at r2d2 bedroom)(person_at paco kitchen))": the parameter types are empty. -/
def goal_tree : TreeNode :=
  .AndNode [.PredicateNode ⟨"robot_at", [⟨"r2d2", ""⟩, ⟨"bedroom", ""⟩]⟩,
    .PredicateNode ⟨"person_at", [⟨"paco", ""⟩, ⟨"kitchen", ""⟩]⟩]

/-- The knowledge base of `TEST(problem_expert, get_probem)` after `setGoal`
(problem_expert_test.cpp, lines 265-277). -/
def kb_goal : ProblemExpert := (kb_facts.setGoal ⟨some goal_tree⟩).2

/-- The knowledge base of `TEST(problem_expert, addget_instances)` after its two
successful `addInstance` calls (problem_expert_test.cpp, lines 36-40). -/
def kb_paco_r2d2 : ProblemExpert :=
  (((ProblemExpert.init domain_simple).addInstance ⟨"Paco", "person"⟩).2.addInstance
    ⟨"r2d2", "robot"⟩).2

/-- A tree whose second parameter name ends with a newline, as a name read from a line of
text does. -/
def tree_newline : PredicateTree :=
  ⟨some (.PredicateNode ⟨"robot_at", [⟨"r2d2", "robot"⟩, ⟨"kitchen\n", "room"⟩]⟩)⟩

/-- A domain with one simple action, `move`, given the parameters and two of the expression
texts that `TEST(domain_expert, get_action_params)` shows for the durative action of
that name. -/
def domain_move : DomainExpert :=
  { name := "simple"
    types := ["person", "message", "robot", "room"]
    predicates := [⟨"robot_at", [⟨"?robot0", "robot"⟩, ⟨"?room1", "room"⟩]⟩]
    actions :=
      [{ name := "move"
         parameters := [⟨"?0", "robot"⟩, ⟨"?1", "room"⟩, ⟨"?2", "room"⟩]
         preconditions := ⟨some (.AndNode [.PredicateNode
           ⟨"robot_at", [⟨"?0", "robot"⟩, ⟨"?1", "room"⟩]⟩])⟩
         effects := ⟨some (.AndNode [.NotNode (.PredicateNode
           ⟨"robot_at", [⟨"?0", "robot"⟩, ⟨"?1", "room"⟩]⟩)])⟩ }]
    durative_actions := [] }

/-! ## Auxiliary definitions of the proofs -/

/-- The knowledge bases a program can build: the constructor followed by any sequence of
the operations of the problem expert (the lists are private members of the class). -/
inductive ProblemExpert.Reachable : ProblemExpert → Prop where
  | init (d : DomainExpert) : Reachable (ProblemExpert.init d)
  | addInstance (kb : ProblemExpert) (i : Instance) : Reachable kb → Reachable (kb.addInstance i).2
  | removeInstance (kb : ProblemExpert) (n : String) :
    Reachable kb → Reachable (kb.removeInstance n).2
  | addPredicate (typesAgree : ArgumentCheck) (kb : ProblemExpert) (p : Predicate) :
    Reachable kb → Reachable (kb.addPredicate typesAgree p).2
  | removePredicate (kb : ProblemExpert) (p : Predicate) :
    Reachable kb → Reachable (kb.removePredicate p).2
  | setGoal (kb : ProblemExpert) (g : Goal) : Reachable kb → Reachable (kb.setGoal g).2
  | clearGoal (kb : ProblemExpert) : Reachable kb → Reachable kb.clearGoal.2

/-- The knowledge base after `n` calls of `clearGoal`. -/
def clearGoalTimes : Nat → ProblemExpert → ProblemExpert
  | 0, kb => kb
  | n + 1, kb => (clearGoalTimes n kb).clearGoal.2

/-- The text of the pretty form of a node at an indentation. -/
def TreeNode.prettyString (k : Nat) (t : TreeNode) : String := String.mk (t.prettyChars k)

/-- A character that may stand in a plain token: no space, parenthesis, newline or tab. -/
def plainChar (c : Char) : Bool :=
  !(c = ' ' || c = '(' || c = ')' || c = Char.ofNat 10 || c = Char.ofNat 9)

/-- A plain token: not empty, made of plain characters only. -/
def plainToken (s : List Char) : Bool := !s.isEmpty && s.all plainChar

/-- A predicate whose name and parameter names are plain tokens and whose name is none of
the keywords `and`, `or`, `not`. -/
def Predicate.plain (p : Predicate) : Bool :=
  plainToken p.name.data
    && !(decide (p.name.data = "and".data) || decide (p.name.data = "or".data)
        || decide (p.name.data = "not".data))
    && p.parameters.all (fun q => plainToken q.name.data)

mutual
/-- A node all of whose predicates are plain. -/
def TreeNode.plain : TreeNode → Bool
  | .PredicateNode p => p.plain
  | .NotNode op => op.plain
  | .AndNode ops => TreeNode.plainList ops
  | .OrNode ops => TreeNode.plainList ops
/-- Every node of the list is plain. -/
def TreeNode.plainList : List TreeNode → Bool
  | [] => true
  | t :: ts => t.plain && TreeNode.plainList ts
end

/-- A tree that is empty or whose root is plain. -/
def PredicateTree.plain (t : PredicateTree) : Bool :=
  match t.root_ with
  | none => true
  | some r => r.plain

/-- The predicate with the types of its parameters emptied, as `fromString` builds it. -/
def Predicate.eraseTypes (p : Predicate) : Predicate :=
  ⟨p.name, p.parameters.map (fun q => ⟨q.name, ""⟩)⟩

mutual
/-- The node with every parameter type emptied. -/
def TreeNode.eraseTypes : TreeNode → TreeNode
  | .PredicateNode p => .PredicateNode p.eraseTypes
  | .NotNode op => .NotNode op.eraseTypes
  | .AndNode ops => .AndNode (TreeNode.eraseTypesList ops)
  | .OrNode ops => .OrNode (TreeNode.eraseTypesList ops)
/-- Every node of the list with its parameter types emptied. -/
def TreeNode.eraseTypesList : List TreeNode → List TreeNode
  | [] => []
  | t :: ts => t.eraseTypes :: TreeNode.eraseTypesList ts
end

/-- The tree with every parameter type emptied. -/
def PredicateTree.eraseTypes (t : PredicateTree) : PredicateTree :=
  match t.root_ with
  | none => ⟨none⟩
  | some r => ⟨some r.eraseTypes⟩

/-- The operands behind a keyword in the reduced text: nothing when there are none, else
one space and the operands. -/
def afterKeyword (l : List Char) : List Char := if l = [] then [] else ' ' :: l

mutual
/-- The reduced text of a node: its rendering with the space before a closing
parenthesis dropped. -/
def TreeNode.redChars : TreeNode → List Char
  | .PredicateNode p =>
    '(' :: joinSpace (p.name.data :: p.parameters.map (fun q => q.name.data)) ++ [')']
  | .NotNode op => "(not ".data ++ op.redChars ++ [')']
  | .AndNode ops => "(and".data ++ afterKeyword (TreeNode.redCharsList ops) ++ [')']
  | .OrNode ops => "(or".data ++ afterKeyword (TreeNode.redCharsList ops) ++ [')']
/-- The reduced texts of the nodes of a list, one after the other. -/
def TreeNode.redCharsList : List TreeNode → List Char
  | [] => []
  | t :: ts => t.redChars ++ TreeNode.redCharsList ts
end

/-- The text of a reduced node between its outer parentheses. -/
def TreeNode.bodyChars : TreeNode → List Char
  | .PredicateNode p => joinSpace (p.name.data :: p.parameters.map (fun q => q.name.data))
  | .NotNode op => "not ".data ++ op.redChars
  | .AndNode ops => "and".data ++ afterKeyword (TreeNode.redCharsList ops)
  | .OrNode ops => "or".data ++ afterKeyword (TreeNode.redCharsList ops)

/-- A text the scanner reads through inside a group without leaving the group. -/
def Bal (w : List Char) : Prop :=
  ∀ rest d cur acc, splitAux (w ++ rest) (d + 1) cur acc = splitAux rest (d + 1) (cur ++ w) acc

/-- Whether the two characters occur next to each other, in this order, in the text. -/
def hasPair (a b : Char) : List Char → Bool
  | [] => false
  | [_] => false
  | c :: d :: r => (decide (c = a) && decide (d = b)) || hasPair a b (d :: r)

/-- The deletions of `getReducedString` in a text: `DeletesSpaces prev t r` says that `r`
is `t` with some spaces deleted, each of them standing in `t` right behind an opening
parenthesis or right before a closing one; `prev` is the character of `t` before the
part being read. -/
inductive DeletesSpaces : Option Char → List Char → List Char → Prop where
  | done (prev : Option Char) : DeletesSpaces prev [] []
  | keep (prev : Option Char) (c : Char) (t r : List Char) :
    DeletesSpaces (some c) t r → DeletesSpaces prev (c :: t) (c :: r)
  | afterOpen (t r : List Char) :
    DeletesSpaces (some ' ') t r → DeletesSpaces (some '(') (' ' :: t) r
  | beforeClose (prev : Option Char) (t r : List Char) :
    DeletesSpaces (some ' ') (')' :: t) r → DeletesSpaces prev (' ' :: ')' :: t) r

/-- Modelled from the spec: `Assignment::splitExpr` (Types.cpp is not under src/), as the
unit test calls it on a whole parenthesized form: the outer parentheses are stripped and
the body is split with `splitTopLevel` of section 4.1; `none` stands for
`MalformedExpression`. -/
def Assignment.splitExpr (expr : String) : Option (List String) :=
  match stripOuter expr.data with
  | none => none
  | some body => (splitTopLevel body).map (fun elems => elems.map String.mk)

/-- The parenthesis depth after a text read from a given depth, `none` when a closing
parenthesis comes with nothing open. -/
def depthAfter : List Char → Nat → Option Nat
  | [], k => some k
  | c :: r, k =>
    if c = '(' then depthAfter r (k + 1)
    else if c = ')' then (match k with | 0 => none | j + 1 => depthAfter r j)
    else depthAfter r k

/-- A text with balanced parentheses. -/
def balanced (w : List Char) : Bool := depthAfter w 0 == some 0

/-- A paren-free token without spaces: not empty, no space, no parenthesis. -/
def isToken (w : List Char) : Bool :=
  !w.isEmpty && w.all (fun c => !(decide (c = ' ') || decide (c = '(') || decide (c = ')')))

/-- What may follow a token at top level: the end of the body, a space or a group. -/
def tokenEnds : List Char → Bool
  | [] => true
  | c :: _ => decide (c = ' ') || decide (c = '(')

/-- The bodies that are sequences of top-level elements: `TopLevel body elems` says that
`body` is made of the elements `elems`, in order, each a token or a balanced
parenthesized group, with any number of spaces around them; a group may touch its
neighbours, two tokens are kept apart by a space. -/
inductive TopLevel : List Char → List (List Char) → Prop where
  | done : TopLevel [] []
  | space (body : List Char) (elems : List (List Char)) :
    TopLevel body elems → TopLevel (' ' :: body) elems
  | group (inner body : List Char) (elems : List (List Char)) :
    balanced inner = true → TopLevel body elems →
    TopLevel ('(' :: (inner ++ ')' :: body)) (('(' :: (inner ++ [')'])) :: elems)
  | token (w body : List Char) (elems : List (List Char)) :
    isToken w = true → tokenEnds body = true → TopLevel body elems →
    TopLevel (w ++ body) (w :: elems)

/-- The response of `plansys2_msgs::srv::GetDomainTypes`, with the fields the callback
and the client use. -/
structure GetDomainTypesResponse where
  types : List String
  success : Bool
  error_info : String
  deriving DecidableEq, Repr

/-- The response of `plansys2_msgs::srv::GetDomainActions`: the action names and, in
parallel, their kinds. -/
structure GetDomainActionsResponse where
  actions : List String
  type : List String
  success : Bool
  error_info : String
  deriving DecidableEq, Repr

/-- A freshly constructed actions response. -/
def GetDomainActionsResponse.empty : GetDomainActionsResponse := ⟨[], [], false, ""⟩

/-- The response of `plansys2_msgs::srv::GetDomainPredicates`. -/
structure GetDomainPredicatesResponse where
  predicates : List String
  success : Bool
  error_info : String
  deriving DecidableEq, Repr

/-- The response of `plansys2_msgs::srv::GetDomain`. -/
structure GetDomainResponse where
  domain : String
  success : Bool
  error_info : String
  deriving DecidableEq, Repr

/-- The callback `DomainExpertNode::get_domain_types_service_callback`
(DomainExpertNode.cpp, lines 161-175); `domain_expert_` is `none` for the null pointer. -/
def get_domain_types_service_callback (domain_expert_ : Option DomainExpert)
    (response : GetDomainTypesResponse) : GetDomainTypesResponse :=
  match domain_expert_ with
  | none =>
    { response with success := false, error_info := "Requesting service in non-active state" }
  | some domain_expert => { response with success := true, types := domain_expert.getTypes }

/-- One turn of the loops of `get_domain_actions_service_callback`: the name is pushed on
`actions` and the kind on `type`. -/
def pushAction (kind : String) (response : GetDomainActionsResponse) (action : String) :
    GetDomainActionsResponse :=
  { response with actions := response.actions ++ [action], type := response.type ++ [kind] }

/-- The callback `DomainExpertNode::get_domain_actions_service_callback`
(DomainExpertNode.cpp, lines 177-198): the loop over the simple actions, then the loop
over the durative actions. -/
def get_domain_actions_service_callback (domain_expert_ : Option DomainExpert)
    (response : GetDomainActionsResponse) : GetDomainActionsResponse :=
  match domain_expert_ with
  | none =>
    { response with success := false, error_info := "Requesting service in non-active state" }
  | some domain_expert =>
    domain_expert.getDurativeActions.foldl (pushAction "durative-action")
      (domain_expert.getActions.foldl (pushAction "action") { response with success := true })

/-- The callback `DomainExpertNode::get_domain_predicates_service_callback`
(DomainExpertNode.cpp, lines 251-265). -/
def get_domain_predicates_service_callback (domain_expert_ : Option DomainExpert)
    (response : GetDomainPredicatesResponse) : GetDomainPredicatesResponse :=
  match domain_expert_ with
  | none =>
    { response with success := false, error_info := "Requesting service in non-active state" }
  | some domain_expert =>
    { response with success := true, predicates := domain_expert.getPredicates }

/-- The callback `DomainExpertNode::get_domain_service_callback` (DomainExpertNode.cpp,
lines 298-315); `getDomain` stands for `DomainExpert::getDomain`, which is not under
src/. -/
def get_domain_service_callback (getDomain : DomainExpert → String)
    (domain_expert_ : Option DomainExpert) (response : GetDomainResponse) : GetDomainResponse :=
  match domain_expert_ with
  | none =>
    { response with success := false, error_info := "Requesting service in non-active state" }
  | some domain_expert => { response with success := true, domain := getDomain domain_expert }

/-- The loop `for (i = 0; i < actions.size(); i++) if (type[i] == kind) ret.push_back(actions[i])`
of the two list readers of the client; a read past the end of `type` is rendered as the
empty text. -/
def collectKind (kind : String) (result : GetDomainActionsResponse) : List String :=
  (List.range result.actions.length).foldl
    (fun ret i => if result.type.getD i "" = kind then ret ++ [result.actions.getD i ""] else ret)
    []

/-- The reader `DomainExpertClient::getActions` (DomainExpertClient.cpp, lines 152-183) on
the outcome of the service call: `none` when the call did not complete in time. The
`success` flag is not consulted. -/
def DomainExpertClient.getActions (future_result : Option GetDomainActionsResponse) :
    List String :=
  match future_result with
  | none => []
  | some result => collectKind "action" result

/-- The reader `DomainExpertClient::getDurativeActions` (DomainExpertClient.cpp, lines
241-272) on the outcome of the service call. -/
def DomainExpertClient.getDurativeActions (future_result : Option GetDomainActionsResponse) :
    List String :=
  match future_result with
  | none => []
  | some result => collectKind "durative-action" result

/-- The domain of the unit tests with the action names that `TEST(domain_expert,
get_actions)` shows and the durative action `move` as `TEST(domain_expert,
get_action_params)` shows it; of `move_person`, `talk` and `approach` the tests show the
names only, their parameters and expressions are left empty. -/
def domain_simple_actions : DomainExpert :=
  { domain_simple with
    actions := [⟨"move_person", [], ⟨none⟩, ⟨none⟩⟩]
    durative_actions :=
      [{ name := "move"
         parameters := [⟨"?0", "robot"⟩, ⟨"?1", "room"⟩, ⟨"?2", "room"⟩]
         at_start_requirements := ⟨some (.AndNode [.PredicateNode
           ⟨"robot_at", [⟨"?0", ""⟩, ⟨"?1", ""⟩]⟩])⟩
         over_all_requirements := ⟨none⟩
         at_end_requirements := ⟨none⟩
         at_start_effects := ⟨some (.AndNode [.NotNode (.PredicateNode
           ⟨"robot_at", [⟨"?0", ""⟩, ⟨"?1", ""⟩]⟩)])⟩
         at_end_effects := ⟨some (.AndNode [.PredicateNode
           ⟨"robot_at", [⟨"?0", ""⟩, ⟨"?2", ""⟩]⟩])⟩ },
       ⟨"talk", [], ⟨none⟩, ⟨none⟩, ⟨none⟩, ⟨none⟩, ⟨none⟩⟩,
       ⟨"approach", [], ⟨none⟩, ⟨none⟩, ⟨none⟩, ⟨none⟩, ⟨none⟩⟩] }

/-- The index of the first character of the text that is one of the delimiters. -/
def firstDelim (delim : List Char) : List Char → Option Nat
  | [] => none
  | c :: r => if c ∈ delim then some 0 else (firstDelim delim r).map (fun i => i + 1)

/-- The call `string.find_first_of(delim, pos)` of `tokenize` (DomainExpertNode.cpp): the
first index at or behind `pos` of a character that is in `delim`; `none` is `npos`. A
character of the embedding is a `char` of the `std::string`. -/
def find_first_of (string delim : List Char) (pos : Nat) : Option Nat :=
  (firstDelim delim (string.drop pos)).map (fun i => pos + i)

/-- The call `string.substr(lastPos, pos - lastPos)` of `tokenize`: the characters from
`lastPos` up to `pos`; with `pos == npos` the count exceeds what is left and the text
runs to its end. -/
def substr (string : List Char) (lastPos : Nat) (pos : Option Nat) : List Char :=
  match pos with
  | none => string.drop lastPos
  | some p => (string.drop lastPos).take (p - lastPos)

/-- The `while` loop of `tokenize` (DomainExpertNode.cpp, lines 28-37) from the head of
one turn, with the values of `lastPos`, `pos` and `tokens`; the first argument bounds the
number of turns, `none` says that the bound was reached. -/
def tokenizeLoop : Nat → List Char → List Char → Nat → Option Nat → List (List Char) →
    Option (List (List Char))
  | 0, _, _, _, _, _ => none
  | fuel + 1, string, delim, lastPos, pos, tokens =>
    let tokens := if pos ≠ some lastPos then tokens ++ [substr string lastPos pos] else tokens
    match pos with
    | none => some tokens
    | some p =>
      if p + 1 = string.length then some tokens
      else tokenizeLoop fuel string delim (p + 1) (find_first_of string delim (p + 1)) tokens

/-- The function `tokenize` of DomainExpertNode.cpp (lines 23-40), given one turn more than
the text is long; `none` says that the loop did not end within them. -/
def tokenize (string delim : String) : Option (List String) :=
  (tokenizeLoop (string.length + 1) string.data delim.data 0
    (find_first_of string.data delim.data 0) []).map (fun tokens => tokens.map String.mk)

/-- The maximal non-empty runs of characters of the text that are no delimiters, in
order: the text split at every delimiter, the empty pieces dropped. -/
def maximalRuns (s delim : List Char) : List (List Char) :=
  (s.splitOnP (fun c => decide (c ∈ delim))).filter (fun t => !t.isEmpty)

/-- The maximal runs of a text, said without the code: the text is read from the left;
a delimiter is skipped; a token is a non-empty stretch without delimiter that ends at the
end of the text or in front of a delimiter, so no token can be made longer. -/
inductive MaximalRuns (delim : List Char) : List Char → List (List Char) → Prop where
  | done : MaximalRuns delim [] []
  | skip (c : Char) (s : List Char) (ts : List (List Char)) :
      c ∈ delim → MaximalRuns delim s ts → MaximalRuns delim (c :: s) ts
  | run (t s : List Char) (ts : List (List Char)) :
      t ≠ [] → (∀ c ∈ t, c ∉ delim) → (∀ c ∈ s.head?, c ∈ delim) →
      MaximalRuns delim s ts → MaximalRuns delim (t ++ s) (t :: ts)

/-- What `on_configure` can end with besides a configured domain. -/
inductive ConfigureFault where
  | loopBoundReached
  | readOutOfBounds
  deriving DecidableEq, Repr

/-- The transition `DomainExpertNode::on_configure` (DomainExpertNode.cpp, lines 90-115),
returning the new value of `domain_expert_`. `readFile` gives the text that the
`ifstream` of a path delivers, `construct` stands for the constructor `DomainExpert(text)`
and `extendDomain` for `DomainExpert::extendDomain`, both not under src/. The read
`model_files[0]` of an empty vector is reported as `readOutOfBounds`; the loop runs over
the indices from 1 on. -/
def on_configure {D : Type} (readFile : String → String) (construct : String → D)
    (extendDomain : D → String → D) (model_file : String) : Except ConfigureFault D :=
  match tokenize model_file ":" with
  | none => .error .loopBoundReached
  | some model_files =>
    match model_files[0]? with
    | none => .error .readOutOfBounds
    | some first =>
      .ok ((List.range (model_files.length - 1)).foldl
        (fun domain_expert i =>
          extendDomain domain_expert (readFile (model_files.getD (i + 1) "")))
        (construct (readFile first)))
/-- Modelled from the spec: the merge of two lists of named definitions in `extend`,
section 4.3 (DomainExpert.cpp is not under src/): a definition of the model whose name is
defined again is replaced by the new definition, in its place; the new definitions whose
names the model does not have are added behind, in their order. -/
def mergeNamed {α : Type} (key : α → String) (old new : List α) : List α :=
  old.map (fun o => (new.find? (fun nw => decide (key nw = key o))).getD o)
    ++ new.filter (fun nw => !old.any (fun o => decide (key o = key nw)))

/-- Modelled from the spec: the merge of a second domain fragment into the model, section
4.3 `extend` (DomainExpert.cpp is not under src/): new types are appended in first-seen
order; predicates (names compared up to letter case, as in the lookup), actions and
durative actions are merged by name, the later definition replacing the earlier one. -/
def DomainExpert.extendWith (d fragment : DomainExpert) : DomainExpert :=
  { name := d.name
    types := (d.types ++ fragment.types).eraseDups
    predicates := mergeNamed (fun p => lowerCase p.name) d.predicates fragment.predicates
    actions := mergeNamed (fun a => a.name) d.actions fragment.actions
    durative_actions :=
      mergeNamed (fun a => a.name) d.durative_actions fragment.durative_actions }

/-- Modelled from the spec: `DomainExpert::extendDomain(text)`, section 4.3 `extend`
(DomainExpert.cpp is not under src/): the text is parsed as a domain fragment and merged
into the model; `parseDomain` stands for the parser of domain texts. -/
def DomainExpert.extendDomain (parseDomain : String → DomainExpert) (d : DomainExpert)
    (text : String) : DomainExpert :=
  d.extendWith (parseDomain text)

/-- A stand-in for the parser of domain texts in the examples: every text defines the one
simple action `move`, whose parameter is named after the text that defined it. -/
def parse_move_marked (text : String) : DomainExpert :=
  { name := "simple", types := [], predicates := []
    actions := [⟨"move", [⟨text, ""⟩], ⟨none⟩, ⟨none⟩⟩]
    durative_actions := [] }

/-- The model that `on_configure` is to build from the list of model files: the domain of
the text of the first file, extended with the text of each further file, left to right;
no first file is the out-of-bounds read. -/
def foldModelFiles {D : Type} (readFile : String → String) (construct : String → D)
    (extendDomain : D → String → D) : List String → Except ConfigureFault D
  | [] => .error .readOutOfBounds
  | first :: rest =>
    .ok (rest.foldl (fun d f => extendDomain d (readFile f)) (construct (readFile first)))

/-- The reader `DomainExpertClient::getDurativeAction` (DomainExpertClient.cpp, lines
274-329) on the outcome of the service call: `none` when the call did not complete in
time. The five expression texts are parsed in the order of the source; a failure of
`fromString` is passed on. -/
def DomainExpertClient.getDurativeAction
    (future_result : Option GetDomainActionDetailsResponse) :
    Except ParseError (Option DurativeAction) :=
  match future_result with
  | none => .ok none
  | some result =>
    if result.success then
      if result.type = "durative-action" then
        match PredicateTree.fromString result.at_start_requirements with
        | .error e => .error e
        | .ok at_start_requirements =>
        match PredicateTree.fromString result.over_all_requirements with
        | .error e => .error e
        | .ok over_all_requirements =>
        match PredicateTree.fromString result.at_end_requirements with
        | .error e => .error e
        | .ok at_end_requirements =>
        match PredicateTree.fromString result.at_start_effects with
        | .error e => .error e
        | .ok at_start_effects =>
        match PredicateTree.fromString result.at_end_effects with
        | .error e => .error e
        | .ok at_end_effects =>
          .ok (some ⟨result.name, rebuildParams result.param_names result.param_types,
            at_start_requirements, over_all_requirements, at_end_requirements,
            at_start_effects, at_end_effects⟩)
      else .ok none
    else .ok none

/-- The loop `for (i = 0; i < param_names.size(); i++)` of the client readers with every
read checked: `none` as soon as a read `param_names[i]` or `param_types[i]` is past the
end of its vector. -/
def rebuildParamsChecked (param_names param_types : List String) : Option (List Param) :=
  (List.range param_names.length).foldl
    (fun ret i =>
      match ret, param_names[i]?, param_types[i]? with
      | some parameters, some name, some type => some (parameters ++ [⟨name, type⟩])
      | _, _, _ => none)
    (some [])

/-- The loop `for (i = 0; i < actions.size(); i++) if (type[i] == kind) ret.push_back(actions[i])`
of the two list readers of the client with every read checked: `none` as soon as a read
`type[i]` or `actions[i]` is past the end of its vector. -/
def collectKindChecked (kind : String) (result : GetDomainActionsResponse) :
    Option (List String) :=
  (List.range result.actions.length).foldl
    (fun ret i =>
      match ret, result.type[i]?, result.actions[i]? with
      | some ret, some type, some action => if type = kind then some (ret ++ [action]) else some ret
      | _, _, _ => none)
    (some [])

/-- A domain in which the name `move` is declared twice, as a simple action and as the
durative action of the unit tests. -/
def domain_move_both : DomainExpert :=
  { domain_simple_actions with
    actions := [⟨"move", [⟨"?0", "robot"⟩], ⟨none⟩, ⟨none⟩⟩] }

/-! ## Texts: the library joins against the character lists -/

theorem data_foldl_append (l : List String) (init : String) :
    (l.foldl (fun r s => r ++ s) init).data = init.data ++ (l.map String.data).flatten := by
  induction l generalizing init with
  | nil => simp
  | cons a r ih => simp [ih, String.data_append]

theorem data_join (l : List String) : (String.join l).data = (l.map String.data).flatten := by
  simp [String.join, data_foldl_append]

theorem joinSpace_append_head (x y : List Char) (r : List (List Char)) :
    joinSpace ((x ++ y) :: r) = x ++ joinSpace (y :: r) := by
  cases r <;> simp [joinSpace]

theorem data_intercalate_go (acc : String) (l : List String) :
    (String.intercalate.go acc " " l).data = joinSpace (acc.data :: l.map String.data) := by
  induction l generalizing acc with
  | nil => simp [String.intercalate.go, joinSpace]
  | cons a r ih =>
    simp only [String.intercalate.go, ih, String.data_append, List.map_cons]
    rw [List.append_assoc, joinSpace_append_head]
    simp [joinSpace]
    cases r <;> simp [joinSpace]

theorem data_intercalate (l : List String) :
    (String.intercalate " " l).data = joinSpace (l.map String.data) := by
  cases l with
  | nil => simp [String.intercalate, joinSpace]
  | cons a r => simp [String.intercalate, data_intercalate_go]

theorem toCharsList_eq (ops : List TreeNode) :
    TreeNode.toCharsList ops = (ops.map (fun t => (TreeNode.toString t).data)).flatten := by
  induction ops with
  | nil => simp [TreeNode.toCharsList]
  | cons a r ih => simp [TreeNode.toCharsList, ih, TreeNode.toString]

/-! ## Rendering -/

/-- Claim C2: `toString` is the compact rendering. A predicate leaf gives "(" + name + " " +
the parameter names joined by single spaces + ")"; Not gives "(not " + the operand + ")";
And / Or give "(and " / "(or " + the children concatenated without separator + ")"; a
tree renders as its root and the empty tree as ""; the tree of the unit test renders as
the asserted text. -/
theorem toString_compact_rendering :
    (∀ p : Predicate, (TreeNode.PredicateNode p).toString
        = "(" ++ p.name ++ " " ++ String.intercalate " " (p.parameters.map (fun q => q.name))
          ++ ")")
    ∧ (∀ p : Predicate, p.toString = (TreeNode.PredicateNode p).toString)
    ∧ (∀ op : TreeNode, (TreeNode.NotNode op).toString = "(not " ++ op.toString ++ ")")
    ∧ (∀ ops : List TreeNode, (TreeNode.AndNode ops).toString
        = "(and " ++ String.join (ops.map TreeNode.toString) ++ ")")
    ∧ (∀ ops : List TreeNode, (TreeNode.OrNode ops).toString
        = "(or " ++ String.join (ops.map TreeNode.toString) ++ ")")
    ∧ (∀ r : TreeNode, (PredicateTree.mk (some r)).toString = r.toString)
    ∧ PredicateTree.empty.toString = ""
    ∧ predicate_1.toString = "(robot_at r2d2 bedroom)"
    ∧ (PredicateTree.mk (some pn_and)).toString
        = "(and (robot_at r2d2 bedroom)(not (robot_at r2d2 kitchen))"
          ++ "(or (person_at paco bedroom)(person_at paco kitchen)))" := by
  refine ⟨?_, ?_, ?_, ?_, ?_, ?_, ?_, ?_, ?_⟩
  · intro p
    apply String.ext
    simp [TreeNode.toString, TreeNode.toChars, Predicate.toChars, String.data_append,
      data_intercalate, List.map_map, Function.comp_def]
  · intro p
    rfl
  · intro op
    apply String.ext
    simp [TreeNode.toString, TreeNode.toChars, String.data_append]
  · intro ops
    apply String.ext
    simp [TreeNode.toString, TreeNode.toChars, String.data_append, data_join, toCharsList_eq,
      List.map_map, Function.comp_def]
  · intro ops
    apply String.ext
    simp [TreeNode.toString, TreeNode.toChars, String.data_append, data_join, toCharsList_eq,
      List.map_map, Function.comp_def]
  · intro r
    rfl
  · rfl
  · decide
  · decide

/-! ## Facts -/

theorem existPredicate_iff (kb : ProblemExpert) (p : Predicate) :
    kb.existPredicate p = true ↔ ∃ q ∈ kb.predicates_,
      lowerCase q.name = lowerCase p.name ∧
        q.parameters.map (fun x => x.name) = p.parameters.map (fun x => x.name) := by
  simp [ProblemExpert.existPredicate, predicateMatches, List.any_eq_true]

/-- The assertions of the unit test do not fix the comparison: comparing the type fields
of the arguments with the declared types, and comparing the types of the stored instances
that the arguments name, both meet every assertion, and they differ on
`person_at(paco, kitchen)` written without types, as `fromString` builds it. -/
theorem addget_predicates_leaves_comparison_open :
    ∃ byField byInstance : ArgumentCheck,
      addget_predicates_asserts byField = true
      ∧ addget_predicates_asserts byInstance = true
      ∧ (kb_instances.addPredicate byField
          ⟨"person_at", [⟨"paco", ""⟩, ⟨"kitchen", ""⟩]⟩).1 = false
      ∧ (kb_instances.addPredicate byInstance
          ⟨"person_at", [⟨"paco", ""⟩, ⟨"kitchen", ""⟩]⟩).1 = true :=
  ⟨fun _ p sig =>
      decide (p.parameters.map (fun q => q.type) = sig.parameters.map (fun q => q.type)),
    fun kb p sig =>
      (List.zip p.parameters sig.parameters).all (fun am =>
        match kb.getInstance am.1.name with
        | none => false
        | some i => decide (i.type = am.2.type)),
    by decide, by decide, by decide, by decide⟩

theorem existInstance_iff (kb : ProblemExpert) (n : String) :
    kb.existInstance n = true ↔ ∃ i ∈ kb.instances_, i.name = n := by
  simp [ProblemExpert.existInstance, List.any_eq_true]

theorem existInstance_false_iff (kb : ProblemExpert) (n : String) :
    kb.existInstance n = false ↔ ∀ i ∈ kb.instances_, i.name ≠ n := by
  rw [← Bool.not_eq_true, existInstance_iff]
  simp

theorem reachable_names_nodup (kb : ProblemExpert) (h : kb.Reachable) :
    (kb.instances_.map (fun i => i.name)).Nodup := by
  induction h with
  | init d => simp [ProblemExpert.init]
  | addInstance kb i _ ih =>
    unfold ProblemExpert.addInstance
    cases h1 : kb.existInstance i.name
    · cases h2 : kb.isValidType i.type
      · simpa using ih
      · simp only [Bool.false_eq_true, ↓reduceIte, Bool.not_true, List.map_append, List.map_cons,
          List.map_nil]
        rw [List.nodup_append]
        refine ⟨ih, by simp, ?_⟩
        rw [existInstance_false_iff] at h1
        intro a ha hb
        simp at hb
        subst hb
        obtain ⟨j, hj, hjn⟩ := List.mem_map.mp ha
        exact h1 j hj hjn
    · simpa using ih
  | removeInstance kb n _ ih =>
    unfold ProblemExpert.removeInstance
    cases h1 : kb.existInstance n
    · simpa using ih
    · simp only [↓reduceIte]
      exact ih.sublist ((List.eraseP_sublist _).map _)
  | addPredicate typesAgree kb p _ ih =>
    unfold ProblemExpert.addPredicate
    cases h1 : kb.existPredicate p <;> cases h2 : kb.isValidPredicate typesAgree p <;>
      simpa using ih
  | removePredicate kb p _ ih =>
    unfold ProblemExpert.removePredicate
    cases h1 : kb.existPredicate p <;> simpa using ih
  | setGoal kb g _ ih => simpa [ProblemExpert.setGoal] using ih
  | clearGoal kb _ ih => simpa [ProblemExpert.clearGoal] using ih

/-- Claim C5: `addInstance(i)` returns true and appends `i` at the end of the instance list
when no stored instance has the name of `i` (compared case-sensitively) and the type of
`i` is one of the types of the domain; otherwise it returns false and the knowledge base
is unchanged. -/
theorem addInstance_accepts_or_rejects (kb : ProblemExpert) (i : Instance) :
    (((∀ j ∈ kb.instances_, j.name ≠ i.name) ∧ i.type ∈ kb.domain_expert_.getTypes) →
      kb.addInstance i = (true, { kb with instances_ := kb.instances_ ++ [i] }))
    ∧ (¬ ((∀ j ∈ kb.instances_, j.name ≠ i.name) ∧ i.type ∈ kb.domain_expert_.getTypes) →
      kb.addInstance i = (false, kb)) := by
  rw [← existInstance_false_iff]
  unfold ProblemExpert.addInstance ProblemExpert.isValidType
  cases h1 : kb.existInstance i.name <;>
    by_cases h2 : i.type ∈ kb.domain_expert_.getTypes <;> simp [h2]

/-- Witness of claim C5 on the unit test: adding Paco:person succeeds once, fails when
repeated, and fails for the undeclared type SCIENTIFIC. -/
theorem addInstance_accepts_or_rejects_witness :
    (ProblemExpert.init domain_simple).addInstance ⟨"Paco", "person"⟩
      = (true, { ProblemExpert.init domain_simple with instances_ := [⟨"Paco", "person"⟩] })
    ∧ ((ProblemExpert.init domain_simple).addInstance ⟨"Paco", "person"⟩).2.addInstance
        ⟨"Paco", "person"⟩
      = (false, ((ProblemExpert.init domain_simple).addInstance ⟨"Paco", "person"⟩).2)
    ∧ ((ProblemExpert.init domain_simple).addInstance ⟨"Paco", "person"⟩).2.addInstance
        ⟨"Paco", "SCIENTIFIC"⟩
      = (false, ((ProblemExpert.init domain_simple).addInstance ⟨"Paco", "person"⟩).2) := by
  have h1 := (addInstance_accepts_or_rejects (ProblemExpert.init domain_simple)
    ⟨"Paco", "person"⟩).1 ⟨by decide, by decide⟩
  refine ⟨h1, ?_, ?_⟩
  · exact (addInstance_accepts_or_rejects _ ⟨"Paco", "person"⟩).2 (by rw [h1]; decide)
  · exact (addInstance_accepts_or_rejects _ ⟨"Paco", "SCIENTIFIC"⟩).2 (by rw [h1]; decide)

/-- Claim C8: `removeInstance(name)` returns false and changes nothing when no instance has
that name; otherwise it returns true, removes that instance, keeps the other instances in
their order, leaves the facts and the goal untouched, and afterwards `getInstance(name)`
is empty while `getInstance` of any other name answers as before. -/
theorem removeInstance_frame (kb : ProblemExpert) (name : String) (hreach : kb.Reachable) :
    ((∀ i ∈ kb.instances_, i.name ≠ name) → kb.removeInstance name = (false, kb))
    ∧ ((∃ i ∈ kb.instances_, i.name = name) →
      (kb.removeInstance name).1 = true
      ∧ (∃ l1 x l2, kb.instances_ = l1 ++ x :: l2 ∧ x.name = name
          ∧ (kb.removeInstance name).2.instances_ = l1 ++ l2)
      ∧ (kb.removeInstance name).2.predicates_ = kb.predicates_
      ∧ (kb.removeInstance name).2.goal_ = kb.goal_
      ∧ (kb.removeInstance name).2.getInstance name = none
      ∧ (∀ other, other ≠ name →
          (kb.removeInstance name).2.getInstance other = kb.getInstance other)) := by
  constructor
  · intro h
    have : kb.existInstance name = false := (existInstance_false_iff kb name).mpr h
    simp [ProblemExpert.removeInstance, this]
  · intro h
    have he : kb.existInstance name = true := (existInstance_iff kb name).mpr h
    obtain ⟨i, hi, hn⟩ := h
    have hpi : (fun j : Instance => decide (j.name = name)) i = true := by simp [hn]
    obtain ⟨a, l1, l2, hl1, ha, hsplit, herase⟩ :=
      List.exists_of_eraseP (p := fun j : Instance => decide (j.name = name)) hi hpi
    have han : a.name = name := by simpa using ha
    have hnd := reachable_names_nodup kb hreach
    rw [hsplit] at hnd
    simp only [ProblemExpert.removeInstance, he, ↓reduceIte, true_and,
      ProblemExpert.getInstance]
    refine ⟨⟨l1, a, l2, hsplit, han, herase⟩, ?_, ?_⟩
    · rw [herase, List.find?_eq_none]
      intro x hx
      simp only [decide_eq_true_eq]
      rcases List.mem_append.mp hx with h1 | h2
      · simpa using hl1 x h1
      · intro hxn
        simp only [List.map_append, List.map_cons] at hnd
        have := (List.nodup_append.mp hnd).2.1
        rw [List.nodup_cons] at this
        apply this.1
        rw [han, ← hxn]
        exact List.mem_map_of_mem _ h2
    · intro other hne
      rw [herase, hsplit]
      simp only [List.find?_append, List.find?_cons]
      have : decide (a.name = other) = false := by
        simp [han, Ne.symm hne]
      rw [this]

/-- Witness of claim C8 on the unit test: after Paco and r2d2 are added, removing Paco
succeeds, leaves exactly r2d2, `getInstance("Paco")` is empty and `getInstance("r2d2")`
still answers r2d2:robot. -/
theorem removeInstance_frame_witness :
    kb_paco_r2d2.Reachable
    ∧ (kb_paco_r2d2.removeInstance "Paco").1 = true
    ∧ (kb_paco_r2d2.removeInstance "Paco").2.getInstances = [⟨"r2d2", "robot"⟩]
    ∧ (kb_paco_r2d2.removeInstance "Paco").2.getInstance "Paco" = none
    ∧ (kb_paco_r2d2.removeInstance "Paco").2.getInstance "r2d2" = some ⟨"r2d2", "robot"⟩ :=
  have hr : kb_paco_r2d2.Reachable := .addInstance _ _ (.addInstance _ _ (.init _))
  have h := (removeInstance_frame kb_paco_r2d2 "Paco" hr).2 ⟨⟨"Paco", "person"⟩, by decide, rfl⟩
  ⟨hr, h.1, by decide, h.2.2.2.2.1, by rw [h.2.2.2.2.2 "r2d2" (by decide)]; decide⟩

/-! ## Facts: removal -/

/-- Claim C7, refuted as stated: in the knowledge base of the unit test no stored fact has
the name `PERSON_AT`, so no stored fact has the same name and the same ordered parameter
names as `PERSON_AT(paco, kitchen)`, and still `removePredicate` returns true and removes
`person_at(paco, kitchen)`, which matches up to letter case. -/
theorem removePredicate_same_name_refuted :
    (∀ q ∈ kb_facts.predicates_, q.name ≠ predicate_4_upper.name)
    ∧ (kb_facts.removePredicate predicate_4_upper).1 = true
    ∧ (kb_facts.removePredicate predicate_4_upper).2.getPredicates
        = [predicate_1, predicate_2, predicate_3]
    ∧ (kb_facts.removePredicate predicate_4_upper).2.getPredicates ≠ kb_facts.getPredicates := by
  refine ⟨by decide, by decide, by decide, by decide⟩

/-- Claim C7, amended: `removePredicate(p)` returns false and leaves the knowledge base
unchanged when no stored fact matches `p` (same name up to letter case, same ordered
parameter names); otherwise it returns true and removes exactly one matching fact: the
fact list splits around that fact and the result is the two sides in their order, one
fact shorter; the instances and the goal are untouched. -/
theorem removePredicate_removes_one (kb : ProblemExpert) (p : Predicate) :
    ((∀ q ∈ kb.predicates_, ¬ (lowerCase q.name = lowerCase p.name ∧
        q.parameters.map (fun x => x.name) = p.parameters.map (fun x => x.name))) →
      kb.removePredicate p = (false, kb))
    ∧ ((∃ q ∈ kb.predicates_, lowerCase q.name = lowerCase p.name ∧
        q.parameters.map (fun x => x.name) = p.parameters.map (fun x => x.name)) →
      (kb.removePredicate p).1 = true
      ∧ (∃ l1 q l2, kb.predicates_ = l1 ++ q :: l2
          ∧ (lowerCase q.name = lowerCase p.name ∧
            q.parameters.map (fun x => x.name) = p.parameters.map (fun x => x.name))
          ∧ (kb.removePredicate p).2.predicates_ = l1 ++ l2)
      ∧ (kb.removePredicate p).2.predicates_.length + 1 = kb.predicates_.length
      ∧ (kb.removePredicate p).2.instances_ = kb.instances_
      ∧ (kb.removePredicate p).2.goal_ = kb.goal_) := by
  constructor
  · intro h
    have : kb.existPredicate p = false := by
      rw [← Bool.not_eq_true, existPredicate_iff]
      rintro ⟨q, hq, hm⟩
      exact h q hq hm
    simp [ProblemExpert.removePredicate, this]
  · intro h
    have he : kb.existPredicate p = true := (existPredicate_iff kb p).mpr h
    obtain ⟨q, hq, hm⟩ := h
    have hpm : predicateMatches q p = true := by simp [predicateMatches, hm]
    obtain ⟨a, l1, l2, _, ha, hsplit, herase⟩ :=
      List.exists_of_eraseP (p := fun q => predicateMatches q p) hq hpm
    simp only [ProblemExpert.removePredicate, he, ↓reduceIte, true_and]
    refine ⟨⟨l1, a, l2, hsplit, ?_, herase⟩, ?_⟩
    · simpa [predicateMatches] using ha
    · rw [herase, hsplit]
      simp
      omega

/-- Witness of claim C7 on the unit test: with the four facts stored, removing the
four-parameter `predicate_5` fails and changes nothing, removing `predicate_4` succeeds
and leaves the three other facts in their order, and so does removing
`PERSON_AT(paco, kitchen)`, whose name differs from the stored one in letter case only. -/
theorem removePredicate_removes_one_witness :
    kb_facts.removePredicate predicate_5 = (false, kb_facts)
    ∧ (kb_facts.removePredicate predicate_4).1 = true
    ∧ (kb_facts.removePredicate predicate_4).2.predicates_.length + 1 = 4
    ∧ (kb_facts.removePredicate predicate_4).2.getPredicates
        = [predicate_1, predicate_2, predicate_3]
    ∧ (kb_facts.removePredicate predicate_4_upper).1 = true
    ∧ (kb_facts.removePredicate predicate_4_upper).2.predicates_.length + 1 = 4 :=
  have h1 := (removePredicate_removes_one kb_facts predicate_5).1 (by decide)
  have h2 := (removePredicate_removes_one kb_facts predicate_4).2
    ⟨predicate_4, by decide, by decide, by decide⟩
  have h3 := (removePredicate_removes_one kb_facts predicate_4_upper).2
    ⟨predicate_4, by decide, by decide, by decide⟩
  ⟨h1, h2.1, h2.2.2.1, by decide, h3.1, h3.2.2.1⟩

/-! ## Goal -/

/-- Claim C9: for all goals `g1`, `g2`, `setGoal(g1)` then `setGoal(g2)` both return true
and leave `getGoal()` equal to `g2`, so `getGoal().toString() == g2.toString()`;
`clearGoal()` returns true every time, after one or more calls `getGoal().toString()` is
the empty text, and a second `clearGoal()` changes nothing. -/
theorem goal_lifecycle (kb : ProblemExpert) (g1 g2 : Goal) (n : Nat) :
    (kb.setGoal g1).1 = true
    ∧ ((kb.setGoal g1).2.setGoal g2).1 = true
    ∧ ((kb.setGoal g1).2.setGoal g2).2.getGoal = g2
    ∧ ((kb.setGoal g1).2.setGoal g2).2.getGoal.toString = g2.toString
    ∧ (clearGoalTimes n kb).clearGoal.1 = true
    ∧ (clearGoalTimes (n + 1) kb).getGoal.toString = ""
    ∧ kb.clearGoal.2.clearGoal = kb.clearGoal := by
  refine ⟨rfl, rfl, rfl, rfl, rfl, rfl, rfl⟩

/-! ## Predicate lookup, in the domain and through the service -/

theorem rebuildParams_map (ps : List Param) :
    rebuildParams (ps.map (fun q => q.name)) (ps.map (fun q => q.type)) = ps := by
  apply List.ext_getElem
  · simp [rebuildParams]
  · intro i h1 h2
    simp [rebuildParams, List.getD_eq_getElem?_getD, List.getElem?_eq_getElem h2]

theorem client_getPredicate_callback (d : DomainExpert) (n : String) :
    DomainExpertClient.getPredicate (some (get_domain_predicate_details_service_callback
      (some d) n GetDomainPredicateDetailsResponse.empty))
      = (d.getPredicate n).map (fun q => ⟨n, q.parameters⟩) := by
  simp only [get_domain_predicate_details_service_callback]
  cases d.getPredicate n <;>
    simp [DomainExpertClient.getPredicate, GetDomainPredicateDetailsResponse.empty,
      rebuildParams_map]

/-- Claim C10, refuted as stated: "ROBOT_TALK" equals the declared name "robot_talk" up to
letter case, but `DomainExpertClient::getPredicate("ROBOT_TALK")`, answered by the
callback of the node, carries the name "ROBOT_TALK", not the stored name, and so differs
from the answer for "robot_talk". -/
theorem client_getPredicate_name_refuted :
    lowerCase "ROBOT_TALK" = lowerCase "robot_talk"
    ∧ domain_simple.getPredicate "robot_talk" = some ⟨"robot_talk",
        [⟨"?robot0", "robot"⟩, ⟨"?message1", "message"⟩, ⟨"?person2", "person"⟩]⟩
    ∧ DomainExpertClient.getPredicate (some (get_domain_predicate_details_service_callback
        (some domain_simple) "ROBOT_TALK" GetDomainPredicateDetailsResponse.empty))
      = some ⟨"ROBOT_TALK",
        [⟨"?robot0", "robot"⟩, ⟨"?message1", "message"⟩, ⟨"?person2", "person"⟩]⟩
    ∧ DomainExpertClient.getPredicate (some (get_domain_predicate_details_service_callback
        (some domain_simple) "ROBOT_TALK" GetDomainPredicateDetailsResponse.empty))
      ≠ DomainExpertClient.getPredicate (some (get_domain_predicate_details_service_callback
        (some domain_simple) "robot_talk" GetDomainPredicateDetailsResponse.empty)) := by
  refine ⟨by decide, by decide, by decide, by decide⟩

/-- Claim C10, amended: for every declared predicate `p` and every `n` equal to its name up
to letter case, the domain model answers `getPredicate(n)` as it answers
`getPredicate(p.name)`, with a declared signature of that name up to case, stored name
in its original case, and with `p` itself when no other declared name equals it up to
case; for a name matching no declared predicate the answer is empty, also through the
service. Through the service the parameters are those of the model's answer, but the
name is the request text `n` as sent. -/
theorem getPredicate_case_insensitive (d : DomainExpert) (n : String) :
    (∀ p ∈ d.predicates, lowerCase n = lowerCase p.name →
      d.getPredicate n = d.getPredicate p.name
      ∧ (∃ q ∈ d.predicates, lowerCase q.name = lowerCase p.name ∧ d.getPredicate n = some q)
      ∧ ((∀ q ∈ d.predicates, lowerCase q.name = lowerCase p.name → q = p) →
          d.getPredicate n = some p))
    ∧ ((∀ q ∈ d.predicates, lowerCase q.name ≠ lowerCase n) →
        d.getPredicate n = none
        ∧ DomainExpertClient.getPredicate (some (get_domain_predicate_details_service_callback
            (some d) n GetDomainPredicateDetailsResponse.empty)) = none)
    ∧ DomainExpertClient.getPredicate (some (get_domain_predicate_details_service_callback
        (some d) n GetDomainPredicateDetailsResponse.empty))
      = (d.getPredicate n).map (fun q => ⟨n, q.parameters⟩) := by
  refine ⟨?_, ?_, client_getPredicate_callback d n⟩
  · intro p hp hn
    have hsame : d.getPredicate n = d.getPredicate p.name := by
      simp [DomainExpert.getPredicate, hn]
    have hex : ∃ q ∈ d.predicates, lowerCase q.name = lowerCase p.name ∧
        d.getPredicate n = some q := by
      cases hf : d.getPredicate n with
      | none =>
        simp only [DomainExpert.getPredicate, List.find?_eq_none, decide_eq_true_eq] at hf
        exact absurd hn.symm (hf p hp)
      | some q =>
        simp only [DomainExpert.getPredicate] at hf
        have h1 := List.find?_some hf
        have h2 := List.mem_of_find?_eq_some hf
        simp only [decide_eq_true_eq] at h1
        exact ⟨q, h2, by rw [h1, hn], rfl⟩
    refine ⟨hsame, hex, ?_⟩
    intro huniq
    obtain ⟨q, hq, hqn, hget⟩ := hex
    rw [hget, huniq q hq hqn]
  · intro hnone
    have hg : d.getPredicate n = none := by
      simp only [DomainExpert.getPredicate, List.find?_eq_none, decide_eq_true_eq]
      exact hnone
    exact ⟨hg, by rw [client_getPredicate_callback, hg]; rfl⟩

/-- Witness of claim C10 on the unit test: in the domain model `getPredicate("ROBOT_TALK")`
and `getPredicate("robot_talk")` both return the stored signature of `robot_talk`, and an
undeclared name returns empty. -/
theorem getPredicate_case_insensitive_witness :
    domain_simple.getPredicate "ROBOT_TALK" = domain_simple.getPredicate "robot_talk"
    ∧ domain_simple.getPredicate "ROBOT_TALK" = some ⟨"robot_talk",
        [⟨"?robot0", "robot"⟩, ⟨"?message1", "message"⟩, ⟨"?person2", "person"⟩]⟩
    ∧ domain_simple.getPredicate "noexist" = none :=
  have h := (getPredicate_case_insensitive domain_simple "ROBOT_TALK").1
    ⟨"robot_talk", [⟨"?robot0", "robot"⟩, ⟨"?message1", "message"⟩, ⟨"?person2", "person"⟩]⟩
    (by decide) (by decide)
  ⟨h.1, h.2.2 (by decide),
    ((getPredicate_case_insensitive domain_simple "noexist").2.1 (by decide)).1⟩

/-! ## Problem text -/

theorem prettyCharsList_eq (k : Nat) (ops : List TreeNode) :
    TreeNode.prettyCharsList k ops
      = (ops.map (fun t => (TreeNode.prettyString k t).data)).flatten := by
  induction ops with
  | nil => simp [TreeNode.prettyCharsList]
  | cons a r ih => simp [TreeNode.prettyCharsList, ih, TreeNode.prettyString]

theorem objectsChars_eq (kb : ProblemExpert) (types : List String) :
    kb.objectsChars types
      = ((types.filter (fun ty => kb.instances_.any (fun i => decide (i.type = ty)))).map
          (fun ty => ("\t" ++ String.intercalate " "
            ((kb.instances_.filter (fun i => decide (i.type = ty))).map (fun i => i.name))
            ++ " - " ++ ty ++ "\n").data)).flatten := by
  induction types with
  | nil => simp [ProblemExpert.objectsChars]
  | cons ty r ih =>
    simp only [ProblemExpert.objectsChars, ih, List.filter_cons]
    by_cases h : kb.instances_.any (fun i => decide (i.type = ty)) = true
    · have hne : kb.instancesOfType ty ≠ [] := by
        simp only [ProblemExpert.instancesOfType, ne_eq, List.map_eq_nil_iff,
          List.filter_eq_nil_iff, not_forall]
        simp only [List.any_eq_true] at h
        obtain ⟨x, hx, hxt⟩ := h
        exact ⟨x, hx, by simpa using hxt⟩
      rw [if_neg hne, if_pos h]
      simp [String.data_append, data_intercalate, ProblemExpert.instancesOfType,
        List.map_map, Function.comp_def]
    · have he : kb.instancesOfType ty = [] := by
        simp only [ProblemExpert.instancesOfType, List.map_eq_nil_iff, List.filter_eq_nil_iff]
        simp only [List.any_eq_true, not_exists, not_and] at h
        intro x hx
        exact h x hx
      rw [if_pos he, if_neg h]
      simp

theorem initChars_eq (facts : List Predicate) :
    initChars facts = (facts.map (fun p => ("\t( " ++ p.name ++ " " ++ String.intercalate " "
      (p.parameters.map (fun q => q.name)) ++ " )\n").data)).flatten := by
  induction facts with
  | nil => simp [initChars]
  | cons p r ih =>
    simp [initChars, ih, Predicate.spacedChars, String.data_append, data_intercalate,
      List.map_map, Function.comp_def]

/-- Claim C6, refuted as stated: the knowledge base of the unit test before `setGoal` has
no goal, and its problem text ends right after the `:init` block; it is not the claimed
text with a `:goal` block, whatever stands for the pretty form of the goal. -/
theorem getProblem_empty_goal_refuted :
    kb_facts.getGoal.toString = ""
    ∧ kb_facts.getProblem
      = "( define ( problem problem_1 )\n( :domain simple )\n( :objects\n"
        ++ "\tpaco - person\n\tr2d2 - robot\n\tbedroom kitchen - room\n)\n"
        ++ "( :init\n\t( robot_at r2d2 bedroom )\n\t( robot_at r2d2 kitchen )\n"
        ++ "\t( person_at paco bedroom )\n\t( person_at paco kitchen )\n)\n)\n"
    ∧ ¬ ∃ pretty : String, kb_facts.getProblem
      = "( define ( problem problem_1 )\n( :domain simple )\n( :objects\n"
        ++ "\tpaco - person\n\tr2d2 - robot\n\tbedroom kitchen - room\n)\n"
        ++ "( :init\n\t( robot_at r2d2 bedroom )\n\t( robot_at r2d2 kitchen )\n"
        ++ "\t( person_at paco bedroom )\n\t( person_at paco kitchen )\n)\n"
        ++ "( :goal\n" ++ pretty ++ ")\n)\n" := by
  have h2 : kb_facts.getProblem
      = "( define ( problem problem_1 )\n( :domain simple )\n( :objects\n"
        ++ "\tpaco - person\n\tr2d2 - robot\n\tbedroom kitchen - room\n)\n"
        ++ "( :init\n\t( robot_at r2d2 bedroom )\n\t( robot_at r2d2 kitchen )\n"
        ++ "\t( person_at paco bedroom )\n\t( person_at paco kitchen )\n)\n)\n" := by
    decide
  refine ⟨by decide, h2, ?_⟩
  rintro ⟨pretty, h⟩
  rw [h2] at h
  have hd := congrArg String.data h
  simp [String.data_append] at hd

/-- Claim C6, amended: `getProblem()` is the header with the fixed problem name, the domain
line, under `:objects` one line per domain type that has an instance (types in the
domain's order, instances in insertion order), under `:init` one line per fact in
insertion order, then, only when the goal is not empty, the `:goal` block with the goal
in pretty form, then the closing line; in the pretty form a node stands behind its tabs,
every child of a boolean node on its own line one tab deeper and the closing parenthesis
on its own line. For the four instances, four facts and two-term goal of the unit test
the text is the asserted one byte for byte. -/
theorem getProblem_text :
    (∀ kb : ProblemExpert, kb.getProblem =
      "( define ( problem problem_1 )\n( :domain " ++ kb.domain_expert_.name ++ " )\n( :objects\n"
      ++ String.join
          ((kb.domain_expert_.getTypes.filter
              (fun ty => kb.instances_.any (fun i => decide (i.type = ty)))).map
            (fun ty => "\t" ++ String.intercalate " "
              ((kb.instances_.filter (fun i => decide (i.type = ty))).map (fun i => i.name))
              ++ " - " ++ ty ++ "\n"))
      ++ ")\n( :init\n"
      ++ String.join (kb.predicates_.map (fun p => "\t( " ++ p.name ++ " "
            ++ String.intercalate " " (p.parameters.map (fun q => q.name)) ++ " )\n"))
      ++ ")\n"
      ++ (match kb.goal_.root_ with
          | none => ""
          | some r => "( :goal\n" ++ r.prettyString 1 ++ ")\n")
      ++ ")\n")
    ∧ (∀ (k : Nat) (p : Predicate), (TreeNode.PredicateNode p).prettyString k
        = String.mk (tabs k) ++ "( " ++ p.name ++ " "
          ++ String.intercalate " " (p.parameters.map (fun q => q.name)) ++ " )\n")
    ∧ (∀ (k : Nat) (op : TreeNode), (TreeNode.NotNode op).prettyString k
        = String.mk (tabs k) ++ "( not\n" ++ op.prettyString (k + 1)
          ++ String.mk (tabs k) ++ ")\n")
    ∧ (∀ (k : Nat) (ops : List TreeNode), (TreeNode.AndNode ops).prettyString k
        = String.mk (tabs k) ++ "( and\n"
          ++ String.join (ops.map (TreeNode.prettyString (k + 1)))
          ++ String.mk (tabs k) ++ ")\n")
    ∧ (∀ (k : Nat) (ops : List TreeNode), (TreeNode.OrNode ops).prettyString k
        = String.mk (tabs k) ++ "( or\n"
          ++ String.join (ops.map (TreeNode.prettyString (k + 1)))
          ++ String.mk (tabs k) ++ ")\n")
    ∧ PredicateTree.fromString "(and (robot_at r2d2 bedroom)(person_at paco kitchen))"
        = .ok ⟨some goal_tree⟩
    ∧ kb_goal.getProblem
      = "( define ( problem problem_1 )\n( :domain simple "
        ++ ")\n( :objects\n\tpaco - person\n\tr2d2 - robot\n\tbedroom kitchen - room\n)\n"
        ++ "( :init\n\t( robot_at r2d2 bedroom )\n\t( robot_at r2d2 kitchen )\n\t( "
        ++ "person_at paco bedroom )\n\t( person_at paco kitchen )\n)\n( :goal\n\t( "
        ++ "and\n\t\t( robot_at r2d2 bedroom )\n\t\t( person_at paco kitchen )\n\t)\n)\n)\n" := by
  refine ⟨?_, ?_, ?_, ?_, ?_, ?_, ?_⟩
  · intro kb
    apply String.ext
    cases hg : kb.goal_.root_ <;>
    simp [ProblemExpert.getProblem, goalChars, hg, String.data_append, data_join,
      objectsChars_eq, initChars_eq, List.map_map, Function.comp_def, TreeNode.prettyString]
  · intro k p
    apply String.ext
    simp [TreeNode.prettyString, TreeNode.prettyChars, Predicate.spacedChars,
      String.data_append, data_intercalate, List.map_map, Function.comp_def]
  · intro k op
    apply String.ext
    simp [TreeNode.prettyString, TreeNode.prettyChars, String.data_append]
  · intro k ops
    apply String.ext
    simp [TreeNode.prettyString, TreeNode.prettyChars, String.data_append, data_join,
      prettyCharsList_eq, List.map_map, Function.comp_def]
  · intro k ops
    apply String.ext
    simp [TreeNode.prettyString, TreeNode.prettyChars, String.data_append, data_join,
      prettyCharsList_eq, List.map_map, Function.comp_def]
  · rfl
  · decide

/-! ## Round trip of the compact rendering -/

theorem TreeNode.induct {P : TreeNode → Prop}
    (hp : ∀ p, P (.PredicateNode p))
    (hn : ∀ op, P op → P (.NotNode op))
    (ha : ∀ ops, (∀ t ∈ ops, P t) → P (.AndNode ops))
    (ho : ∀ ops, (∀ t ∈ ops, P t) → P (.OrNode ops)) : ∀ t, P t := by
  intro t
  exact @TreeNode.rec P (fun l => ∀ t ∈ l, P t) hp (fun op ih => hn op ih)
    (fun ops ih => ha ops ih) (fun ops ih => ho ops ih)
    (by intro t ht; cases ht)
    (by
      intro hd tl ih1 ih2 t ht
      rcases List.mem_cons.mp ht with h | h
      · rw [h]; exact ih1
      · exact ih2 t h) t

theorem plainList_iff (ops : List TreeNode) :
    TreeNode.plainList ops = true ↔ ∀ t ∈ ops, t.plain = true := by
  induction ops with
  | nil => simp [TreeNode.plainList]
  | cons a r ih => simp [TreeNode.plainList, ih]


/-! ### Plain characters and tokens -/

theorem plainChar_ne {c : Char} (h : plainChar c = true) :
    c ≠ ' ' ∧ c ≠ '(' ∧ c ≠ ')' ∧ c ≠ Char.ofNat 10 ∧ c ≠ Char.ofNat 9 := by
  simpa [plainChar, not_or, and_assoc] using h

theorem plainToken_iff (s : List Char) :
    plainToken s = true ↔ s ≠ [] ∧ ∀ c ∈ s, plainChar c = true := by
  cases s <;> simp [plainToken]

theorem mem_joinSpace {c : Char} (l : List (List Char)) (h : c ∈ joinSpace l) :
    c = ' ' ∨ ∃ a ∈ l, c ∈ a := by
  induction l with
  | nil => simp [joinSpace] at h
  | cons a r ih =>
    cases r with
    | nil => exact Or.inr ⟨a, by simp, by simpa [joinSpace] using h⟩
    | cons b r2 =>
      simp only [joinSpace, List.mem_append, List.mem_cons] at h
      rcases h with h | h | h
      · exact Or.inr ⟨a, by simp, h⟩
      · exact Or.inl h
      · rcases ih h with h2 | ⟨x, hx, hc⟩
        · exact Or.inl h2
        · exact Or.inr ⟨x, List.mem_cons_of_mem _ hx, hc⟩

theorem Predicate.plain_iff (p : Predicate) :
    p.plain = true ↔ plainToken p.name.data = true
      ∧ (p.name.data ≠ "and".data ∧ p.name.data ≠ "or".data ∧ p.name.data ≠ "not".data)
      ∧ ∀ q ∈ p.parameters, plainToken q.name.data = true := by
  simp [Predicate.plain, not_or, and_assoc]

/-! ### The passes of `getReducedString` on a rendering -/

theorem replaceOpen_cons_ne (c : Char) (rest : List Char) (h : c ≠ '(') :
    replaceOpen (c :: rest) = c :: replaceOpen rest := by
  cases rest <;> simp [replaceOpen, h]

theorem replaceOpen_open_ne (d : Char) (rest : List Char) (h : d ≠ ' ') :
    replaceOpen ('(' :: d :: rest) = '(' :: replaceOpen (d :: rest) := by
  simp [replaceOpen, h]

theorem replaceOpen_token (tok rest : List Char) (h : ∀ c ∈ tok, c ≠ '(') :
    replaceOpen (tok ++ rest) = tok ++ replaceOpen rest := by
  induction tok with
  | nil => rfl
  | cons c r ih =>
    rw [List.cons_append, replaceOpen_cons_ne c _ (h c (by simp)), ih (fun x hx => h x (by simp [hx]))]
    rfl

theorem replaceClose_cons_ne (c : Char) (rest : List Char) (h : c ≠ ' ') :
    replaceClose (c :: rest) = c :: replaceClose rest := by
  cases rest <;> simp [replaceClose, h]

theorem replaceClose_space_ne (d : Char) (rest : List Char) (h : d ≠ ')') :
    replaceClose (' ' :: d :: rest) = ' ' :: replaceClose (d :: rest) := by
  simp [replaceClose, h]

theorem replaceClose_space_close (rest : List Char) :
    replaceClose (' ' :: ')' :: rest) = ')' :: replaceClose rest := by
  simp [replaceClose]

theorem replaceClose_token (tok rest : List Char) (h : ∀ c ∈ tok, c ≠ ' ') :
    replaceClose (tok ++ rest) = tok ++ replaceClose rest := by
  induction tok with
  | nil => rfl
  | cons c r ih =>
    rw [List.cons_append, replaceClose_cons_ne c _ (h c (by simp)), ih (fun x hx => h x (by simp [hx]))]
    rfl

theorem plainToken_ne_space {s : List Char} (h : plainToken s = true) : ∀ c ∈ s, c ≠ ' ' :=
  fun c hc => (plainChar_ne (((plainToken_iff s).mp h).2 c hc)).1

theorem plainToken_ne_open {s : List Char} (h : plainToken s = true) : ∀ c ∈ s, c ≠ '(' :=
  fun c hc => (plainChar_ne (((plainToken_iff s).mp h).2 c hc)).2.1

theorem plainToken_cons {s : List Char} (h : plainToken s = true) :
    ∃ c r, s = c :: r ∧ plainChar c = true := by
  cases s with
  | nil => simp [plainToken] at h
  | cons c r => exact ⟨c, r, rfl, ((plainToken_iff _).mp h).2 c (by simp)⟩

theorem replaceClose_joinSpace (names : List (List Char)) (rest : List Char)
    (h : ∀ a ∈ names, plainToken a = true) :
    ∀ a, plainToken a = true →
      replaceClose (a ++ ' ' :: (joinSpace names ++ ')' :: rest))
        = joinSpace (a :: names) ++ ')' :: replaceClose rest := by
  induction names with
  | nil =>
    intro a ha
    rw [replaceClose_token a _ (plainToken_ne_space ha)]
    simp [joinSpace, replaceClose_space_close]
  | cons b r ih =>
    intro a ha
    have hb := h b (by simp)
    obtain ⟨c, b2, hbc, hc⟩ := plainToken_cons hb
    rw [replaceClose_token a _ (plainToken_ne_space ha)]
    cases r with
    | nil =>
      simp only [joinSpace]
      rw [hbc, List.cons_append, replaceClose_space_ne c _ (plainChar_ne hc).2.2.1,
        ← List.cons_append, ← hbc, replaceClose_token b _ (plainToken_ne_space hb),
        replaceClose_cons_ne _ _ (by decide)]
      simp
    | cons b3 r3 =>
      have := ih (fun x hx => h x (List.mem_cons_of_mem _ hx)) b hb
      simp only [joinSpace, List.append_assoc, List.cons_append] at this ⊢
      rw [hbc, List.cons_append, replaceClose_space_ne c _ (plainChar_ne hc).2.2.1,
        ← List.cons_append, ← hbc, this]


theorem kw_not : "(not ".data = ['(', 'n', 'o', 't', ' '] := rfl
theorem kw_and : "(and ".data = ['(', 'a', 'n', 'd', ' '] := rfl
theorem kw_or : "(or ".data = ['(', 'o', 'r', ' '] := rfl
theorem kw_and_red : "(and".data = ['(', 'a', 'n', 'd'] := rfl
theorem kw_or_red : "(or".data = ['(', 'o', 'r'] := rfl

theorem toChars_head (t : TreeNode) : ∃ w, t.toChars = '(' :: w := by
  cases t <;> simp [TreeNode.toChars, Predicate.toChars, kw_not, kw_and, kw_or]

theorem redChars_head (t : TreeNode) : ∃ w, t.redChars = '(' :: w := by
  cases t <;> simp [TreeNode.redChars, kw_not, kw_and_red, kw_or_red]

theorem toCharsList_no_nt (ops : List TreeNode)
    (ih : ∀ t ∈ ops, ∀ c ∈ t.toChars, c ≠ Char.ofNat 10 ∧ c ≠ Char.ofNat 9) :
    ∀ c ∈ TreeNode.toCharsList ops, c ≠ Char.ofNat 10 ∧ c ≠ Char.ofNat 9 := by
  induction ops with
  | nil => simp [TreeNode.toCharsList]
  | cons a r ihr =>
    intro c hc
    simp only [TreeNode.toCharsList, List.mem_append] at hc
    rcases hc with h | h
    · exact ih a (by simp) c h
    · exact ihr (fun t ht => ih t (List.mem_cons_of_mem _ ht)) c h

theorem toChars_no_nt : ∀ t : TreeNode, t.plain = true →
    ∀ c ∈ t.toChars, c ≠ Char.ofNat 10 ∧ c ≠ Char.ofNat 9 := by
  apply TreeNode.induct
  · intro p hp c hc
    simp only [TreeNode.plain, Predicate.plain_iff] at hp
    simp only [TreeNode.toChars, Predicate.toChars, List.mem_cons, List.mem_append,
      List.mem_singleton, List.not_mem_nil, or_false, or_assoc] at hc
    rcases hc with h | h | h | h | h
    · subst h; decide
    · have := plainChar_ne (((plainToken_iff _).mp hp.1).2 c h)
      exact ⟨this.2.2.2.1, this.2.2.2.2⟩
    · subst h; decide
    · rcases mem_joinSpace _ h with h2 | ⟨a, ha, hca⟩
      · subst h2; decide
      · obtain ⟨q, hq, rfl⟩ := List.mem_map.mp ha
        have := plainChar_ne (((plainToken_iff _).mp (hp.2.2 q hq)).2 c hca)
        exact ⟨this.2.2.2.1, this.2.2.2.2⟩
    · subst h; decide
  · intro op ih hp c hc
    simp only [TreeNode.plain] at hp
    simp only [TreeNode.toChars, kw_not, List.mem_cons, List.mem_append, List.cons_append,
      List.nil_append, List.mem_singleton, List.not_mem_nil, or_false, or_assoc] at hc
    rcases hc with h | h | h | h | h | h | h
    all_goals first | exact ih hp c h | (subst h; decide)
  · intro ops ih hp c hc
    simp only [TreeNode.plain, plainList_iff] at hp
    simp only [TreeNode.toChars, kw_and, List.mem_cons, List.mem_append, List.cons_append,
      List.nil_append, List.mem_singleton, List.not_mem_nil, or_false, or_assoc] at hc
    rcases hc with h | h | h | h | h | h | h
    all_goals first
      | exact toCharsList_no_nt ops (fun t ht => ih t ht (hp t ht)) c h
      | (subst h; decide)
  · intro ops ih hp c hc
    simp only [TreeNode.plain, plainList_iff] at hp
    simp only [TreeNode.toChars, kw_or, List.mem_cons, List.mem_append, List.cons_append,
      List.nil_append, List.mem_singleton, List.not_mem_nil, or_false, or_assoc] at hc
    rcases hc with h | h | h | h | h | h
    all_goals first
      | exact toCharsList_no_nt ops (fun t ht => ih t ht (hp t ht)) c h
      | (subst h; decide)

theorem removeNT_toChars (t : TreeNode) (h : t.plain = true) : removeNT t.toChars = t.toChars := by
  unfold removeNT
  rw [List.filter_eq_self]
  intro c hc
  have := toChars_no_nt t h c hc
  simp [this.1, this.2]

theorem replaceOpen_toCharsList (ops : List TreeNode)
    (ih : ∀ t ∈ ops, ∀ rest, replaceOpen (t.toChars ++ rest) = t.toChars ++ replaceOpen rest) :
    ∀ rest, replaceOpen (TreeNode.toCharsList ops ++ rest)
      = TreeNode.toCharsList ops ++ replaceOpen rest := by
  induction ops with
  | nil => intro rest; rfl
  | cons a r ihr =>
    intro rest
    simp only [TreeNode.toCharsList, List.append_assoc]
    rw [ih a (by simp), ihr (fun t ht => ih t (List.mem_cons_of_mem _ ht))]

theorem replaceOpen_toChars : ∀ t : TreeNode, t.plain = true →
    ∀ rest, replaceOpen (t.toChars ++ rest) = t.toChars ++ replaceOpen rest := by
  apply TreeNode.induct
  · intro p hp rest
    simp only [TreeNode.plain, Predicate.plain_iff] at hp
    obtain ⟨c, n2, hn, hc⟩ := plainToken_cons hp.1
    have hbody : ∀ x ∈ p.name.data ++ ' ' ::
        (joinSpace (p.parameters.map (fun q => q.name.data)) ++ [')']), x ≠ '(' := by
      intro x hx
      simp only [List.mem_append, List.mem_cons, List.mem_singleton] at hx
      rcases hx with h | h | h | h
      · exact plainToken_ne_open hp.1 x h
      · subst h; decide
      · rcases mem_joinSpace _ h with h2 | ⟨a, ha, hca⟩
        · subst h2; decide
        · obtain ⟨q, hq, rfl⟩ := List.mem_map.mp ha
          exact plainToken_ne_open (hp.2.2 q hq) x hca
      · rcases h with h | h
        · subst h; decide
        · cases h
    have hrw : (TreeNode.PredicateNode p).toChars ++ rest
        = '(' :: ((p.name.data ++ ' ' ::
          (joinSpace (p.parameters.map (fun q => q.name.data)) ++ [')'])) ++ rest) := by
      simp [TreeNode.toChars, Predicate.toChars]
    rw [hrw, hn, List.cons_append, List.cons_append,
      replaceOpen_open_ne c _ (plainChar_ne hc).1, ← List.cons_append, ← List.cons_append, ← hn,
      replaceOpen_token _ rest hbody]
    simp [TreeNode.toChars, Predicate.toChars]
  · intro op ih hp rest
    simp only [TreeNode.plain] at hp
    obtain ⟨w, hw⟩ := toChars_head op
    simp only [TreeNode.toChars, kw_not, List.cons_append, List.nil_append, List.append_assoc]
    rw [replaceOpen_open_ne _ _ (by decide), replaceOpen_cons_ne _ _ (by decide),
      replaceOpen_cons_ne _ _ (by decide), replaceOpen_cons_ne _ _ (by decide),
      replaceOpen_cons_ne _ _ (by decide), ih hp, replaceOpen_cons_ne _ _ (by decide)]
  · intro ops ih hp rest
    simp only [TreeNode.plain, plainList_iff] at hp
    simp only [TreeNode.toChars, kw_and, List.cons_append, List.nil_append, List.append_assoc]
    rw [replaceOpen_open_ne _ _ (by decide), replaceOpen_cons_ne _ _ (by decide),
      replaceOpen_cons_ne _ _ (by decide), replaceOpen_cons_ne _ _ (by decide),
      replaceOpen_cons_ne _ _ (by decide),
      replaceOpen_toCharsList ops (fun t ht => ih t ht (hp t ht)),
      replaceOpen_cons_ne _ _ (by decide)]
  · intro ops ih hp rest
    simp only [TreeNode.plain, plainList_iff] at hp
    simp only [TreeNode.toChars, kw_or, List.cons_append, List.nil_append, List.append_assoc]
    rw [replaceOpen_open_ne _ _ (by decide), replaceOpen_cons_ne _ _ (by decide),
      replaceOpen_cons_ne _ _ (by decide), replaceOpen_cons_ne _ _ (by decide),
      replaceOpen_toCharsList ops (fun t ht => ih t ht (hp t ht)),
      replaceOpen_cons_ne _ _ (by decide)]


theorem redCharsList_eq_nil (ops : List TreeNode) :
    TreeNode.redCharsList ops = [] ↔ ops = [] := by
  cases ops with
  | nil => simp [TreeNode.redCharsList]
  | cons a r =>
    obtain ⟨w, hw⟩ := redChars_head a
    simp [TreeNode.redCharsList, hw]

theorem replaceClose_toCharsList (ops : List TreeNode)
    (ih : ∀ t ∈ ops, ∀ rest, replaceClose (t.toChars ++ rest) = t.redChars ++ replaceClose rest) :
    ∀ rest, replaceClose (TreeNode.toCharsList ops ++ rest)
      = TreeNode.redCharsList ops ++ replaceClose rest := by
  induction ops with
  | nil => intro rest; rfl
  | cons a r ihr =>
    intro rest
    simp only [TreeNode.toCharsList, TreeNode.redCharsList, List.append_assoc]
    rw [ih a (by simp), ihr (fun t ht => ih t (List.mem_cons_of_mem _ ht))]

theorem replaceClose_operands (ops : List TreeNode)
    (ih : ∀ t ∈ ops, ∀ rest, replaceClose (t.toChars ++ rest) = t.redChars ++ replaceClose rest)
    (rest : List Char) :
    replaceClose (' ' :: (TreeNode.toCharsList ops ++ ')' :: rest))
      = afterKeyword (TreeNode.redCharsList ops) ++ ')' :: replaceClose rest := by
  cases ops with
  | nil => simp [TreeNode.toCharsList, TreeNode.redCharsList, afterKeyword, replaceClose_space_close]
  | cons a r =>
    obtain ⟨w, hw⟩ := toChars_head a
    have hne : TreeNode.redCharsList (a :: r) ≠ [] := by
      rw [ne_eq, redCharsList_eq_nil]; simp
    have h1 : ' ' :: (TreeNode.toCharsList (a :: r) ++ ')' :: rest)
        = ' ' :: '(' :: (w ++ (TreeNode.toCharsList r ++ ')' :: rest)) := by
      simp [TreeNode.toCharsList, hw]
    rw [h1, replaceClose_space_ne _ _ (by decide)]
    have h2 : '(' :: (w ++ (TreeNode.toCharsList r ++ ')' :: rest))
        = TreeNode.toCharsList (a :: r) ++ ')' :: rest := by
      simp [TreeNode.toCharsList, hw]
    rw [h2, replaceClose_toCharsList (a :: r) ih, replaceClose_cons_ne _ _ (by decide)]
    simp [afterKeyword, hne]

theorem replaceClose_toChars : ∀ t : TreeNode, t.plain = true →
    ∀ rest, replaceClose (t.toChars ++ rest) = t.redChars ++ replaceClose rest := by
  apply TreeNode.induct
  · intro p hp rest
    simp only [TreeNode.plain, Predicate.plain_iff] at hp
    have hnames : ∀ a ∈ p.parameters.map (fun q => q.name.data), plainToken a = true := by
      intro a ha
      obtain ⟨q, hq, rfl⟩ := List.mem_map.mp ha
      exact hp.2.2 q hq
    have hrw : (TreeNode.PredicateNode p).toChars ++ rest
        = '(' :: (p.name.data ++ ' ' ::
          (joinSpace (p.parameters.map (fun q => q.name.data)) ++ ')' :: rest)) := by
      simp [TreeNode.toChars, Predicate.toChars]
    rw [hrw, replaceClose_cons_ne _ _ (by decide),
      replaceClose_joinSpace _ rest hnames _ hp.1]
    simp [TreeNode.redChars]
  · intro op ih hp rest
    simp only [TreeNode.plain] at hp
    obtain ⟨w, hw⟩ := toChars_head op
    simp only [TreeNode.toChars, TreeNode.redChars, kw_not, List.cons_append, List.nil_append,
      List.append_assoc]
    rw [replaceClose_cons_ne _ _ (by decide), replaceClose_cons_ne _ _ (by decide),
      replaceClose_cons_ne _ _ (by decide), replaceClose_cons_ne _ _ (by decide)]
    have h1 : ' ' :: (op.toChars ++ ')' :: rest) = ' ' :: '(' :: (w ++ ')' :: rest) := by
      simp [hw]
    rw [h1, replaceClose_space_ne _ _ (by decide)]
    have h2 : '(' :: (w ++ ')' :: rest) = op.toChars ++ ')' :: rest := by simp [hw]
    rw [h2, ih hp, replaceClose_cons_ne _ _ (by decide)]
  · intro ops ih hp rest
    simp only [TreeNode.plain, plainList_iff] at hp
    simp only [TreeNode.toChars, TreeNode.redChars, kw_and, kw_and_red, List.cons_append,
      List.nil_append, List.append_assoc]
    rw [replaceClose_cons_ne _ _ (by decide), replaceClose_cons_ne _ _ (by decide),
      replaceClose_cons_ne _ _ (by decide), replaceClose_cons_ne _ _ (by decide),
      replaceClose_operands ops (fun t ht => ih t ht (hp t ht))]
  · intro ops ih hp rest
    simp only [TreeNode.plain, plainList_iff] at hp
    simp only [TreeNode.toChars, TreeNode.redChars, kw_or, kw_or_red, List.cons_append,
      List.nil_append, List.append_assoc]
    rw [replaceClose_cons_ne _ _ (by decide), replaceClose_cons_ne _ _ (by decide),
      replaceClose_cons_ne _ _ (by decide),
      replaceClose_operands ops (fun t ht => ih t ht (hp t ht))]

theorem reduceChars_toChars (t : TreeNode) (h : t.plain = true) :
    reduceChars t.toChars = t.redChars := by
  unfold reduceChars
  rw [removeNT_toChars t h]
  have h1 := replaceOpen_toChars t h []
  have h2 := replaceClose_toChars t h []
  simp only [List.append_nil, replaceOpen, replaceClose] at h1 h2
  rw [h1, h2]


/-! ### The scanner on a reduced text -/

theorem bal_nil : Bal [] := by
  intro rest d cur acc
  simp

theorem bal_char (c : Char) (h1 : c ≠ '(') (h2 : c ≠ ')') : Bal [c] := by
  intro rest d cur acc
  simp [splitAux, h1, h2]

theorem bal_append {w1 w2 : List Char} (h1 : Bal w1) (h2 : Bal w2) : Bal (w1 ++ w2) := by
  intro rest d cur acc
  rw [List.append_assoc, h1, h2, List.append_assoc]

theorem bal_cons {c : Char} {w : List Char} (h1 : c ≠ '(') (h2 : c ≠ ')') (h : Bal w) :
    Bal (c :: w) :=
  bal_append (bal_char c h1 h2) h

theorem bal_paren {w : List Char} (h : Bal w) : Bal ('(' :: (w ++ [')'])) := by
  intro rest d cur acc
  have h1 : ('(' :: (w ++ [')'])) ++ rest = '(' :: (w ++ ')' :: rest) := by simp
  rw [h1]
  simp only [splitAux, ↓reduceIte]
  rw [h (')' :: rest) (d + 1) (cur ++ ['(']) acc]
  simp [splitAux]

theorem bal_token (w : List Char) (h : ∀ c ∈ w, c ≠ '(' ∧ c ≠ ')') : Bal w := by
  induction w with
  | nil => exact bal_nil
  | cons c r ih =>
    exact bal_cons (h c (by simp)).1 (h c (by simp)).2 (ih (fun x hx => h x (by simp [hx])))

theorem splitAux_group {b : List Char} (hb : Bal b) (rest cur : List Char)
    (acc : List (List Char)) :
    splitAux ('(' :: (b ++ ')' :: rest)) 0 cur acc
      = splitAux rest 0 [] (flushElem cur acc ++ ['(' :: (b ++ [')'])]) := by
  have h1 : splitAux ('(' :: (b ++ ')' :: rest)) 0 cur acc
      = splitAux (b ++ ')' :: rest) 1 ['('] (flushElem cur acc) := by
    simp [splitAux]
  rw [h1, hb (')' :: rest) 0 ['('] (flushElem cur acc)]
  simp [splitAux]

theorem splitAux_token (tok : List Char) (h : ∀ c ∈ tok, plainChar c = true)
    (rest cur : List Char) (acc : List (List Char)) :
    splitAux (tok ++ rest) 0 cur acc = splitAux rest 0 (cur ++ tok) acc := by
  induction tok generalizing cur with
  | nil => simp
  | cons c r ih =>
    have hc := plainChar_ne (h c (by simp))
    have h1 : splitAux (c :: r ++ rest) 0 cur acc = splitAux (r ++ rest) 0 (cur ++ [c]) acc := by
      simp [splitAux, hc.1, hc.2.1, hc.2.2.1]
    rw [h1, ih (fun x hx => h x (by simp [hx]))]
    simp

theorem flushElem_plain {a : List Char} (h : plainToken a = true) (acc : List (List Char)) :
    flushElem a acc = acc ++ [a] := by
  have := ((plainToken_iff a).mp h).1
  simp [flushElem, this]

theorem splitAux_joinSpace (toks : List (List Char)) (h : ∀ a ∈ toks, plainToken a = true) :
    ∀ acc, splitAux (joinSpace toks) 0 [] acc = some (acc ++ toks) := by
  induction toks with
  | nil => intro acc; simp [joinSpace, splitAux, flushElem]
  | cons a r ih =>
    intro acc
    have ha := h a (by simp)
    have hac := ((plainToken_iff a).mp ha).2
    cases r with
    | nil =>
      have := splitAux_token a hac [] [] acc
      simp only [List.append_nil, List.nil_append] at this
      simp [joinSpace, this, splitAux, flushElem_plain ha]
    | cons b r2 =>
      simp only [joinSpace]
      rw [splitAux_token a hac _ [] acc]
      simp only [List.nil_append, splitAux, ↓reduceIte]
      rw [flushElem_plain ha, ih (fun x hx => h x (List.mem_cons_of_mem _ hx))]
      simp

theorem redChars_eq_body (t : TreeNode) : t.redChars = '(' :: (t.bodyChars ++ [')']) := by
  cases t <;> simp [TreeNode.redChars, TreeNode.bodyChars, kw_not, kw_and_red, kw_or_red]

theorem bal_redCharsList (ops : List TreeNode) (ih : ∀ t ∈ ops, Bal t.bodyChars) :
    Bal (TreeNode.redCharsList ops) := by
  induction ops with
  | nil => exact bal_nil
  | cons a r ihr =>
    simp only [TreeNode.redCharsList]
    rw [redChars_eq_body]
    exact bal_append (bal_paren (ih a (by simp))) (ihr (fun t ht => ih t (List.mem_cons_of_mem _ ht)))

theorem bal_afterKeyword {l : List Char} (h : Bal l) : Bal (afterKeyword l) := by
  unfold afterKeyword
  split
  · exact bal_nil
  · exact bal_cons (by decide) (by decide) h

theorem bal_bodyChars : ∀ t : TreeNode, t.plain = true → Bal t.bodyChars := by
  apply TreeNode.induct
  · intro p hp
    simp only [TreeNode.plain, Predicate.plain_iff] at hp
    apply bal_token
    intro c hc
    rcases mem_joinSpace _ hc with h | ⟨a, ha, hca⟩
    · subst h; decide
    · have hpa : plainToken a = true := by
        rcases List.mem_cons.mp ha with h | h
        · rw [h]; exact hp.1
        · obtain ⟨q, hq, rfl⟩ := List.mem_map.mp h
          exact hp.2.2 q hq
      have := plainChar_ne (((plainToken_iff a).mp hpa).2 c hca)
      exact ⟨this.2.1, this.2.2.1⟩
  · intro op ih hp
    simp only [TreeNode.plain] at hp
    simp only [TreeNode.bodyChars]
    rw [redChars_eq_body]
    exact bal_append (bal_token _ (by decide)) (bal_paren (ih hp))
  · intro ops ih hp
    simp only [TreeNode.plain, plainList_iff] at hp
    exact bal_append (bal_token _ (by decide))
      (bal_afterKeyword (bal_redCharsList ops (fun t ht => ih t ht (hp t ht))))
  · intro ops ih hp
    simp only [TreeNode.plain, plainList_iff] at hp
    exact bal_append (bal_token _ (by decide))
      (bal_afterKeyword (bal_redCharsList ops (fun t ht => ih t ht (hp t ht))))

theorem splitAux_redCharsList (ops : List TreeNode) (h : ∀ t ∈ ops, t.plain = true) :
    ∀ acc, splitAux (TreeNode.redCharsList ops) 0 [] acc
      = some (acc ++ ops.map TreeNode.redChars) := by
  induction ops with
  | nil => intro acc; simp [TreeNode.redCharsList, splitAux, flushElem]
  | cons a r ih =>
    intro acc
    simp only [TreeNode.redCharsList]
    have hb := bal_bodyChars a (h a (by simp))
    have h1 : a.redChars ++ TreeNode.redCharsList r
        = '(' :: (a.bodyChars ++ ')' :: TreeNode.redCharsList r) := by
      rw [redChars_eq_body]; simp
    rw [h1, splitAux_group hb, ih (fun t ht => h t (List.mem_cons_of_mem _ ht))]
    simp [flushElem, redChars_eq_body]

theorem stripOuter_redChars (t : TreeNode) : stripOuter t.redChars = some t.bodyChars := by
  rw [redChars_eq_body]
  simp [stripOuter]


theorem splitTopLevel_predicate (p : Predicate) (hp : p.plain = true) :
    splitTopLevel (TreeNode.PredicateNode p).bodyChars
      = some (p.name.data :: p.parameters.map (fun q => q.name.data)) := by
  rw [Predicate.plain_iff] at hp
  unfold splitTopLevel TreeNode.bodyChars
  rw [splitAux_joinSpace]
  · simp
  · intro a ha
    rcases List.mem_cons.mp ha with h | h
    · rw [h]; exact hp.1
    · obtain ⟨q, hq, rfl⟩ := List.mem_map.mp h
      exact hp.2.2 q hq

theorem splitTopLevel_not (op : TreeNode) (hp : op.plain = true) :
    splitTopLevel (TreeNode.NotNode op).bodyChars = some ["not".data, op.redChars] := by
  have h1 : (TreeNode.NotNode op).bodyChars
      = "not".data ++ ' ' :: (TreeNode.redCharsList [op]) := by
    simp [TreeNode.bodyChars, TreeNode.redCharsList]
  unfold splitTopLevel
  rw [h1, splitAux_token _ (by decide)]
  simp only [splitAux, ↓reduceIte, List.nil_append]
  rw [splitAux_redCharsList [op] (by simpa using hp)]
  simp [flushElem]

theorem splitTopLevel_operands (kw : List Char) (hkw : plainToken kw = true)
    (ops : List TreeNode) (hp : ∀ t ∈ ops, t.plain = true) :
    splitTopLevel (kw ++ afterKeyword (TreeNode.redCharsList ops))
      = some (kw :: ops.map TreeNode.redChars) := by
  unfold splitTopLevel
  rw [splitAux_token _ ((plainToken_iff kw).mp hkw).2]
  unfold afterKeyword
  split
  · rename_i h
    rw [redCharsList_eq_nil] at h
    subst h
    simp [splitAux, flushElem_plain hkw]
  · simp only [splitAux, ↓reduceIte, List.nil_append]
    rw [splitAux_redCharsList ops hp, flushElem_plain hkw]
    simp

theorem length_redChars_le_list {t : TreeNode} {ops : List TreeNode} (h : t ∈ ops) :
    t.redChars.length ≤ (TreeNode.redCharsList ops).length := by
  induction ops with
  | nil => cases h
  | cons a r ih =>
    simp only [TreeNode.redCharsList, List.length_append]
    rcases List.mem_cons.mp h with h1 | h1
    · rw [h1]; omega
    · have := ih h1; omega

theorem length_afterKeyword (l : List Char) : l.length ≤ (afterKeyword l).length := by
  unfold afterKeyword
  split <;> simp [*]

theorem mapExcept_redChars (n : Nat) (ops : List TreeNode)
    (ih : ∀ t ∈ ops, get_tree_node n t.redChars = .ok t.eraseTypes) :
    mapExcept (get_tree_node n) (ops.map TreeNode.redChars)
      = .ok (TreeNode.eraseTypesList ops) := by
  induction ops with
  | nil => rfl
  | cons a r ihr =>
    simp only [List.map_cons, mapExcept, ih a (by simp),
      ihr (fun t ht => ih t (List.mem_cons_of_mem _ ht)), TreeNode.eraseTypesList]

theorem get_tree_node_redChars : ∀ t : TreeNode, t.plain = true →
    ∀ n, t.redChars.length ≤ n → get_tree_node n t.redChars = .ok t.eraseTypes := by
  apply TreeNode.induct
  · intro p hp n hn
    simp only [TreeNode.plain] at hp
    cases n with
    | zero => rw [redChars_eq_body] at hn; simp at hn
    | succ m =>
      have hk := ((Predicate.plain_iff p).mp hp).2.1
      simp only [get_tree_node, stripOuter_redChars, splitTopLevel_predicate p hp]
      rw [if_neg hk.1, if_neg hk.2.1, if_neg hk.2.2]
      simp [TreeNode.eraseTypes, Predicate.eraseTypes, List.map_map, Function.comp_def]
  · intro op ih hp n hn
    simp only [TreeNode.plain] at hp
    cases n with
    | zero => rw [redChars_eq_body] at hn; simp at hn
    | succ m =>
      have hlen : op.redChars.length ≤ m := by
        simp only [TreeNode.redChars, kw_not, List.length_append, List.length_cons,
          List.length_nil] at hn
        omega
      simp only [get_tree_node, stripOuter_redChars, splitTopLevel_not op hp]
      simp only [↓reduceIte, ih hp m hlen, TreeNode.eraseTypes]
      rw [if_neg (by decide), if_neg (by decide)]
  · intro ops ih hp n hn
    simp only [TreeNode.plain, plainList_iff] at hp
    cases n with
    | zero => rw [redChars_eq_body] at hn; simp at hn
    | succ m =>
      have hlen : ∀ t ∈ ops, t.redChars.length ≤ m := by
        intro t ht
        have h1 := length_redChars_le_list ht
        have h2 := length_afterKeyword (TreeNode.redCharsList ops)
        simp only [TreeNode.redChars, kw_and_red, List.length_append, List.length_cons,
          List.length_nil] at hn
        omega
      simp only [get_tree_node, stripOuter_redChars, TreeNode.bodyChars,
        splitTopLevel_operands "and".data (by decide) ops hp]
      simp only [↓reduceIte,
        mapExcept_redChars m ops (fun t ht => ih t ht (hp t ht) m (hlen t ht)),
        TreeNode.eraseTypes]
  · intro ops ih hp n hn
    simp only [TreeNode.plain, plainList_iff] at hp
    cases n with
    | zero => rw [redChars_eq_body] at hn; simp at hn
    | succ m =>
      have hlen : ∀ t ∈ ops, t.redChars.length ≤ m := by
        intro t ht
        have h1 := length_redChars_le_list ht
        have h2 := length_afterKeyword (TreeNode.redCharsList ops)
        simp only [TreeNode.redChars, kw_or_red, List.length_append, List.length_cons,
          List.length_nil] at hn
        omega
      simp only [get_tree_node, stripOuter_redChars, TreeNode.bodyChars,
        splitTopLevel_operands "or".data (by decide) ops hp]
      simp only [↓reduceIte,
        mapExcept_redChars m ops (fun t ht => ih t ht (hp t ht) m (hlen t ht)),
        TreeNode.eraseTypes]
      rw [if_neg (by decide)]

theorem toChars_eraseTypes : ∀ t : TreeNode, t.eraseTypes.toChars = t.toChars := by
  have hl : ∀ ops : List TreeNode, (∀ t ∈ ops, t.eraseTypes.toChars = t.toChars) →
      TreeNode.toCharsList (TreeNode.eraseTypesList ops) = TreeNode.toCharsList ops := by
    intro ops
    induction ops with
    | nil => intro _; rfl
    | cons a r ihr =>
      intro h
      simp only [TreeNode.eraseTypesList, TreeNode.toCharsList, h a (by simp),
        ihr (fun t ht => h t (List.mem_cons_of_mem _ ht))]
  apply TreeNode.induct
  · intro p
    simp [TreeNode.eraseTypes, TreeNode.toChars, Predicate.eraseTypes, Predicate.toChars,
      List.map_map, Function.comp_def]
  · intro op ih
    simp only [TreeNode.eraseTypes, TreeNode.toChars, ih]
  · intro ops ih
    simp only [TreeNode.eraseTypes, TreeNode.toChars, hl ops ih]
  · intro ops ih
    simp only [TreeNode.eraseTypes, TreeNode.toChars, hl ops ih]

theorem fromString_toString (t : PredicateTree) (h : t.plain = true) :
    PredicateTree.fromString t.toString = .ok t.eraseTypes := by
  cases t with
  | mk root =>
    cases root with
    | none => rfl
    | some r =>
      simp only [PredicateTree.plain] at h
      obtain ⟨w, hw⟩ := toChars_head r
      have hne : PredicateTree.toString ⟨some r⟩ ≠ "" := by
        intro he
        have := congrArg String.data he
        simp [PredicateTree.toString, hw] at this
      unfold PredicateTree.fromString
      rw [if_neg hne]
      simp only [PredicateTree.toString, reduceChars_toChars r h,
        get_tree_node_redChars r h _ (le_refl _), PredicateTree.eraseTypes]

theorem toString_eraseTypes (t : PredicateTree) : t.eraseTypes.toString = t.toString := by
  cases t with
  | mk root =>
    cases root with
    | none => rfl
    | some r => simp [PredicateTree.eraseTypes, PredicateTree.toString, toChars_eraseTypes]

theorem client_getAction_callback (d : DomainExpert) (n : String) (a : Action)
    (ha : d.getAction n = some a) (hpre : a.preconditions.plain = true)
    (heff : a.effects.plain = true) :
    DomainExpertClient.getAction (some (get_domain_action_details_service_callback
      (some d) n GetDomainActionDetailsResponse.empty))
      = .ok (some ⟨n, a.parameters, a.preconditions.eraseTypes, a.effects.eraseTypes⟩) := by
  simp only [get_domain_action_details_service_callback, ha]
  simp [DomainExpertClient.getAction, GetDomainActionDetailsResponse.empty, rebuildParams_map,
    fromString_toString _ hpre, fromString_toString _ heff]

/-- Claim C1, refuted as stated: a tree built from the node classes with a parameter name
that ends with a newline renders with the newline, `fromString` drops it, and the second
rendering differs from the first. -/
theorem roundtrip_newline_refuted :
    tree_newline.toString = "(robot_at r2d2 kitchen\n)"
    ∧ (PredicateTree.fromString tree_newline.toString).map PredicateTree.toString
        = .ok "(robot_at r2d2 kitchen)"
    ∧ (PredicateTree.fromString tree_newline.toString).map PredicateTree.toString
        ≠ .ok tree_newline.toString := by
  have h1 : tree_newline.toString = "(robot_at r2d2 kitchen\n)" := by decide
  have h2 : (PredicateTree.fromString tree_newline.toString).map PredicateTree.toString
      = .ok "(robot_at r2d2 kitchen)" := by rfl
  refine ⟨h1, h2, ?_⟩
  rw [h2, h1]
  intro h
  injection h with h
  exact absurd h (by decide)

/-- Claim C1, amended: for every tree whose predicate and parameter names are non-empty and
free of space, parenthesis, newline and tab, and whose predicate names are none of `and`,
`or`, `not` (and for the empty tree), `fromString(toString(t))` succeeds, gives `t` with
the parameter types emptied, and `toString` of it is `toString(t)`. Hence for a simple
action with such preconditions and effects, what the client rebuilds with `fromString`
from the texts the node sent renders to the same texts as on the node. -/
theorem roundtrip_plain_names :
    (∀ t : PredicateTree, t.plain = true →
      PredicateTree.fromString t.toString = .ok t.eraseTypes
      ∧ t.eraseTypes.toString = t.toString
      ∧ (PredicateTree.fromString t.toString).map PredicateTree.toString = .ok t.toString)
    ∧ (∀ (d : DomainExpert) (n : String) (a : Action), d.getAction n = some a →
        a.preconditions.plain = true → a.effects.plain = true →
        ∃ received : Action,
          DomainExpertClient.getAction (some (get_domain_action_details_service_callback
            (some d) n GetDomainActionDetailsResponse.empty)) = .ok (some received)
          ∧ received.preconditions.toString = a.preconditions.toString
          ∧ received.effects.toString = a.effects.toString) := by
  constructor
  · intro t ht
    refine ⟨fromString_toString t ht, toString_eraseTypes t, ?_⟩
    rw [fromString_toString t ht]
    show Except.ok t.eraseTypes.toString = _
    rw [toString_eraseTypes]
  · intro d n a ha hpre heff
    exact ⟨_, client_getAction_callback d n a ha hpre heff, toString_eraseTypes _,
      toString_eraseTypes _⟩

/-- Witness of claim C1 on the unit tests: the tree of types_test.cpp parses back from its
rendering and renders to the same text, and the action `move` arrives at the client with
preconditions and effects that render as on the node. -/
theorem roundtrip_plain_names_witness :
    (PredicateTree.fromString (PredicateTree.mk (some pn_and)).toString).map
        PredicateTree.toString
      = .ok ("(and (robot_at r2d2 bedroom)(not (robot_at r2d2 kitchen))"
          ++ "(or (person_at paco bedroom)(person_at paco kitchen)))")
    ∧ ∃ received : Action,
        DomainExpertClient.getAction (some (get_domain_action_details_service_callback
          (some domain_move) "move" GetDomainActionDetailsResponse.empty)) = .ok (some received)
        ∧ received.preconditions.toString = "(and (robot_at ?0 ?1))"
        ∧ received.effects.toString = "(and (not (robot_at ?0 ?1)))" := by
  constructor
  · exact (roundtrip_plain_names.1 ⟨some pn_and⟩ (by decide)).2.2
  · obtain ⟨r, h1, h2, h3⟩ := roundtrip_plain_names.2 domain_move "move" _ rfl
      (by decide) (by decide)
    exact ⟨r, h1, by rw [h2]; decide, by rw [h3]; decide⟩

/-! ## Normalization: what `getReducedString` deletes, and when it is a fixed point -/

theorem hasPair_iff_infix (a b : Char) (l : List Char) :
    hasPair a b l = true ↔ [a, b] <:+: l := by
  induction l with
  | nil => simp [hasPair]
  | cons c r ih =>
    cases r with
    | nil =>
      simp only [hasPair, Bool.false_eq_true, false_iff]
      intro h
      have := h.length_le
      simp at this
    | cons d r2 =>
      rw [hasPair, List.infix_cons_iff, ← ih]
      simp only [Bool.or_eq_true, Bool.and_eq_true, decide_eq_true_eq, List.cons_prefix_cons,
        List.nil_prefix, and_true, @eq_comm _ a c, @eq_comm _ b d]

theorem length_replaceOpen_le (l : List Char) : (replaceOpen l).length ≤ l.length := by
  induction l using replaceOpen.induct with
  | case1 => simp [replaceOpen]
  | case2 c => simp [replaceOpen]
  | case3 c d r h ih => simp only [replaceOpen, h, and_self, ↓reduceIte, List.length_cons]; omega
  | case4 c d r h ih => simp only [replaceOpen, h, ↓reduceIte, List.length_cons] at ih ⊢; omega

theorem length_replaceClose_le (l : List Char) : (replaceClose l).length ≤ l.length := by
  induction l using replaceClose.induct with
  | case1 => simp [replaceClose]
  | case2 c => simp [replaceClose]
  | case3 c d r h ih => simp only [replaceClose, h, and_self, ↓reduceIte, List.length_cons]; omega
  | case4 c d r h ih => simp only [replaceClose, h, ↓reduceIte, List.length_cons] at ih ⊢; omega

theorem replaceOpen_eq_self (l : List Char) (h : hasPair '(' ' ' l = false) :
    replaceOpen l = l := by
  induction l using replaceOpen.induct with
  | case1 => rfl
  | case2 c => rfl
  | case3 c d r hc ih => simp [hasPair, hc] at h
  | case4 c d r hc ih =>
    have h2 : hasPair '(' ' ' (d :: r) = false := by
      simp only [hasPair, Bool.or_eq_false_iff] at h
      exact h.2
    simp only [replaceOpen, hc, ↓reduceIte, ih h2]

theorem replaceClose_eq_self (l : List Char) (h : hasPair ' ' ')' l = false) :
    replaceClose l = l := by
  induction l using replaceClose.induct with
  | case1 => rfl
  | case2 c => rfl
  | case3 c d r hc ih => simp [hasPair, hc] at h
  | case4 c d r hc ih =>
    have h2 : hasPair ' ' ')' (d :: r) = false := by
      simp only [hasPair, Bool.or_eq_false_iff] at h
      exact h.2
    simp only [replaceClose, hc, ↓reduceIte, ih h2]

theorem length_replaceOpen_lt (l : List Char) (h : hasPair '(' ' ' l = true) :
    (replaceOpen l).length < l.length := by
  induction l using replaceOpen.induct with
  | case1 => simp [hasPair] at h
  | case2 c => simp [hasPair] at h
  | case3 c d r hc ih =>
    have := length_replaceOpen_le r
    simp only [replaceOpen, hc, and_self, ↓reduceIte, List.length_cons]; omega
  | case4 c d r hc ih =>
    have h2 : hasPair '(' ' ' (d :: r) = true := by
      simp only [hasPair, Bool.or_eq_true, Bool.and_eq_true, decide_eq_true_eq] at h
      rcases h with h | h
      · exact absurd h hc
      · exact h
    have := ih h2
    simp only [replaceOpen, hc, ↓reduceIte, List.length_cons] at this ⊢; omega

theorem length_replaceClose_lt (l : List Char) (h : hasPair ' ' ')' l = true) :
    (replaceClose l).length < l.length := by
  induction l using replaceClose.induct with
  | case1 => simp [hasPair] at h
  | case2 c => simp [hasPair] at h
  | case3 c d r hc ih =>
    have := length_replaceClose_le r
    simp only [replaceClose, hc, and_self, ↓reduceIte, List.length_cons]; omega
  | case4 c d r hc ih =>
    have h2 : hasPair ' ' ')' (d :: r) = true := by
      simp only [hasPair, Bool.or_eq_true, Bool.and_eq_true, decide_eq_true_eq] at h
      rcases h with h | h
      · exact absurd h hc
      · exact h
    have := ih h2
    simp only [replaceClose, hc, ↓reduceIte, List.length_cons] at this ⊢; omega

theorem mem_replaceOpen {x : Char} (l : List Char) (h : x ∈ replaceOpen l) : x ∈ l := by
  induction l using replaceOpen.induct with
  | case1 => simp [replaceOpen] at h
  | case2 c => simpa [replaceOpen] using h
  | case3 c d r hc ih =>
    simp only [replaceOpen, hc, and_self, ↓reduceIte, List.mem_cons] at h
    rcases h with h | h
    · simp [h, hc.1]
    · simp [ih h]
  | case4 c d r hc ih =>
    simp only [replaceOpen, hc, ↓reduceIte, List.mem_cons] at h
    rcases h with h | h
    · simp [h]
    · exact List.mem_cons_of_mem _ (ih h)

theorem mem_replaceClose {x : Char} (l : List Char) (h : x ∈ replaceClose l) : x ∈ l := by
  induction l using replaceClose.induct with
  | case1 => simp [replaceClose] at h
  | case2 c => simpa [replaceClose] using h
  | case3 c d r hc ih =>
    simp only [replaceClose, hc, and_self, ↓reduceIte, List.mem_cons] at h
    rcases h with h | h
    · simp [h, hc.2]
    · simp [ih h]
  | case4 c d r hc ih =>
    simp only [replaceClose, hc, ↓reduceIte, List.mem_cons] at h
    rcases h with h | h
    · simp [h]
    · exact List.mem_cons_of_mem _ (ih h)

theorem reduceChars_no_nt (s : List Char) :
    ∀ c ∈ reduceChars s, c ≠ Char.ofNat 10 ∧ c ≠ Char.ofNat 9 := by
  intro c hc
  have h := mem_replaceOpen _ (mem_replaceClose _ hc)
  simpa [removeNT, not_or] using (List.mem_filter.mp h).2

theorem removeNT_eq_self (l : List Char) (h : ∀ c ∈ l, c ≠ Char.ofNat 10 ∧ c ≠ Char.ofNat 9) :
    removeNT l = l := by
  unfold removeNT
  rw [List.filter_eq_self]
  intro c hc
  simp [(h c hc).1, (h c hc).2]

theorem reduceChars_fixed_iff (r : List Char)
    (hnt : ∀ c ∈ r, c ≠ Char.ofNat 10 ∧ c ≠ Char.ofNat 9) :
    reduceChars r = r ↔ hasPair '(' ' ' r = false ∧ hasPair ' ' ')' r = false := by
  unfold reduceChars
  rw [removeNT_eq_self r hnt]
  constructor
  · intro h
    have hlen := congrArg List.length h
    cases ho : hasPair '(' ' ' r with
    | true =>
      have h1 := length_replaceOpen_lt r ho
      have h2 := length_replaceClose_le (replaceOpen r)
      omega
    | false =>
      rw [replaceOpen_eq_self r ho] at hlen
      cases hc : hasPair ' ' ')' r with
      | true =>
        have h1 := length_replaceClose_lt r hc
        omega
      | false => exact ⟨rfl, rfl⟩
  · rintro ⟨ho, hc⟩
    rw [replaceOpen_eq_self r ho, replaceClose_eq_self r hc]


theorem replaceOpen_head (d : Char) (r : List Char) :
    ∃ x, replaceOpen (d :: r) = d :: x := by
  cases r with
  | nil => exact ⟨[], rfl⟩
  | cons e r2 =>
    by_cases h : d = '(' ∧ e = ' '
    · exact ⟨replaceOpen r2, by simp [replaceOpen, h]⟩
    · exact ⟨replaceOpen (e :: r2), by simp only [replaceOpen, h, ↓reduceIte]⟩

theorem reduce_deletes_aux : ∀ (n : Nat) (t : List Char), t.length ≤ n →
    ∀ prev, DeletesSpaces prev t (replaceClose (replaceOpen t)) := by
  intro n
  induction n with
  | zero =>
    intro t ht prev
    have : t = [] := List.length_eq_zero.mp (Nat.le_zero.mp ht)
    subst this
    exact .done prev
  | succ m ih =>
    intro t ht prev
    match t, ht with
    | [], _ => exact .done prev
    | [c], _ => exact .keep prev c [] [] (.done _)
    | c :: d :: r, ht =>
      have hr : r.length ≤ m := by simp at ht; omega
      have hdr : (d :: r).length ≤ m := by simp at ht ⊢; omega
      by_cases h1 : c = '(' ∧ d = ' '
      · obtain ⟨rfl, rfl⟩ := h1
        have : replaceClose (replaceOpen ('(' :: ' ' :: r))
            = '(' :: replaceClose (replaceOpen r) := by
          simp only [replaceOpen, and_self, ↓reduceIte]
          exact replaceClose_cons_ne _ _ (by decide)
        rw [this]
        exact .keep prev '(' _ _ (.afterOpen _ _ (ih r hr _))
      · have hopen : replaceOpen (c :: d :: r) = c :: replaceOpen (d :: r) := by
          simp only [replaceOpen, h1, ↓reduceIte]
        by_cases h2 : c = ' ' ∧ d = ')'
        · obtain ⟨rfl, rfl⟩ := h2
          have : replaceClose (replaceOpen (' ' :: ')' :: r))
              = ')' :: replaceClose (replaceOpen r) := by
            rw [hopen, replaceOpen_cons_ne _ _ (by decide)]
            simp only [replaceClose, and_self, ↓reduceIte]
          rw [this]
          exact .beforeClose prev _ _ (.keep _ ')' _ _ (ih r hr _))
        · obtain ⟨x, hx⟩ := replaceOpen_head d r
          have : replaceClose (replaceOpen (c :: d :: r))
              = c :: replaceClose (replaceOpen (d :: r)) := by
            rw [hopen, hx]
            simp only [replaceClose, h2, ↓reduceIte]
          rw [this]
          exact .keep prev c _ _ (ih (d :: r) hdr _)

theorem reduce_deletes (s : List Char) :
    DeletesSpaces none (removeNT s) (reduceChars s) :=
  reduce_deletes_aux _ _ (le_refl _) none

theorem deletes_nonspace {prev : Option Char} {t r : List Char}
    (h : DeletesSpaces prev t r) :
    r.filter (fun c => !decide (c = ' ')) = t.filter (fun c => !decide (c = ' ')) := by
  induction h with
  | done => rfl
  | keep prev c t r _ ih => simp only [List.filter_cons, ih]
  | afterOpen t r _ ih => simpa [List.filter_cons] using ih
  | beforeClose prev t r _ ih => simpa [List.filter_cons] using ih

theorem removeNT_nonspace (s : List Char) :
    (removeNT s).filter (fun c => !decide (c = ' '))
      = s.filter (fun c => !(decide (c = ' ') || decide (c = Char.ofNat 10)
          || decide (c = Char.ofNat 9))) := by
  unfold removeNT
  rw [List.filter_filter]
  congr 1
  funext c
  by_cases h1 : c = ' ' <;> by_cases h2 : c = Char.ofNat 10 <;> by_cases h3 : c = Char.ofNat 9 <;>
    simp [h1, h2, h3]

/-- Claim C11, refuted as stated: with two spaces behind the opening parenthesis the first
pass leaves "( and)" and only the second gives "(and)". -/
theorem getReducedString_not_idempotent :
    getReducedString "(  and)" = "( and)"
    ∧ getReducedString (getReducedString "(  and)") = "(and)"
    ∧ getReducedString (getReducedString "(  and)") ≠ getReducedString "(  and)" := by
  decide

/-- Claim C11, amended: `getReducedString(getReducedString(s)) == getReducedString(s)` holds
exactly when `getReducedString(s)` contains neither "( " nor " )". -/
theorem getReducedString_idempotent_iff (s : String) :
    getReducedString (getReducedString s) = getReducedString s ↔
      (¬ "( ".data <:+: (getReducedString s).data
        ∧ ¬ " )".data <:+: (getReducedString s).data) := by
  have hd : (getReducedString s).data = reduceChars s.data := rfl
  have h1 : getReducedString (getReducedString s) = getReducedString s ↔
      reduceChars (reduceChars s.data) = reduceChars s.data := by
    constructor
    · intro h
      exact congrArg String.data h
    · intro h
      exact String.ext h
  rw [h1, hd, reduceChars_fixed_iff _ (reduceChars_no_nt s.data)]
  have e1 : "( ".data = ['(', ' '] := rfl
  have e2 : " )".data = [' ', ')'] := rfl
  rw [e1, e2, ← hasPair_iff_infix, ← hasPair_iff_infix]
  simp

/-- Claim C12: for every text, `getReducedString` leaves no newline and no tab, keeps every
other character except spaces in order (deleting all spaces from the result gives the
input without spaces, newlines and tabs), and deletes a space only where, in the
newline/tab-stripped text, it stands right behind "(" or right before ")"; the texts of
the unit test reduce as asserted, "( ( and\n\t ) )" to "((and))". -/
theorem getReducedString_deletes_whitespace :
    (∀ s : String,
      (∀ c ∈ (getReducedString s).data, c ≠ Char.ofNat 10 ∧ c ≠ Char.ofNat 9)
      ∧ (getReducedString s).data.filter (fun c => !decide (c = ' '))
          = s.data.filter (fun c => !(decide (c = ' ') || decide (c = Char.ofNat 10)
              || decide (c = Char.ofNat 9)))
      ∧ DeletesSpaces none (removeNT s.data) (getReducedString s).data)
    ∧ getReducedString "(and)" = "(and)"
    ∧ getReducedString "( and)" = "(and)"
    ∧ getReducedString "( \tand)" = "(and)"
    ∧ getReducedString "( \tand\t)" = "(and)"
    ∧ getReducedString "( and\n)" = "(and)"
    ∧ getReducedString "( and\n\t)" = "(and)"
    ∧ getReducedString "( ( and\n\t ) )" = "((and))" := by
  refine ⟨?_, by decide, by decide, by decide, by decide, by decide, by decide, by decide⟩
  intro s
  refine ⟨reduceChars_no_nt s.data, ?_, reduce_deletes s.data⟩
  show (reduceChars s.data).filter _ = _
  rw [deletes_nonspace (reduce_deletes s.data), removeNT_nonspace]

/-! ## Top-level splitting -/

theorem splitAux_depthAfter (w : List Char) :
    ∀ (k m : Nat), depthAfter w k = some m → ∀ (rest : List Char) (d : Nat) (cur : List Char)
      (acc : List (List Char)),
      splitAux (w ++ rest) (d + k + 1) cur acc = splitAux rest (d + m + 1) (cur ++ w) acc := by
  induction w with
  | nil =>
    intro k m h rest d cur acc
    simp only [depthAfter, Option.some.injEq] at h
    subst h
    simp
  | cons c r ih =>
    intro k m h rest d cur acc
    by_cases h1 : c = '('
    · simp only [depthAfter, h1, ↓reduceIte] at h
      have := ih (k + 1) m h rest d (cur ++ [c]) acc
      simp only [List.cons_append, splitAux, h1, ↓reduceIte]
      rw [h1] at this
      simpa [Nat.add_assoc] using this
    · by_cases h2 : c = ')'
      · cases k with
        | zero => simp [depthAfter, h2] at h
        | succ j =>
          simp only [depthAfter, h1, h2, ↓reduceIte] at h
          have := ih j m h rest d (cur ++ [c]) acc
          have hne : d + (j + 1) ≠ 0 := by omega
          simp only [List.cons_append, splitAux, h1, h2, ↓reduceIte, hne]
          rw [h2] at this
          have e : d + (j + 1) = d + j + 1 := by omega
          rw [e]
          simpa using this
      · simp only [depthAfter, h1, h2, ↓reduceIte] at h
        have := ih k m h rest d (cur ++ [c]) acc
        simp only [List.cons_append, splitAux, h1, h2, ↓reduceIte]
        simpa using this

theorem bal_of_balanced {w : List Char} (h : balanced w = true) : Bal w := by
  intro rest d cur acc
  have h0 : depthAfter w 0 = some 0 := by simpa [balanced] using h
  exact splitAux_depthAfter w 0 0 h0 rest d cur acc

theorem splitAux_run (tok : List Char)
    (h : ∀ c ∈ tok, c ≠ ' ' ∧ c ≠ '(' ∧ c ≠ ')') (rest cur : List Char)
    (acc : List (List Char)) :
    splitAux (tok ++ rest) 0 cur acc = splitAux rest 0 (cur ++ tok) acc := by
  induction tok generalizing cur with
  | nil => simp
  | cons c r ih =>
    have hc := h c (by simp)
    have h1 : splitAux (c :: r ++ rest) 0 cur acc = splitAux (r ++ rest) 0 (cur ++ [c]) acc := by
      simp [splitAux, hc.1, hc.2.1, hc.2.2]
    rw [h1, ih (fun x hx => h x (by simp [hx]))]
    simp

theorem isToken_iff (w : List Char) :
    isToken w = true ↔ w ≠ [] ∧ ∀ c ∈ w, c ≠ ' ' ∧ c ≠ '(' ∧ c ≠ ')' := by
  cases w <;> simp [isToken, not_or, and_assoc]

theorem splitAux_tokenEnds (body : List Char) (h : tokenEnds body = true) (w : List Char)
    (hw : w ≠ []) (acc : List (List Char)) :
    splitAux body 0 w acc = splitAux body 0 [] (acc ++ [w]) := by
  cases body with
  | nil => simp [splitAux, flushElem, hw]
  | cons c r =>
    simp only [tokenEnds, Bool.or_eq_true, decide_eq_true_eq] at h
    rcases h with h | h <;> subst h <;> simp [splitAux, flushElem, hw]

theorem splitAux_topLevel {body : List Char} {elems : List (List Char)}
    (h : TopLevel body elems) :
    ∀ acc, splitAux body 0 [] acc = some (acc ++ elems) := by
  induction h with
  | done => intro acc; simp [splitAux, flushElem]
  | space body elems _ ih =>
    intro acc
    have : splitAux (' ' :: body) 0 [] acc = splitAux body 0 [] acc := by
      simp [splitAux, flushElem]
    rw [this, ih]
  | group inner body elems hb _ ih =>
    intro acc
    rw [splitAux_group (bal_of_balanced hb), ih]
    simp [flushElem]
  | token w body elems hw he _ ih =>
    intro acc
    rw [isToken_iff] at hw
    rw [splitAux_run w hw.2, List.nil_append, splitAux_tokenEnds body he w hw.1, ih]
    simp

theorem stripOuter_form (body : List Char) : stripOuter ('(' :: (body ++ [')'])) = some body := by
  simp [stripOuter]

/-- Claim C13: for every parenthesized form whose body is a sequence of top-level elements,
each a paren-free token without spaces or a balanced parenthesized group,
`Assignment::splitExpr` of the whole form returns exactly those elements in order, every
group as one element with its internal spaces. -/
theorem splitExpr_top_level (body : List Char) (elems : List (List Char))
    (h : TopLevel body elems) :
    Assignment.splitExpr (String.mk ('(' :: (body ++ [')']))) = some (elems.map String.mk) := by
  unfold Assignment.splitExpr
  simp only [stripOuter_form, splitTopLevel, splitAux_topLevel h, List.nil_append, Option.map_some']

/-- Witness of claim C13 on the unit test: the body "a (b c)" is the token "a", a space
and the group "(b c)", and `splitExpr("(a (b c))")` is ["a", "(b c)"]. -/
theorem splitExpr_top_level_witness :
    TopLevel "a (b c)".data ["a".data, "(b c)".data]
    ∧ Assignment.splitExpr "(a (b c))" = some ["a", "(b c)"] :=
  have h : TopLevel "a (b c)".data ["a".data, "(b c)".data] :=
    .token "a".data " (b c)".data _ (by decide) (by decide)
      (.space _ _ (.group "b c".data [] [] (by decide) .done))
  ⟨h, splitExpr_top_level _ _ h⟩

/-! ## A keyword directly followed by its operand -/

theorem reduceChars_not_operand (t : TreeNode) (h : t.plain = true) :
    reduceChars ("(not".data ++ t.toChars ++ [')']) = "(not".data ++ t.redChars ++ [')'] := by
  have e : "(not".data = ['(', 'n', 'o', 't'] := rfl
  unfold reduceChars
  rw [removeNT_eq_self]
  · simp only [e, List.cons_append, List.nil_append, List.append_assoc]
    rw [replaceOpen_open_ne _ _ (by decide), replaceOpen_cons_ne _ _ (by decide),
      replaceOpen_cons_ne _ _ (by decide), replaceOpen_cons_ne _ _ (by decide),
      replaceOpen_toChars t h, replaceOpen_cons_ne _ _ (by decide)]
    simp only [replaceOpen]
    rw [replaceClose_cons_ne _ _ (by decide), replaceClose_cons_ne _ _ (by decide),
      replaceClose_cons_ne _ _ (by decide), replaceClose_cons_ne _ _ (by decide),
      replaceClose_toChars t h, replaceClose_cons_ne _ _ (by decide)]
    simp only [replaceClose]
  · intro c hc
    simp only [e, List.cons_append, List.nil_append, List.mem_cons, List.mem_append,
      List.mem_singleton, List.not_mem_nil, or_false] at hc
    rcases hc with hc | hc | hc | hc | hc | hc
    all_goals first | exact toChars_no_nt t h c hc | (subst hc; decide)

theorem splitTopLevel_not_operand (t : TreeNode) (h : t.plain = true) :
    splitTopLevel ("not".data ++ t.redChars) = some ["not".data, t.redChars] := by
  unfold splitTopLevel
  rw [splitAux_token _ (by decide), redChars_eq_body,
    show '(' :: (t.bodyChars ++ [')']) = '(' :: (t.bodyChars ++ ')' :: []) from rfl,
    splitAux_group (bal_bodyChars t h)]
  simp [splitAux, flushElem]

theorem fromString_not_operand (t : TreeNode) (h : t.plain = true) :
    PredicateTree.fromString (String.mk ("(not".data ++ t.toChars ++ [')']))
      = .ok ⟨some (.NotNode t.eraseTypes)⟩ := by
  have hne : String.mk ("(not".data ++ t.toChars ++ [')']) ≠ "" := by
    intro he
    have := congrArg String.data he
    simp at this
  have hstrip : stripOuter ("(not".data ++ t.redChars ++ [')'])
      = some ("not".data ++ t.redChars) := by
    have : "(not".data ++ t.redChars ++ [')'] = '(' :: (("not".data ++ t.redChars) ++ [')']) := by
      simp
    rw [this, stripOuter_form]
  have hlen : ("(not".data ++ t.redChars ++ [')']).length = (t.redChars.length + 4) + 1 := by
    simp
  have hstep : ∀ n, get_tree_node (n + 1) ("(not".data ++ t.redChars ++ [')'])
      = match get_tree_node n t.redChars with
        | .error e => .error e
        | .ok op => .ok (.NotNode op) := by
    intro n
    rw [get_tree_node]
    simp only [hstrip, splitTopLevel_not_operand t h, ↓reduceIte]
    rw [if_neg (by decide), if_neg (by decide)]
  unfold PredicateTree.fromString
  rw [if_neg hne]
  simp only [reduceChars_not_operand t h]
  rw [hlen, hstep, get_tree_node_redChars t h (t.redChars.length + 4) (by omega)]

/-- Claim C14: `fromString` accepts the keyword `not` directly followed by its operand and
`toString` renders one space after the keyword: for every predicate text `P` (the
rendering of a predicate whose name and parameters are tokens),
`toString(fromString("(not" + P + ")")) == "(not " + P + ")"`; the same holds for any
operand with such predicates, and the goal text of the unit test is rendered as
asserted. -/
theorem fromString_keyword_without_space :
    (∀ p : Predicate, p.plain = true →
      (PredicateTree.fromString ("(not" ++ p.toString ++ ")")).map PredicateTree.toString
        = .ok ("(not " ++ p.toString ++ ")"))
    ∧ (∀ t : TreeNode, t.plain = true →
      (PredicateTree.fromString ("(not" ++ t.toString ++ ")")).map PredicateTree.toString
        = .ok ("(not " ++ t.toString ++ ")"))
    ∧ (PredicateTree.fromString
          "(and (robot_at r2d2 bedroom)(not(person_at paco kitchen)))").map
        PredicateTree.toString
        = .ok "(and (robot_at r2d2 bedroom)(not (person_at paco kitchen)))" := by
  have key : ∀ t : TreeNode, t.plain = true →
      (PredicateTree.fromString ("(not" ++ t.toString ++ ")")).map PredicateTree.toString
        = .ok ("(not " ++ t.toString ++ ")") := by
    intro t ht
    have e1 : "(not" ++ t.toString ++ ")" = String.mk ("(not".data ++ t.toChars ++ [')']) := by
      apply String.ext
      simp [TreeNode.toString, String.data_append]
    rw [e1, fromString_not_operand t ht]
    show Except.ok _ = _
    congr 1
    apply String.ext
    simp [PredicateTree.toString, TreeNode.toChars, TreeNode.toString, String.data_append,
      toChars_eraseTypes]
  refine ⟨?_, key, by rfl⟩
  intro p hp
  exact key (.PredicateNode p) hp

/-- Witness of claim C14 on the operand of the unit test:
"(not(person_at paco kitchen))" is rendered as "(not (person_at paco kitchen))". -/
theorem fromString_keyword_without_space_witness :
    predicate_4.toString = "(person_at paco kitchen)"
    ∧ (PredicateTree.fromString "(not(person_at paco kitchen))").map PredicateTree.toString
        = .ok "(not (person_at paco kitchen))" :=
  ⟨by decide, fromString_keyword_without_space.1 predicate_4 (by decide)⟩

/-! ## The action lists through the service -/

theorem foldl_pushAction (kind : String) (l : List String) :
    ∀ r : GetDomainActionsResponse, l.foldl (pushAction kind) r
      = { r with actions := r.actions ++ l, type := r.type ++ List.replicate l.length kind } := by
  induction l with
  | nil => intro r; simp
  | cons a rest ih =>
    intro r
    simp only [List.foldl_cons, ih, pushAction, List.append_assoc, List.singleton_append,
      List.length_cons, List.replicate_succ]

theorem actions_callback_loaded (d : DomainExpert) :
    get_domain_actions_service_callback (some d) GetDomainActionsResponse.empty
      = { actions := d.getActions ++ d.getDurativeActions
          type := List.replicate d.getActions.length "action"
            ++ List.replicate d.getDurativeActions.length "durative-action"
          success := true
          error_info := "" } := by
  simp [get_domain_actions_service_callback, foldl_pushAction, GetDomainActionsResponse.empty]

theorem foldl_index_loop (kind : String) :
    ∀ (xs tags : List String), tags.length = xs.length → ∀ init : List String,
      (List.range xs.length).foldl
          (fun ret i => if tags.getD i "" = kind then ret ++ [xs.getD i ""] else ret) init
        = init ++ ((xs.zip tags).filter (fun p => decide (p.2 = kind))).map (fun p => p.1) := by
  intro xs
  induction xs with
  | nil => intro tags _ init; simp
  | cons x rest ih =>
    intro tags hlen init
    cases tags with
    | nil => simp at hlen
    | cons t ts =>
      have hl : ts.length = rest.length := by simpa using hlen
      rw [List.length_cons, List.range_succ_eq_map, List.foldl_cons, List.foldl_map]
      simp only [List.getD_cons_zero, List.getD_cons_succ]
      rw [ih ts hl]
      by_cases hk : t = kind
      · simp [hk, List.filter_cons]
      · simp [hk, List.filter_cons]

theorem collectKind_eq (kind : String) (r : GetDomainActionsResponse)
    (h : r.type.length = r.actions.length) :
    collectKind kind r
      = ((r.actions.zip r.type).filter (fun p => decide (p.2 = kind))).map (fun p => p.1) := by
  unfold collectKind
  rw [foldl_index_loop kind r.actions r.type h]
  simp

theorem zip_replicate_filter_same (l : List String) (kind : String) :
    ((l.zip (List.replicate l.length kind)).filter (fun p => decide (p.2 = kind))).map
      (fun p => p.1) = l := by
  induction l with
  | nil => simp
  | cons a r ih => simp [List.replicate_succ, List.filter_cons, ih]

theorem zip_replicate_filter_other (l : List String) (kind other : String) (h : other ≠ kind) :
    ((l.zip (List.replicate l.length other)).filter (fun p => decide (p.2 = kind))).map
      (fun p => p.1) = [] := by
  induction l with
  | nil => simp
  | cons a r ih => simp [List.replicate_succ, List.filter_cons, h, ih]

theorem collectKind_callback (d : DomainExpert) :
    collectKind "action"
        (get_domain_actions_service_callback (some d) GetDomainActionsResponse.empty)
      = d.getActions
    ∧ collectKind "durative-action"
        (get_domain_actions_service_callback (some d) GetDomainActionsResponse.empty)
      = d.getDurativeActions := by
  rw [actions_callback_loaded]
  constructor
  · rw [collectKind_eq _ _ (by simp)]
    simp only
    rw [List.zip_append (by simp), List.filter_append, List.map_append,
      zip_replicate_filter_same, zip_replicate_filter_other _ _ _ (by decide)]
    simp
  · rw [collectKind_eq _ _ (by simp)]
    simp only
    rw [List.zip_append (by simp), List.filter_append, List.map_append,
      zip_replicate_filter_same, zip_replicate_filter_other _ _ _ (by decide)]
    simp

/-- Claim C15: for every loaded domain, from the response that the actions callback builds
out of an empty response, `DomainExpertClient::getActions` returns exactly
`domain_expert.getActions()` and `DomainExpertClient::getDurativeActions` returns exactly
`domain_expert.getDurativeActions()`, in the same order; so a name appears in one of the
client's lists only if the domain declares it with that kind. In the domain of the unit
test the lists are [move_person] and [move, talk, approach]. -/
theorem client_action_lists :
    (∀ d : DomainExpert,
      DomainExpertClient.getActions (some
          (get_domain_actions_service_callback (some d) GetDomainActionsResponse.empty))
        = d.getActions
      ∧ DomainExpertClient.getDurativeActions (some
          (get_domain_actions_service_callback (some d) GetDomainActionsResponse.empty))
        = d.getDurativeActions
      ∧ (∀ n, n ∈ DomainExpertClient.getActions (some
          (get_domain_actions_service_callback (some d) GetDomainActionsResponse.empty)) →
          ∃ a ∈ d.actions, a.name = n)
      ∧ (∀ n, n ∈ DomainExpertClient.getDurativeActions (some
          (get_domain_actions_service_callback (some d) GetDomainActionsResponse.empty)) →
          ∃ a ∈ d.durative_actions, a.name = n))
    ∧ DomainExpertClient.getActions (some (get_domain_actions_service_callback
        (some domain_simple_actions) GetDomainActionsResponse.empty)) = ["move_person"]
    ∧ DomainExpertClient.getDurativeActions (some (get_domain_actions_service_callback
        (some domain_simple_actions) GetDomainActionsResponse.empty))
        = ["move", "talk", "approach"] := by
  refine ⟨?_, by decide, by decide⟩
  intro d
  have h := collectKind_callback d
  refine ⟨h.1, h.2, ?_, ?_⟩
  · intro n hn
    simp only [DomainExpertClient.getActions, h.1, DomainExpert.getActions, List.mem_map] at hn
    exact hn
  · intro n hn
    simp only [DomainExpertClient.getDurativeActions, h.2, DomainExpert.getDurativeActions,
      List.mem_map] at hn
    exact hn

/-! ## Action lookup, in the domain and through the service -/

theorem client_getAction_empty_iff (d : DomainExpert) (n : String) :
    DomainExpertClient.getAction (some (get_domain_action_details_service_callback
        (some d) n GetDomainActionDetailsResponse.empty)) = .ok none
      ↔ d.getAction n = none := by
  simp only [get_domain_action_details_service_callback]
  cases ha : d.getAction n with
  | some a =>
    simp only [DomainExpertClient.getAction, GetDomainActionDetailsResponse.empty, ↓reduceIte,
      reduceCtorEq, iff_false]
    cases PredicateTree.fromString a.preconditions.toString <;>
      cases PredicateTree.fromString a.effects.toString <;> simp
  | none =>
    cases d.getDurativeAction n <;>
      simp [DomainExpertClient.getAction, GetDomainActionDetailsResponse.empty]

theorem client_getAction_carries (d : DomainExpert) (n : String) (a : Action)
    (ha : d.getAction n = some a) (r : Action)
    (hr : DomainExpertClient.getAction (some (get_domain_action_details_service_callback
        (some d) n GetDomainActionDetailsResponse.empty)) = .ok (some r)) :
    r.name = n ∧ r.parameters = a.parameters := by
  simp only [get_domain_action_details_service_callback, ha, DomainExpertClient.getAction,
    GetDomainActionDetailsResponse.empty, ↓reduceIte, List.nil_append, rebuildParams_map] at hr
  cases h1 : PredicateTree.fromString a.preconditions.toString <;>
    cases h2 : PredicateTree.fromString a.effects.toString <;>
    simp only [h1, h2, reduceCtorEq, Except.ok.injEq, Option.some.injEq] at hr
  subst hr
  exact ⟨rfl, rfl⟩

/-- Claim C16: `getAction(name)` has a value if and only if the domain has a simple action
of that name, so it is empty for an undeclared name and for a name that is only a
durative action. Through the service, `DomainExpertClient::getAction(name)` returns the
empty optional exactly when `domain_expert.getAction(name)` is empty; when the domain has
the action, the value the client returns carries the requested name and the action's
parameter names and types in order, and the client does return a value whenever the two
expression texts parse back, as those of trees with token names do. -/
theorem getAction_value_iff :
    (∀ (d : DomainExpert) (n : String),
      ((d.getAction n).isSome = true ↔ ∃ a ∈ d.actions, a.name = n)
      ∧ (∀ a, d.getAction n = some a → a ∈ d.actions ∧ a.name = n)
      ∧ (DomainExpertClient.getAction (some (get_domain_action_details_service_callback
            (some d) n GetDomainActionDetailsResponse.empty)) = .ok none
          ↔ d.getAction n = none)
      ∧ (∀ a, d.getAction n = some a →
          (∀ r, DomainExpertClient.getAction (some (get_domain_action_details_service_callback
              (some d) n GetDomainActionDetailsResponse.empty)) = .ok (some r) →
            r.name = n ∧ r.parameters = a.parameters)
          ∧ (a.preconditions.plain = true → a.effects.plain = true →
            ∃ r, DomainExpertClient.getAction (some
              (get_domain_action_details_service_callback
                (some d) n GetDomainActionDetailsResponse.empty)) = .ok (some r))))
    ∧ domain_simple_actions.getAction "noexist" = none
    ∧ domain_simple_actions.getAction "move" = none
    ∧ (domain_simple_actions.getDurativeAction "move").isSome = true
    ∧ (domain_simple_actions.getAction "move_person").isSome = true := by
  refine ⟨?_, rfl, rfl, rfl, rfl⟩
  intro d n
  refine ⟨?_, ?_, client_getAction_empty_iff d n, ?_⟩
  · simp [DomainExpert.getAction, List.find?_isSome]
  · intro a ha
    simp only [DomainExpert.getAction] at ha
    have h1 := List.find?_some ha
    exact ⟨List.mem_of_find?_eq_some ha, by simpa using h1⟩
  · intro a ha
    refine ⟨client_getAction_carries d n a ha, ?_⟩
    intro hpre heff
    exact ⟨_, client_getAction_callback d n a ha hpre heff⟩

/-- Witness of claim C16: the simple action `move` of the one-action domain reaches the
client with the requested name and its three parameters. -/
theorem getAction_value_iff_witness :
    ∃ r, DomainExpertClient.getAction (some (get_domain_action_details_service_callback
        (some domain_move) "move" GetDomainActionDetailsResponse.empty)) = .ok (some r)
      ∧ r.name = "move"
      ∧ r.parameters = [⟨"?0", "robot"⟩, ⟨"?1", "room"⟩, ⟨"?2", "room"⟩] := by
  have h := (getAction_value_iff.1 domain_move "move").2.2.2 _ rfl
  obtain ⟨r, hr⟩ := h.2 (by decide) (by decide)
  exact ⟨r, hr, (h.1 r hr).1, (h.1 r hr).2⟩

/-! ## Failure reporting of the callbacks -/

/-- Claim C17: each of the six callbacks is a total function that reports failure in the
response. With no domain loaded it sets `success = false` and `error_info =
"Requesting service in non-active state"` and leaves every payload field as it was. With
a domain loaded the four list callbacks set `success = true`; the action-details callback
sets `success = false`, with `error_info = "Action not found"`, exactly when the name is
neither a simple nor a durative action; the predicate-details callback sets
`success = false`, with `error_info = "Predicate not found"`, exactly when the name
matches no predicate; otherwise they set `success = true`. -/
theorem callbacks_report_failure :
    (∀ r : GetDomainTypesResponse, get_domain_types_service_callback none r
      = { r with success := false, error_info := "Requesting service in non-active state" })
    ∧ (∀ r : GetDomainActionsResponse, get_domain_actions_service_callback none r
      = { r with success := false, error_info := "Requesting service in non-active state" })
    ∧ (∀ (n : String) (r : GetDomainActionDetailsResponse),
      get_domain_action_details_service_callback none n r
      = { r with success := false, error_info := "Requesting service in non-active state" })
    ∧ (∀ r : GetDomainPredicatesResponse, get_domain_predicates_service_callback none r
      = { r with success := false, error_info := "Requesting service in non-active state" })
    ∧ (∀ (n : String) (r : GetDomainPredicateDetailsResponse),
      get_domain_predicate_details_service_callback none n r
      = { r with success := false, error_info := "Requesting service in non-active state" })
    ∧ (∀ (getDomain : DomainExpert → String) (r : GetDomainResponse),
      get_domain_service_callback getDomain none r
      = { r with success := false, error_info := "Requesting service in non-active state" })
    ∧ (∀ (d : DomainExpert) (r : GetDomainTypesResponse),
      (get_domain_types_service_callback (some d) r).success = true)
    ∧ (∀ (d : DomainExpert) (r : GetDomainActionsResponse),
      (get_domain_actions_service_callback (some d) r).success = true)
    ∧ (∀ (d : DomainExpert) (r : GetDomainPredicatesResponse),
      (get_domain_predicates_service_callback (some d) r).success = true)
    ∧ (∀ (getDomain : DomainExpert → String) (d : DomainExpert) (r : GetDomainResponse),
      (get_domain_service_callback getDomain (some d) r).success = true)
    ∧ (∀ (d : DomainExpert) (n : String) (r : GetDomainActionDetailsResponse),
      ((get_domain_action_details_service_callback (some d) n r).success = false
        ↔ (d.getAction n = none ∧ d.getDurativeAction n = none))
      ∧ ((get_domain_action_details_service_callback (some d) n r).success = true
        ↔ ¬ (d.getAction n = none ∧ d.getDurativeAction n = none))
      ∧ ((d.getAction n = none ∧ d.getDurativeAction n = none) →
        get_domain_action_details_service_callback (some d) n r
          = { r with success := false, error_info := "Action not found" }))
    ∧ (∀ (d : DomainExpert) (n : String) (r : GetDomainPredicateDetailsResponse),
      ((get_domain_predicate_details_service_callback (some d) n r).success = false
        ↔ d.getPredicate n = none)
      ∧ ((get_domain_predicate_details_service_callback (some d) n r).success = true
        ↔ d.getPredicate n ≠ none)
      ∧ (d.getPredicate n = none →
        get_domain_predicate_details_service_callback (some d) n r
          = { r with success := false, error_info := "Predicate not found" })) := by
  refine ⟨fun _ => rfl, fun _ => rfl, fun _ _ => rfl, fun _ => rfl, fun _ _ => rfl,
    fun _ _ => rfl, fun _ _ => rfl, ?_, fun _ _ => rfl, fun _ _ _ => rfl, ?_, ?_⟩
  · intro d r
    simp [get_domain_actions_service_callback, foldl_pushAction]
  · intro d n r
    simp only [get_domain_action_details_service_callback]
    cases d.getAction n <;> cases d.getDurativeAction n <;> simp
  · intro d n r
    simp only [get_domain_predicate_details_service_callback]
    cases d.getPredicate n <;> simp

/-! ## Tokenizing the model files -/

theorem firstDelim_none {delim u : List Char} (h : firstDelim delim u = none) :
    ∀ c ∈ u, c ∉ delim := by
  induction u with
  | nil => simp
  | cons c r ih =>
    by_cases hc : c ∈ delim
    · simp [firstDelim, hc] at h
    · simp only [firstDelim, hc, ↓reduceIte, Option.map_eq_none'] at h
      intro x hx
      rcases List.mem_cons.mp hx with h1 | h1
      · rw [h1]; exact hc
      · exact ih h x h1

theorem firstDelim_some {delim u : List Char} {q : Nat} (h : firstDelim delim u = some q) :
    ∃ pre x post, u = pre ++ x :: post ∧ pre.length = q ∧ (∀ y ∈ pre, y ∉ delim) ∧ x ∈ delim := by
  induction u generalizing q with
  | nil => simp [firstDelim] at h
  | cons c r ih =>
    by_cases hc : c ∈ delim
    · simp only [firstDelim, hc, ↓reduceIte, Option.some.injEq] at h
      exact ⟨[], c, r, rfl, by simpa using h, by simp, hc⟩
    · simp only [firstDelim, hc, ↓reduceIte, Option.map_eq_some'] at h
      obtain ⟨i, hi, hq⟩ := h
      obtain ⟨pre, x, post, hu, hlen, hpre, hx⟩ := ih hi
      refine ⟨c :: pre, x, post, by simp [hu], by simp [hlen, hq], ?_, hx⟩
      intro y hy
      rcases List.mem_cons.mp hy with h1 | h1
      · rw [h1]; exact hc
      · exact hpre y h1

theorem maximalRuns_no_delim (u delim : List Char) (h : ∀ c ∈ u, c ∉ delim) (hne : u ≠ []) :
    maximalRuns u delim = [u] := by
  unfold maximalRuns
  rw [List.splitOnP_eq_single]
  · cases u with
    | nil => exact absurd rfl hne
    | cons c r => simp
  · intro x hx
    simpa using h x hx

theorem maximalRuns_first (pre : List Char) (x : Char) (post delim : List Char)
    (hpre : ∀ y ∈ pre, y ∉ delim) (hx : x ∈ delim) :
    maximalRuns (pre ++ x :: post) delim
      = (if pre = [] then [] else [pre]) ++ maximalRuns post delim := by
  unfold maximalRuns
  rw [List.splitOnP_first _ _ (by intro y hy; simpa using hpre y hy) x (by simpa using hx)]
  cases pre <;> simp [List.filter_cons]

theorem maximalRuns_nil (delim : List Char) : maximalRuns [] delim = [] := by
  simp [maximalRuns, List.splitOnP_nil]


theorem tokenizeLoop_eq (string delim : List Char) :
    ∀ (fuel lastPos : Nat) (tokens : List (List Char)), lastPos < string.length →
      string.length - lastPos ≤ fuel →
      tokenizeLoop fuel string delim lastPos (find_first_of string delim lastPos) tokens
        = some (tokens ++ maximalRuns (string.drop lastPos) delim) := by
  intro fuel
  induction fuel with
  | zero => intro lastPos tokens h1 h2; omega
  | succ m ih =>
    intro lastPos tokens h1 h2
    have hu : string.drop lastPos ≠ [] := by
      intro h
      have := congrArg List.length h
      simp at this
      omega
    have hulen : (string.drop lastPos).length = string.length - lastPos := by simp
    unfold tokenizeLoop find_first_of
    cases hq : firstDelim delim (string.drop lastPos) with
    | none =>
      simp only [Option.map_none', ne_eq, reduceCtorEq, not_false_eq_true, ↓reduceIte, substr]
      rw [maximalRuns_no_delim _ _ (firstDelim_none hq) hu]
    | some q =>
      obtain ⟨pre, x, post, hsplit, hlen, hpre, hx⟩ := firstDelim_some hq
      have hsub : substr string lastPos (some (lastPos + q)) = pre := by
        simp only [substr, Nat.add_sub_cancel_left, hsplit]
        rw [← hlen, List.take_left]
      have hcond : (some (lastPos + q) ≠ some lastPos) ↔ pre ≠ [] := by
        rw [ne_eq, Option.some.injEq, ← hlen, ne_eq, ← List.length_eq_zero]
        omega
      have htok : (if some (lastPos + q) ≠ some lastPos
          then tokens ++ [substr string lastPos (some (lastPos + q))] else tokens)
          = tokens ++ (if pre = [] then [] else [pre]) := by
        by_cases hp : pre = []
        · have : ¬ (some (lastPos + q) ≠ some lastPos) := fun h => (hcond.mp h) hp
          simp [hp, this]
        · have : some (lastPos + q) ≠ some lastPos := hcond.mpr hp
          simp [hp, this, hsub]
      have hlen2 : string.length - lastPos = q + 1 + post.length := by
        rw [← hulen, hsplit]
        simp [hlen]
        omega
      simp only [Option.map_some']
      rw [htok, hsplit, maximalRuns_first pre x post delim hpre hx]
      by_cases hend : lastPos + q + 1 = string.length
      · have hpost : post = [] := by
          apply List.length_eq_zero.mp
          omega
        simp [hend, hpost, maximalRuns_nil]
      · have hdrop : string.drop (lastPos + q + 1) = post := by
          have : string.drop (lastPos + q + 1) = (string.drop lastPos).drop (q + 1) := by
            rw [List.drop_drop]
            congr 1
          rw [this, hsplit, ← hlen]
          simp
        have := ih (lastPos + q + 1) (tokens ++ (if pre = [] then [] else [pre]))
          (by omega) (by omega)
        simp only [find_first_of] at this
        simp only [hend, ↓reduceIte]
        rw [this, hdrop, List.append_assoc]

theorem tokenizeLoop_start (string delim : List Char) (h : string ≠ []) :
    tokenizeLoop (string.length + 1) string delim 0 (find_first_of string delim 0) []
      = some (maximalRuns string delim) := by
  have hpos : 0 < string.length := List.length_pos.mpr h
  have := tokenizeLoop_eq string delim (string.length + 1) 0 [] hpos (by omega)
  simpa using this

theorem maximalRuns_eq_nil_iff (u delim : List Char) :
    maximalRuns u delim = [] ↔ ∀ c ∈ u, c ∈ delim := by
  induction u with
  | nil => simp [maximalRuns_nil]
  | cons x r ih =>
    by_cases hx : x ∈ delim
    · have := maximalRuns_first [] x r delim (by simp) hx
      simp only [List.nil_append, ↓reduceIte] at this
      rw [this, ih]
      simp [hx]
    · have hne : maximalRuns (x :: r) delim ≠ [] := by
        unfold maximalRuns
        rw [List.splitOnP_cons]
        simp only [hx, decide_False, Bool.false_eq_true, ↓reduceIte]
        cases hs : List.splitOnP (fun c => decide (c ∈ delim)) r with
        | nil => exact absurd hs (List.splitOnP_ne_nil _ _)
        | cons a b => simp [List.modifyHead, List.filter_cons]
      simp [hne, hx]

theorem mem_maximalRuns (u delim : List Char) :
    ∀ t ∈ maximalRuns u delim, t ≠ [] ∧ ∀ c ∈ t, c ∉ delim := by
  have key : ∀ (n : Nat) (u : List Char), u.length ≤ n →
      ∀ t ∈ maximalRuns u delim, t ≠ [] ∧ ∀ c ∈ t, c ∉ delim := by
    intro n
    induction n with
    | zero =>
      intro u hu t ht
      have : u = [] := List.length_eq_zero.mp (Nat.le_zero.mp hu)
      subst this
      simp [maximalRuns_nil] at ht
    | succ m ih =>
      intro u hu t ht
      cases hq : firstDelim delim u with
      | none =>
        by_cases hne : u = []
        · subst hne; simp [maximalRuns_nil] at ht
        · rw [maximalRuns_no_delim u delim (firstDelim_none hq) hne] at ht
          simp only [List.mem_singleton] at ht
          subst ht
          exact ⟨hne, firstDelim_none hq⟩
      | some q =>
        obtain ⟨pre, x, post, hsplit, _, hpre, hx⟩ := firstDelim_some hq
        rw [hsplit, maximalRuns_first pre x post delim hpre hx, List.mem_append] at ht
        rcases ht with h | h
        · by_cases hp : pre = []
          · simp [hp] at h
          · simp only [hp, ↓reduceIte, List.mem_singleton] at h
            subst h
            exact ⟨hp, hpre⟩
        · apply ih post _ t h
          have := congrArg List.length hsplit
          simp at this
          omega
  exact key u.length u (le_refl _)

theorem maximalRuns_skip (x : Char) (post delim : List Char) (hx : x ∈ delim) :
    maximalRuns (x :: post) delim = maximalRuns post delim := by
  have := maximalRuns_first [] x post delim (by simp) hx
  simpa using this

theorem maximalRuns_spec (delim : List Char) :
    ∀ (n : Nat) (s : List Char), s.length ≤ n → MaximalRuns delim s (maximalRuns s delim) := by
  intro n
  induction n with
  | zero =>
    intro s hs
    have : s = [] := List.length_eq_zero.mp (Nat.le_zero.mp hs)
    subst this
    rw [maximalRuns_nil]
    exact MaximalRuns.done
  | succ m ih =>
    intro s hs
    by_cases hne : s = []
    · subst hne
      rw [maximalRuns_nil]
      exact MaximalRuns.done
    · cases hq : firstDelim delim s with
      | none =>
        rw [maximalRuns_no_delim s delim (firstDelim_none hq) hne]
        have := MaximalRuns.run s [] [] hne (firstDelim_none hq) (by simp) MaximalRuns.done
        simpa using this
      | some q =>
        obtain ⟨pre, x, post, hsplit, _, hpre, hx⟩ := firstDelim_some hq
        subst hsplit
        have hpost : MaximalRuns delim (x :: post) (maximalRuns post delim) := by
          refine MaximalRuns.skip x post _ hx (ih post ?_)
          simp at hs
          omega
        rw [maximalRuns_first pre x post delim hpre hx]
        by_cases hp : pre = []
        · subst hp
          simpa using hpost
        · simp only [hp, ↓reduceIte, List.singleton_append]
          exact MaximalRuns.run pre (x :: post) _ hp hpre (by simp [hx]) hpost

theorem maximalRuns_unique (delim s : List Char) (ts : List (List Char))
    (h : MaximalRuns delim s ts) : ts = maximalRuns s delim := by
  induction h with
  | done => rw [maximalRuns_nil]
  | skip c s ts hc _ ih => rw [maximalRuns_skip c s delim hc]; exact ih
  | run t s ts hne ht hs _ ih =>
    cases s with
    | nil =>
      rw [maximalRuns_nil] at ih
      rw [List.append_nil, maximalRuns_no_delim t delim ht hne, ih]
    | cons x post =>
      have hx : x ∈ delim := hs x (by simp)
      rw [maximalRuns_first t x post delim ht hx, ← maximalRuns_skip x post delim hx, ← ih]
      simp [hne]

theorem tokenize_of_ne (s d : String) (h : s ≠ "") :
    tokenize s d = some ((maximalRuns s.data d.data).map String.mk) := by
  have hne : s.data ≠ [] := by
    intro h0
    exact h (String.ext h0)
  unfold tokenize
  have : s.length = s.data.length := rfl
  rw [this, tokenizeLoop_start s.data d.data hne]
  rfl

theorem tokenize_empty (d : String) : tokenize "" d = some [""] := by
  rfl

theorem tokenize_eq_nil_iff (s d : String) :
    tokenize s d = some [] ↔ (s ≠ "" ∧ ∀ c ∈ s.data, c ∈ d.data) := by
  by_cases h : s = ""
  · subst h
    rw [tokenize_empty]
    simp
  · rw [tokenize_of_ne s d h]
    simp only [Option.some.injEq, List.map_eq_nil_iff, maximalRuns_eq_nil_iff, ne_eq, h,
      not_false_eq_true, true_and]

/-- Claim C19: `tokenize` ends on every input; for every non-empty text and every set of
delimiters it returns, in order, the maximal non-empty runs of characters that are no
delimiters (the list `maximalRuns`, which is the one list that `MaximalRuns` describes),
so no token is empty and none contains a delimiter, and leading, trailing and repeated
delimiters give nothing; for the empty text it returns the one-element list [""]. -/
theorem tokenize_maximal_runs :
    (∀ s d : String,
      (tokenize s d).isSome = true
      ∧ (s ≠ "" → tokenize s d = some ((maximalRuns s.data d.data).map String.mk))
      ∧ MaximalRuns d.data s.data (maximalRuns s.data d.data)
      ∧ (∀ runs, MaximalRuns d.data s.data runs → runs = maximalRuns s.data d.data)
      ∧ (s ≠ "" → ∀ tokens, tokenize s d = some tokens →
          ∀ t ∈ tokens, t ≠ "" ∧ ∀ c ∈ t.data, c ∉ d.data)
      ∧ tokenize "" d = some [""])
    ∧ tokenize "a.pddl:b.pddl" ":" = some ["a.pddl", "b.pddl"]
    ∧ tokenize "::a.pddl:::b.pddl:" ":" = some ["a.pddl", "b.pddl"]
    ∧ tokenize "a b,c" ", " = some ["a", "b", "c"] := by
  refine ⟨?_, by decide, by decide, by decide⟩
  intro s d
  refine ⟨?_, tokenize_of_ne s d, maximalRuns_spec d.data _ s.data (le_refl _),
    maximalRuns_unique d.data s.data, ?_, tokenize_empty d⟩
  · by_cases h : s = ""
    · subst h; rfl
    · rw [tokenize_of_ne s d h]; rfl
  · intro h tokens htok t ht
    rw [tokenize_of_ne s d h] at htok
    simp only [Option.some.injEq] at htok
    subst htok
    obtain ⟨w, hw, rfl⟩ := List.mem_map.mp ht
    have := mem_maximalRuns s.data d.data w hw
    refine ⟨?_, this.2⟩
    intro he
    exact this.1 (congrArg String.data he)

/-! ## Configuring the node -/

theorem range_foldl_tail {D : Type} (g : D → String → D) (first : String) (rest : List String) :
    ∀ init : D, (List.range rest.length).foldl
        (fun d i => g d ((first :: rest).getD (i + 1) "")) init
      = rest.foldl g init := by
  simp only [List.getD_cons_succ]
  induction rest with
  | nil => intro init; rfl
  | cons f r ih =>
    intro init
    rw [List.length_cons, List.range_succ_eq_map, List.foldl_cons, List.foldl_map]
    simp only [List.getD_cons_zero, List.getD_cons_succ, List.foldl_cons]
    exact ih _

theorem on_configure_tokens {D : Type} (readFile : String → String) (construct : String → D)
    (extendDomain : D → String → D) (model_file : String) (tokens : List String)
    (h : tokenize model_file ":" = some tokens) :
    on_configure readFile construct extendDomain model_file
      = foldModelFiles readFile construct extendDomain tokens := by
  unfold on_configure
  rw [h]
  cases tokens with
  | nil => rfl
  | cons first rest =>
    simp only [List.getElem?_cons_zero, List.length_cons, Nat.add_sub_cancel, foldModelFiles]
    rw [range_foldl_tail (fun d f => extendDomain d (readFile f)) first rest]

theorem foldl_last_write_wins {D V : Type} (extendDomain : D → String → D)
    (readFile : String → String) (lookup : D → String → Option V)
    (defines : String → String → Option V)
    (hext : ∀ d t n, lookup (extendDomain d t) n = (defines t n).or (lookup d n))
    (n : String) (rest : List String) :
    ∀ init : D, lookup (rest.foldl (fun d f => extendDomain d (readFile f)) init) n
      = (rest.reverse.findSome? (fun f => defines (readFile f) n)).or (lookup init n) := by
  induction rest with
  | nil => intro init; rfl
  | cons f r ih =>
    intro init
    rw [List.foldl_cons, ih, List.reverse_cons, List.findSome?_append, hext]
    simp only [List.findSome?_cons, List.findSome?_nil]
    cases r.reverse.findSome? (fun f => defines (readFile f) n) <;>
      cases defines (readFile f) n <;> rfl

theorem find?_mergeNamed {α : Type} (key : α → String) (old new : List α) (n : String) :
    (mergeNamed key old new).find? (fun x => decide (key x = n))
      = (new.find? (fun x => decide (key x = n))).or
          (old.find? (fun x => decide (key x = n))) := by
  have hkey : ∀ o, key ((new.find? (fun nw => decide (key nw = key o))).getD o) = key o := by
    intro o
    cases hf : new.find? (fun nw => decide (key nw = key o)) with
    | none => rfl
    | some nw => simpa using List.find?_some hf
  have hcomp : ((fun x => decide (key x = n)) ∘
      (fun o => (new.find? (fun nw => decide (key nw = key o))).getD o))
      = (fun x => decide (key x = n)) := by
    funext o
    simp only [Function.comp_apply, hkey]
  unfold mergeNamed
  rw [List.find?_append, List.find?_map, hcomp]
  cases ho : old.find? (fun x => decide (key x = n)) with
  | some o =>
    have hon : key o = n := by simpa using List.find?_some ho
    simp only [Option.map_some', hon]
    cases new.find? (fun x => decide (key x = n)) <;> rfl
  | none =>
    have hnone : ∀ x ∈ old, key x ≠ n := by
      simpa using ho
    have hq : ∀ a, decide ((!old.any (fun o => decide (key o = key a))) = true
        ∧ decide (key a = n) = true) = decide (key a = n) := by
      intro a
      by_cases ha : key a = n
      · have : old.any (fun o => decide (key o = key a)) = false := by
          rw [← Bool.not_eq_true, List.any_eq_true]
          rintro ⟨o, ho1, ho2⟩
          exact hnone o ho1 (by rw [← ha]; simpa using ho2)
        rw [this]
        simp [ha]
      · simp [ha]
    simp only [Option.map_none', List.find?_filter, hq]
    cases new.find? (fun x => decide (key x = n)) <;> rfl

theorem getAction_extendWith (d fragment : DomainExpert) (n : String) :
    (d.extendWith fragment).getAction n = (fragment.getAction n).or (d.getAction n) := by
  unfold DomainExpert.getAction DomainExpert.extendWith
  exact find?_mergeNamed (fun a : Action => a.name) d.actions fragment.actions n

/-- Claim C18: `on_configure` builds the domain from the text of the first of the
':'-separated paths and applies `extendDomain` once for each remaining path, left to
right: for the tokens [f0, f1, ..., fn] the model is
extend(... extend(DomainExpert(text(f0)), text(f1)) ..., text(fn)). Hence, when the
constructor and `extendDomain` are last-write-wins for a lookup, the configured model
answers the lookup of a name with the definition of the rightmost file that defines it. -/
theorem on_configure_folds {D V : Type} (readFile : String → String) (construct : String → D)
    (extendDomain : D → String → D) (model_file : String) :
    (∃ tokens, tokenize model_file ":" = some tokens)
    ∧ (∀ first rest, tokenize model_file ":" = some (first :: rest) →
      on_configure readFile construct extendDomain model_file
        = .ok (rest.foldl (fun d f => extendDomain d (readFile f))
            (construct (readFile first))))
    ∧ (∀ (lookup : D → String → Option V) (defines : String → String → Option V),
        (∀ t n, lookup (construct t) n = defines t n) →
        (∀ d t n, lookup (extendDomain d t) n = (defines t n).or (lookup d n)) →
        ∀ tokens configured, tokenize model_file ":" = some tokens →
          on_configure readFile construct extendDomain model_file = .ok configured →
          ∀ n, lookup configured n
            = tokens.reverse.findSome? (fun f => defines (readFile f) n)) := by
  refine ⟨?_, ?_, ?_⟩
  · by_cases h : model_file = ""
    · subst h; exact ⟨_, tokenize_empty ":"⟩
    · exact ⟨_, tokenize_of_ne model_file ":" h⟩
  · intro first rest htok
    rw [on_configure_tokens readFile construct extendDomain model_file _ htok]
    rfl
  · intro lookup defines hcons hext tokens configured htok hconf n
    rw [on_configure_tokens readFile construct extendDomain model_file tokens htok] at hconf
    cases tokens with
    | nil => simp [foldModelFiles] at hconf
    | cons first rest =>
      simp only [foldModelFiles, Except.ok.injEq] at hconf
      subst hconf
      rw [foldl_last_write_wins extendDomain readFile lookup defines hext n rest,
        List.reverse_cons, List.findSome?_append, hcons]
      simp only [List.findSome?_cons, List.findSome?_nil]
      cases rest.reverse.findSome? (fun f => defines (readFile f) n) <;>
        cases defines (readFile first) n <;> rfl

/-- Witness of claim C18: with two model files that both define the action `move`, the
configured domain answers `getAction("move")` with the definition of the second file;
the merge of the domain model is last-write-wins for `getAction`. -/
theorem on_configure_folds_witness :
    on_configure (fun path => path) parse_move_marked
        (DomainExpert.extendDomain parse_move_marked) "a.pddl:b.pddl"
      = .ok ((parse_move_marked "a.pddl").extendWith (parse_move_marked "b.pddl"))
    ∧ ∀ configured,
        on_configure (fun path => path) parse_move_marked
          (DomainExpert.extendDomain parse_move_marked) "a.pddl:b.pddl" = .ok configured →
        configured.getAction "move" = some ⟨"move", [⟨"b.pddl", ""⟩], ⟨none⟩, ⟨none⟩⟩ := by
  have h := on_configure_folds (V := Action) (fun path => path) parse_move_marked
    (DomainExpert.extendDomain parse_move_marked) "a.pddl:b.pddl"
  have htok : tokenize "a.pddl:b.pddl" ":" = some ["a.pddl", "b.pddl"] := by decide
  refine ⟨h.2.1 _ _ htok, ?_⟩
  intro configured hc
  rw [h.2.2 (fun d n => d.getAction n) (fun t n => (parse_move_marked t).getAction n)
    (fun _ _ => rfl)
    (fun d t n => getAction_extendWith d (parse_move_marked t) n)
    _ configured htok hc "move"]
  rfl

/-- Claim C20: the read of `model_files[0]` in `on_configure` is in bounds if and only if
the `model_file` parameter is the empty text or has a character other than ':';
equivalently, `tokenize(s, ":")` is the empty list exactly when `s` is not empty and
consists of ':' characters only. -/
theorem model_files_first_in_bounds (model_file : String) :
    (tokenize model_file ":" = some [] ↔
      (model_file ≠ "" ∧ ∀ c ∈ model_file.data, c = ':'))
    ∧ ((∃ tokens first, tokenize model_file ":" = some tokens ∧ tokens[0]? = some first) ↔
      (model_file = "" ∨ ∃ c ∈ model_file.data, c ≠ ':'))
    ∧ (∀ (D : Type) (readFile : String → String) (construct : String → D)
        (extendDomain : D → String → D),
        on_configure readFile construct extendDomain model_file = .error .readOutOfBounds ↔
          (model_file ≠ "" ∧ ∀ c ∈ model_file.data, c = ':')) := by
  have h1 : tokenize model_file ":" = some [] ↔
      (model_file ≠ "" ∧ ∀ c ∈ model_file.data, c = ':') := by
    rw [tokenize_eq_nil_iff]
    have : ":".data = [':'] := rfl
    simp [this]
  have htot : ∃ tokens, tokenize model_file ":" = some tokens := by
    by_cases h : model_file = ""
    · subst h; exact ⟨_, tokenize_empty ":"⟩
    · exact ⟨_, tokenize_of_ne model_file ":" h⟩
  refine ⟨h1, ?_, ?_⟩
  · obtain ⟨tokens, htok⟩ := htot
    have hiff : (∃ tokens first, tokenize model_file ":" = some tokens ∧
        tokens[0]? = some first) ↔ ¬ (tokenize model_file ":" = some []) := by
      rw [htok]
      cases tokens with
      | nil => simp
      | cons a r => simp
    rw [hiff, h1]
    by_cases he : model_file = ""
    · simp [he]
    · simp only [ne_eq, he, not_false_eq_true, true_and, not_forall, false_or]
      constructor
      · rintro ⟨c, hc, hne⟩; exact ⟨c, hc, hne⟩
      · rintro ⟨c, hc, hne⟩; exact ⟨c, hc, hne⟩
  · intro D readFile construct extendDomain
    obtain ⟨tokens, htok⟩ := htot
    rw [on_configure_tokens readFile construct extendDomain model_file tokens htok, ← h1, htok]
    cases tokens with
    | nil => simp [foldModelFiles]
    | cons a r => simp [foldModelFiles]

/-- Witness of claim C20: for ":" and "::" the token list is empty and the read is out of
bounds; for the empty text and for "a.pddl" it is in bounds. -/
theorem model_files_first_in_bounds_witness :
    tokenize ":" ":" = some []
    ∧ tokenize "::" ":" = some []
    ∧ tokenize "" ":" = some [""]
    ∧ on_configure (fun path => path) parse_move_marked
        (DomainExpert.extendDomain parse_move_marked) "::" = .error .readOutOfBounds
    ∧ on_configure (fun path => path) parse_move_marked
        (DomainExpert.extendDomain parse_move_marked) "" = .ok (parse_move_marked "") :=
  ⟨(model_files_first_in_bounds ":").1.mpr (by decide),
    (model_files_first_in_bounds "::").1.mpr (by decide), by decide,
    ((model_files_first_in_bounds "::").2.2 _ _ _ _).mpr (by decide), by rfl⟩

/-! ## The durative reader of the client -/

theorem client_getDurativeAction_callback (d : DomainExpert) (n : String) (a : DurativeAction)
    (hn : d.getAction n = none) (ha : d.getDurativeAction n = some a)
    (h1 : a.at_start_requirements.plain = true) (h2 : a.over_all_requirements.plain = true)
    (h3 : a.at_end_requirements.plain = true) (h4 : a.at_start_effects.plain = true)
    (h5 : a.at_end_effects.plain = true) :
    DomainExpertClient.getDurativeAction (some (get_domain_action_details_service_callback
      (some d) n GetDomainActionDetailsResponse.empty))
      = .ok (some ⟨n, a.parameters, a.at_start_requirements.eraseTypes,
          a.over_all_requirements.eraseTypes, a.at_end_requirements.eraseTypes,
          a.at_start_effects.eraseTypes, a.at_end_effects.eraseTypes⟩) := by
  simp only [get_domain_action_details_service_callback, hn, ha]
  simp [DomainExpertClient.getDurativeAction, GetDomainActionDetailsResponse.empty,
    rebuildParams_map, fromString_toString _ h1, fromString_toString _ h2,
    fromString_toString _ h3, fromString_toString _ h4, fromString_toString _ h5]

theorem client_getDurativeAction_empty_iff (d : DomainExpert) (n : String) :
    DomainExpertClient.getDurativeAction (some (get_domain_action_details_service_callback
        (some d) n GetDomainActionDetailsResponse.empty)) = .ok none
      ↔ ¬ ((d.getDurativeAction n).isSome = true ∧ d.getAction n = none) := by
  simp only [get_domain_action_details_service_callback]
  cases ha : d.getAction n with
  | some a =>
    simp [DomainExpertClient.getDurativeAction, GetDomainActionDetailsResponse.empty]
  | none =>
    cases hb : d.getDurativeAction n with
    | none => simp [DomainExpertClient.getDurativeAction, GetDomainActionDetailsResponse.empty]
    | some b =>
      simp only [DomainExpertClient.getDurativeAction, GetDomainActionDetailsResponse.empty,
        ↓reduceIte, Option.isSome_some, and_self, not_true_eq_false, iff_false]
      cases PredicateTree.fromString b.at_start_requirements.toString <;>
        cases PredicateTree.fromString b.over_all_requirements.toString <;>
        cases PredicateTree.fromString b.at_end_requirements.toString <;>
        cases PredicateTree.fromString b.at_start_effects.toString <;>
        cases PredicateTree.fromString b.at_end_effects.toString <;> simp

theorem client_getDurativeAction_carries (d : DomainExpert) (n : String) (r : DurativeAction)
    (hr : DomainExpertClient.getDurativeAction (some
        (get_domain_action_details_service_callback
          (some d) n GetDomainActionDetailsResponse.empty)) = .ok (some r)) :
    d.getAction n = none
    ∧ ∃ a, d.getDurativeAction n = some a ∧ r.name = n ∧ r.parameters = a.parameters := by
  simp only [get_domain_action_details_service_callback] at hr
  cases ha : d.getAction n with
  | some a =>
    simp [ha, DomainExpertClient.getDurativeAction, GetDomainActionDetailsResponse.empty] at hr
  | none =>
    cases hb : d.getDurativeAction n with
    | none =>
      simp [ha, hb, DomainExpertClient.getDurativeAction,
        GetDomainActionDetailsResponse.empty] at hr
    | some b =>
      refine ⟨rfl, b, rfl, ?_⟩
      simp only [ha, hb, DomainExpertClient.getDurativeAction,
        GetDomainActionDetailsResponse.empty, ↓reduceIte, List.nil_append,
        rebuildParams_map] at hr
      cases h1 : PredicateTree.fromString b.at_start_requirements.toString <;>
        cases h2 : PredicateTree.fromString b.over_all_requirements.toString <;>
        cases h3 : PredicateTree.fromString b.at_end_requirements.toString <;>
        cases h4 : PredicateTree.fromString b.at_start_effects.toString <;>
        cases h5 : PredicateTree.fromString b.at_end_effects.toString <;>
        simp only [h1, h2, h3, h4, h5, reduceCtorEq, Except.ok.injEq, Option.some.injEq] at hr
      subst hr
      exact ⟨rfl, rfl⟩

/-- Claim C21: with a domain loaded and the service call answered,
`DomainExpertClient::getDurativeAction(n)` is empty exactly when it is not the case that
`domain_expert.getDurativeAction(n)` has a value and `domain_expert.getAction(n)` has
none; a value it returns has the requested name and the durative action's parameters,
and it does return a value in that case whenever the five expression texts parse back,
as those of trees with token names do. When `n` names both a simple and a durative
action, the details callback answers with type "action" and the client's
`getDurativeAction(n)` is empty. -/
theorem getDurativeAction_shadowed_by_action :
    (∀ (d : DomainExpert) (n : String),
      (DomainExpertClient.getDurativeAction (some (get_domain_action_details_service_callback
          (some d) n GetDomainActionDetailsResponse.empty)) = .ok none
        ↔ ¬ ((d.getDurativeAction n).isSome = true ∧ d.getAction n = none))
      ∧ (∀ r, DomainExpertClient.getDurativeAction (some
            (get_domain_action_details_service_callback
              (some d) n GetDomainActionDetailsResponse.empty)) = .ok (some r) →
          d.getAction n = none
          ∧ ∃ a, d.getDurativeAction n = some a ∧ r.name = n ∧ r.parameters = a.parameters)
      ∧ (∀ a, d.getDurativeAction n = some a → d.getAction n = none →
          a.at_start_requirements.plain = true → a.over_all_requirements.plain = true →
          a.at_end_requirements.plain = true → a.at_start_effects.plain = true →
          a.at_end_effects.plain = true →
          ∃ r, DomainExpertClient.getDurativeAction (some
            (get_domain_action_details_service_callback
              (some d) n GetDomainActionDetailsResponse.empty)) = .ok (some r))
      ∧ (∀ a b, d.getAction n = some a → d.getDurativeAction n = some b →
          (get_domain_action_details_service_callback
            (some d) n GetDomainActionDetailsResponse.empty).success = true
          ∧ (get_domain_action_details_service_callback
            (some d) n GetDomainActionDetailsResponse.empty).type = "action"
          ∧ DomainExpertClient.getDurativeAction (some
              (get_domain_action_details_service_callback
                (some d) n GetDomainActionDetailsResponse.empty)) = .ok none))
    ∧ (domain_move_both.getAction "move").isSome = true
    ∧ (domain_move_both.getDurativeAction "move").isSome = true
    ∧ (get_domain_action_details_service_callback
        (some domain_move_both) "move" GetDomainActionDetailsResponse.empty).type = "action"
    ∧ DomainExpertClient.getDurativeAction (some (get_domain_action_details_service_callback
        (some domain_move_both) "move" GetDomainActionDetailsResponse.empty)) = .ok none
    ∧ domain_simple_actions.getAction "move" = none
    ∧ DomainExpertClient.getDurativeAction (some (get_domain_action_details_service_callback
        (some domain_simple_actions) "move" GetDomainActionDetailsResponse.empty))
      = .ok (domain_simple_actions.getDurativeAction "move") := by
  refine ⟨?_, by decide, by decide, by decide, by rfl, by rfl, by rfl⟩
  intro d n
  refine ⟨client_getDurativeAction_empty_iff d n, client_getDurativeAction_carries d n, ?_, ?_⟩
  · intro a ha hn h1 h2 h3 h4 h5
    exact ⟨_, client_getDurativeAction_callback d n a hn ha h1 h2 h3 h4 h5⟩
  · intro a b ha hb
    have h := (client_getDurativeAction_empty_iff d n).mpr (by simp [ha])
    refine ⟨?_, ?_, h⟩
    · simp [get_domain_action_details_service_callback, ha]
    · simp [get_domain_action_details_service_callback, ha]

/-! ## The name field of the details responses -/

theorem predicate_details_name (domain_expert_ : Option DomainExpert) (n : String)
    (response : GetDomainPredicateDetailsResponse)
    (h : (get_domain_predicate_details_service_callback domain_expert_ n response).success
      = true) :
    (get_domain_predicate_details_service_callback domain_expert_ n response).name = n := by
  cases domain_expert_ with
  | none => simp [get_domain_predicate_details_service_callback] at h
  | some d =>
    simp only [get_domain_predicate_details_service_callback] at h ⊢
    cases hq : d.getPredicate n with
    | none => simp [hq] at h
    | some q => rfl

theorem action_details_name (domain_expert_ : Option DomainExpert) (n : String)
    (response : GetDomainActionDetailsResponse)
    (h : (get_domain_action_details_service_callback domain_expert_ n response).success
      = true) :
    (get_domain_action_details_service_callback domain_expert_ n response).name = n := by
  cases domain_expert_ with
  | none => simp [get_domain_action_details_service_callback] at h
  | some d =>
    simp only [get_domain_action_details_service_callback] at h ⊢
    cases ha : d.getAction n with
    | some a => rfl
    | none =>
      cases hb : d.getDurativeAction n with
      | some b => rfl
      | none => simp [ha, hb] at h

/-- Claim C22: on success the predicate-details and the action-details callback set
`response.name` to the request text as sent, not to the name stored in the domain; so for
every `n` that the lookup accepts, the predicate that `DomainExpertClient::getPredicate(n)`
returns and the action that `getAction(n)` returns have the name `n`, character for
character: for "ROBOT_TALK" the lookup finds the predicate stored as "robot_talk" and the
client's predicate is named "ROBOT_TALK". -/
theorem details_name_is_request :
    (∀ (domain_expert_ : Option DomainExpert) (n : String)
        (response : GetDomainPredicateDetailsResponse),
      (get_domain_predicate_details_service_callback domain_expert_ n response).success = true →
      (get_domain_predicate_details_service_callback domain_expert_ n response).name = n)
    ∧ (∀ (domain_expert_ : Option DomainExpert) (n : String)
        (response : GetDomainActionDetailsResponse),
      (get_domain_action_details_service_callback domain_expert_ n response).success = true →
      (get_domain_action_details_service_callback domain_expert_ n response).name = n)
    ∧ (∀ (d : DomainExpert) (n : String) (q : Predicate), d.getPredicate n = some q →
        lowerCase q.name = lowerCase n
        ∧ DomainExpertClient.getPredicate (some (get_domain_predicate_details_service_callback
            (some d) n GetDomainPredicateDetailsResponse.empty)) = some ⟨n, q.parameters⟩)
    ∧ (∀ (d : DomainExpert) (n : String) (a : Action), d.getAction n = some a →
        (∀ r, DomainExpertClient.getAction (some (get_domain_action_details_service_callback
              (some d) n GetDomainActionDetailsResponse.empty)) = .ok (some r) → r.name = n)
        ∧ (a.preconditions.plain = true → a.effects.plain = true →
            ∃ r, DomainExpertClient.getAction (some (get_domain_action_details_service_callback
              (some d) n GetDomainActionDetailsResponse.empty)) = .ok (some r) ∧ r.name = n))
    ∧ (domain_simple.getPredicate "ROBOT_TALK").map (fun q => q.name) = some "robot_talk"
    ∧ (get_domain_predicate_details_service_callback (some domain_simple) "ROBOT_TALK"
        GetDomainPredicateDetailsResponse.empty).name = "ROBOT_TALK"
    ∧ (DomainExpertClient.getPredicate (some (get_domain_predicate_details_service_callback
        (some domain_simple) "ROBOT_TALK" GetDomainPredicateDetailsResponse.empty))).map
          (fun q => q.name) = some "ROBOT_TALK" := by
  refine ⟨predicate_details_name, action_details_name, ?_, ?_, by decide, by decide,
    by decide⟩
  · intro d n q hq
    refine ⟨?_, ?_⟩
    · have := List.find?_some hq
      simpa using this
    · rw [client_getPredicate_callback, hq]
      rfl
  · intro d n a ha
    refine ⟨?_, ?_⟩
    · intro r hr
      exact (client_getAction_carries d n a ha r hr).1
    · intro hpre heff
      exact ⟨_, client_getAction_callback d n a ha hpre heff, rfl⟩

/-! ## The parallel lists of the responses -/

theorem rebuildParamsChecked_loop (param_names param_types : List String) (is : List Nat)
    (h : ∀ i ∈ is, i < param_names.length ∧ i < param_types.length) :
    ∀ acc : List Param,
      is.foldl
        (fun ret i =>
          match ret, param_names[i]?, param_types[i]? with
          | some parameters, some name, some type => some (parameters ++ [⟨name, type⟩])
          | _, _, _ => none)
        (some acc)
      = some (acc ++ is.map (fun i => ⟨param_names.getD i "", param_types.getD i ""⟩)) := by
  induction is with
  | nil => intro acc; simp
  | cons i r ih =>
    intro acc
    have hi := h i (List.mem_cons_self i r)
    rw [List.foldl_cons, List.getElem?_eq_getElem hi.1, List.getElem?_eq_getElem hi.2]
    simp only []
    rw [ih (fun j hj => h j (List.mem_cons_of_mem i hj))]
    simp [List.getD_eq_getElem?_getD, List.getElem?_eq_getElem hi.1,
      List.getElem?_eq_getElem hi.2]

theorem rebuildParamsChecked_eq (param_names param_types : List String)
    (h : param_names.length ≤ param_types.length) :
    rebuildParamsChecked param_names param_types
      = some (rebuildParams param_names param_types) := by
  unfold rebuildParamsChecked rebuildParams
  rw [rebuildParamsChecked_loop param_names param_types _ (by
    intro i hi
    have := List.mem_range.mp hi
    omega)]
  simp

theorem rebuildParams_eq_zipWith (param_names param_types : List String)
    (h : param_names.length = param_types.length) :
    rebuildParams param_names param_types = List.zipWith Param.mk param_names param_types := by
  apply List.ext_getElem
  · simp [rebuildParams, h]
  · intro i h1 h2
    have hn : i < param_names.length := by simpa [rebuildParams] using h1
    have ht : i < param_types.length := by omega
    simp [rebuildParams, List.getD_eq_getElem?_getD, List.getElem?_eq_getElem hn,
      List.getElem?_eq_getElem ht]

theorem collectKindChecked_loop (kind : String) (result : GetDomainActionsResponse)
    (is : List Nat) (h : ∀ i ∈ is, i < result.type.length ∧ i < result.actions.length) :
    ∀ acc : List String,
      is.foldl
        (fun ret i =>
          match ret, result.type[i]?, result.actions[i]? with
          | some ret, some type, some action =>
            if type = kind then some (ret ++ [action]) else some ret
          | _, _, _ => none)
        (some acc)
      = some (is.foldl
        (fun ret i =>
          if result.type.getD i "" = kind then ret ++ [result.actions.getD i ""] else ret)
        acc) := by
  induction is with
  | nil => intro acc; rfl
  | cons i r ih =>
    intro acc
    have hi := h i (List.mem_cons_self i r)
    rw [List.foldl_cons, List.foldl_cons, List.getElem?_eq_getElem hi.1,
      List.getElem?_eq_getElem hi.2]
    have e1 : result.type.getD i "" = result.type[i] := by
      simp [List.getD_eq_getElem?_getD, List.getElem?_eq_getElem hi.1]
    have e2 : result.actions.getD i "" = result.actions[i] := by
      simp [List.getD_eq_getElem?_getD, List.getElem?_eq_getElem hi.2]
    rw [e1, e2]
    simp only []
    by_cases hk : result.type[i] = kind
    · simp only [hk, ↓reduceIte]
      exact ih (fun j hj => h j (List.mem_cons_of_mem i hj)) _
    · simp only [hk, ↓reduceIte]
      exact ih (fun j hj => h j (List.mem_cons_of_mem i hj)) _

theorem collectKindChecked_eq (kind : String) (result : GetDomainActionsResponse)
    (h : result.actions.length ≤ result.type.length) :
    collectKindChecked kind result = some (collectKind kind result) := by
  unfold collectKindChecked collectKind
  exact collectKindChecked_loop kind result _ (by
    intro i hi
    have := List.mem_range.mp hi
    omega) []

theorem actions_callback_parallel (domain_expert_ : Option DomainExpert) :
    (get_domain_actions_service_callback domain_expert_
        GetDomainActionsResponse.empty).actions.length
      = (get_domain_actions_service_callback domain_expert_
        GetDomainActionsResponse.empty).type.length
    ∧ ∀ t ∈ (get_domain_actions_service_callback domain_expert_
        GetDomainActionsResponse.empty).type, t = "action" ∨ t = "durative-action" := by
  cases domain_expert_ with
  | none => exact ⟨rfl, by intro t ht; simp [get_domain_actions_service_callback,
      GetDomainActionsResponse.empty] at ht⟩
  | some d =>
    rw [actions_callback_loaded]
    refine ⟨by simp, ?_⟩
    intro t ht
    simp only [List.mem_append, List.mem_replicate] at ht
    rcases ht with ht | ht
    · exact Or.inl ht.2
    · exact Or.inr ht.2

theorem predicate_details_parallel (domain_expert_ : Option DomainExpert) (n : String) :
    (get_domain_predicate_details_service_callback domain_expert_ n
        GetDomainPredicateDetailsResponse.empty).param_names.length
      = (get_domain_predicate_details_service_callback domain_expert_ n
        GetDomainPredicateDetailsResponse.empty).param_types.length := by
  cases domain_expert_ with
  | none => rfl
  | some d =>
    simp only [get_domain_predicate_details_service_callback]
    cases d.getPredicate n <;> simp [GetDomainPredicateDetailsResponse.empty]

theorem action_details_parallel (domain_expert_ : Option DomainExpert) (n : String) :
    (get_domain_action_details_service_callback domain_expert_ n
        GetDomainActionDetailsResponse.empty).param_names.length
      = (get_domain_action_details_service_callback domain_expert_ n
        GetDomainActionDetailsResponse.empty).param_types.length := by
  cases domain_expert_ with
  | none => rfl
  | some d =>
    simp only [get_domain_action_details_service_callback]
    cases d.getAction n <;> cases d.getDurativeAction n <;>
      simp [GetDomainActionDetailsResponse.empty]

theorem action_details_type (domain_expert_ : Option DomainExpert) (n : String)
    (h : (get_domain_action_details_service_callback domain_expert_ n
        GetDomainActionDetailsResponse.empty).success = true) :
    (get_domain_action_details_service_callback domain_expert_ n
        GetDomainActionDetailsResponse.empty).type = "action"
    ∨ (get_domain_action_details_service_callback domain_expert_ n
        GetDomainActionDetailsResponse.empty).type = "durative-action" := by
  cases domain_expert_ with
  | none => simp [get_domain_action_details_service_callback,
      GetDomainActionDetailsResponse.empty] at h
  | some d =>
    simp only [get_domain_action_details_service_callback] at h ⊢
    cases ha : d.getAction n with
    | some a => exact Or.inl rfl
    | none =>
      cases hb : d.getDurativeAction n with
      | some b => exact Or.inr rfl
      | none => simp [ha, hb, GetDomainActionDetailsResponse.empty] at h

/-- Claim C23: in every response that a callback of the node builds from an empty
response, the parallel lists have equal length (`actions` and `type`; `param_names` and
`param_types`) and every entry of `type` is "action" or "durative-action"; therefore
every read `type[i]` or `param_types[i]` of the client for `i` below `actions.size()` or
`param_names.size()` is in bounds (the loops with checked reads end with a result, the
one of the unchecked loops), and the client rebuilds the parameter list as the
position-wise pairing of the two lists. -/
theorem response_lists_parallel :
    (∀ (domain_expert_ : Option DomainExpert),
      (get_domain_actions_service_callback domain_expert_
          GetDomainActionsResponse.empty).actions.length
        = (get_domain_actions_service_callback domain_expert_
          GetDomainActionsResponse.empty).type.length
      ∧ (∀ t ∈ (get_domain_actions_service_callback domain_expert_
          GetDomainActionsResponse.empty).type, t = "action" ∨ t = "durative-action")
      ∧ (∀ i, i < (get_domain_actions_service_callback domain_expert_
            GetDomainActionsResponse.empty).actions.length →
          i < (get_domain_actions_service_callback domain_expert_
            GetDomainActionsResponse.empty).type.length)
      ∧ collectKindChecked "action" (get_domain_actions_service_callback domain_expert_
            GetDomainActionsResponse.empty)
          = some (DomainExpertClient.getActions (some (get_domain_actions_service_callback
              domain_expert_ GetDomainActionsResponse.empty)))
      ∧ collectKindChecked "durative-action" (get_domain_actions_service_callback
            domain_expert_ GetDomainActionsResponse.empty)
          = some (DomainExpertClient.getDurativeActions (some
              (get_domain_actions_service_callback domain_expert_
                GetDomainActionsResponse.empty))))
    ∧ (∀ (domain_expert_ : Option DomainExpert) (n : String),
      (get_domain_predicate_details_service_callback domain_expert_ n
          GetDomainPredicateDetailsResponse.empty).param_names.length
        = (get_domain_predicate_details_service_callback domain_expert_ n
          GetDomainPredicateDetailsResponse.empty).param_types.length
      ∧ (get_domain_action_details_service_callback domain_expert_ n
          GetDomainActionDetailsResponse.empty).param_names.length
        = (get_domain_action_details_service_callback domain_expert_ n
          GetDomainActionDetailsResponse.empty).param_types.length
      ∧ ((get_domain_action_details_service_callback domain_expert_ n
            GetDomainActionDetailsResponse.empty).success = true →
          (get_domain_action_details_service_callback domain_expert_ n
            GetDomainActionDetailsResponse.empty).type = "action"
          ∨ (get_domain_action_details_service_callback domain_expert_ n
            GetDomainActionDetailsResponse.empty).type = "durative-action")
      ∧ rebuildParamsChecked
          (get_domain_predicate_details_service_callback domain_expert_ n
            GetDomainPredicateDetailsResponse.empty).param_names
          (get_domain_predicate_details_service_callback domain_expert_ n
            GetDomainPredicateDetailsResponse.empty).param_types
        = some (List.zipWith Param.mk
          (get_domain_predicate_details_service_callback domain_expert_ n
            GetDomainPredicateDetailsResponse.empty).param_names
          (get_domain_predicate_details_service_callback domain_expert_ n
            GetDomainPredicateDetailsResponse.empty).param_types)
      ∧ rebuildParamsChecked
          (get_domain_action_details_service_callback domain_expert_ n
            GetDomainActionDetailsResponse.empty).param_names
          (get_domain_action_details_service_callback domain_expert_ n
            GetDomainActionDetailsResponse.empty).param_types
        = some (List.zipWith Param.mk
          (get_domain_action_details_service_callback domain_expert_ n
            GetDomainActionDetailsResponse.empty).param_names
          (get_domain_action_details_service_callback domain_expert_ n
            GetDomainActionDetailsResponse.empty).param_types))
    ∧ (∀ param_names param_types : List String,
      param_names.length = param_types.length →
        (∀ i, i < param_names.length → i < param_types.length)
        ∧ rebuildParamsChecked param_names param_types
            = some (List.zipWith Param.mk param_names param_types)
        ∧ rebuildParams param_names param_types
            = List.zipWith Param.mk param_names param_types)
    ∧ rebuildParamsChecked ["?0", "?1"] ["robot"] = none
    ∧ collectKindChecked "action" ⟨["move"], [], true, ""⟩ = none
    ∧ rebuildParamsChecked ["?0", "?1"] ["robot", "room"]
        = some [⟨"?0", "robot"⟩, ⟨"?1", "room"⟩] := by
  refine ⟨?_, ?_, ?_, by decide, by decide, by decide⟩
  · intro domain_expert_
    obtain ⟨h1, h2⟩ := actions_callback_parallel domain_expert_
    refine ⟨h1, h2, ?_, ?_, ?_⟩
    · intro i hi
      omega
    · exact collectKindChecked_eq _ _ (le_of_eq h1)
    · exact collectKindChecked_eq _ _ (le_of_eq h1)
  · intro domain_expert_ n
    have hp := predicate_details_parallel domain_expert_ n
    have ha := action_details_parallel domain_expert_ n
    refine ⟨hp, ha, action_details_type domain_expert_ n, ?_, ?_⟩
    · rw [rebuildParamsChecked_eq _ _ (le_of_eq hp), rebuildParams_eq_zipWith _ _ hp]
    · rw [rebuildParamsChecked_eq _ _ (le_of_eq ha), rebuildParams_eq_zipWith _ _ ha]
  · intro param_names param_types h
    refine ⟨?_, ?_, rebuildParams_eq_zipWith _ _ h⟩
    · intro i hi
      omega
    · rw [rebuildParamsChecked_eq _ _ (le_of_eq h), rebuildParams_eq_zipWith _ _ h]

/-! ## The normalizer on texts without doubled spaces -/

theorem head?_eq_cons {d : Char} {l : List Char} (h : l.head? = some d) :
    ∃ t, l = d :: t := by
  cases l with
  | nil => simp at h
  | cons x t =>
    simp only [List.head?_cons, Option.some.injEq] at h
    exact ⟨t, by rw [h]⟩

theorem hasPair_cons_cons (a b c d : Char) (r : List Char) :
    hasPair a b (c :: d :: r) = ((decide (c = a) && decide (d = b)) || hasPair a b (d :: r)) :=
  rfl

theorem hasPair_cons_of_ne (a b c : Char) (l : List Char) (h : c ≠ a) :
    hasPair a b (c :: l) = hasPair a b l := by
  cases l with
  | nil => rfl
  | cons d r =>
    rw [hasPair_cons_cons]
    simp [h]

theorem hasPair_tail {a b c : Char} {l : List Char} (h : hasPair a b (c :: l) = false) :
    hasPair a b l = false := by
  cases l with
  | nil => rfl
  | cons d r =>
    rw [hasPair_cons_cons, Bool.or_eq_false_iff] at h
    exact h.2

theorem replaceOpen_no_double (l : List Char) (h : hasPair ' ' ' ' l = false) :
    hasPair '(' ' ' (replaceOpen l) = false
    ∧ hasPair ' ' ' ' (replaceOpen l) = false
    ∧ (replaceOpen l).head? = l.head? := by
  induction l using replaceOpen.induct with
  | case1 => exact ⟨rfl, rfl, rfl⟩
  | case2 c => exact ⟨rfl, rfl, rfl⟩
  | case3 c d r hcd ih =>
    obtain ⟨hc, hd⟩ := hcd
    subst hc
    subst hd
    have h1 : hasPair ' ' ' ' (' ' :: r) = false := hasPair_tail h
    have h2 : hasPair ' ' ' ' r = false := hasPair_tail h1
    obtain ⟨i1, i2, i3⟩ := ih h2
    have hr : replaceOpen ('(' :: ' ' :: r) = '(' :: replaceOpen r := by
      rw [replaceOpen]; simp
    rw [hr]
    refine ⟨?_, ?_, rfl⟩
    · cases hx : replaceOpen r with
      | nil => rfl
      | cons x t =>
        rw [hasPair_cons_cons, ← hx, i1]
        have hxr : r.head? = some x := by rw [← i3, hx]; rfl
        obtain ⟨t2, rfl⟩ := head?_eq_cons hxr
        rw [hasPair_cons_cons] at h1
        have hne : x ≠ ' ' := by
          intro he
          subst he
          simp at h1
        simp [hne]
    · rw [hasPair_cons_of_ne _ _ _ _ (by decide)]
      exact i2
  | case4 c d r hcd ih =>
    have h1 : hasPair ' ' ' ' (d :: r) = false := hasPair_tail h
    obtain ⟨i1, i2, i3⟩ := ih h1
    have hr : replaceOpen (c :: d :: r) = c :: replaceOpen (d :: r) := by
      rw [replaceOpen]; simp [hcd]
    rw [hr]
    obtain ⟨t, ht⟩ := head?_eq_cons (i3.trans (List.head?_cons))
    rw [ht] at i1 i2 ⊢
    refine ⟨?_, ?_, rfl⟩
    · rw [hasPair_cons_cons, i1]
      simp only [Bool.or_false, Bool.and_eq_false_imp, decide_eq_true_eq, decide_eq_false_iff_not]
      intro hc hd
      exact hcd ⟨hc, hd⟩
    · rw [hasPair_cons_cons, i2]
      rw [hasPair_cons_cons, Bool.or_eq_false_iff] at h
      rw [h.1]
      rfl

theorem replaceClose_no_double (l : List Char) (h : hasPair ' ' ' ' l = false)
    (ho : hasPair '(' ' ' l = false) :
    hasPair ' ' ')' (replaceClose l) = false
    ∧ hasPair '(' ' ' (replaceClose l) = false
    ∧ ((replaceClose l).head? = l.head?
      ∨ (l.head? = some ' ' ∧ (replaceClose l).head? = some ')')) := by
  induction l using replaceClose.induct with
  | case1 => exact ⟨rfl, rfl, Or.inl rfl⟩
  | case2 c => exact ⟨rfl, rfl, Or.inl rfl⟩
  | case3 c d r hcd ih =>
    obtain ⟨hc, hd⟩ := hcd
    subst hc
    subst hd
    have h2 : hasPair ' ' ' ' r = false := hasPair_tail (hasPair_tail h)
    have ho2 : hasPair '(' ' ' r = false := hasPair_tail (hasPair_tail ho)
    obtain ⟨i1, i2, _⟩ := ih h2 ho2
    have hr : replaceClose (' ' :: ')' :: r) = ')' :: replaceClose r := by
      rw [replaceClose]; simp
    rw [hr]
    refine ⟨?_, ?_, Or.inr ⟨rfl, rfl⟩⟩
    · rw [hasPair_cons_of_ne _ _ _ _ (by decide)]
      exact i1
    · rw [hasPair_cons_of_ne _ _ _ _ (by decide)]
      exact i2
  | case4 c d r hcd ih =>
    have h1 : hasPair ' ' ' ' (d :: r) = false := hasPair_tail h
    have ho1 : hasPair '(' ' ' (d :: r) = false := hasPair_tail ho
    obtain ⟨i1, i2, i3⟩ := ih h1 ho1
    have hr : replaceClose (c :: d :: r) = c :: replaceClose (d :: r) := by
      rw [replaceClose]; simp [hcd]
    rw [hr]
    rw [hasPair_cons_cons, Bool.or_eq_false_iff] at h ho
    rcases i3 with i3 | ⟨i3, i4⟩
    · obtain ⟨t, ht⟩ := head?_eq_cons (i3.trans (List.head?_cons))
      rw [ht] at i1 i2 ⊢
      refine ⟨?_, ?_, Or.inl rfl⟩
      · rw [hasPair_cons_cons, i1]
        simp only [Bool.or_false, Bool.and_eq_false_imp, decide_eq_true_eq,
          decide_eq_false_iff_not]
        intro hc hd
        exact hcd ⟨hc, hd⟩
      · rw [hasPair_cons_cons, i2, ho.1]
        rfl
    · obtain ⟨t, ht⟩ := head?_eq_cons i4
      rw [ht] at i1 i2 ⊢
      have hd : d = ' ' := by simpa using i3
      subst hd
      refine ⟨?_, ?_, Or.inl rfl⟩
      · rw [hasPair_cons_cons, i1]
        have hc : c ≠ ' ' := by
          intro he
          subst he
          simp at h
        simp [hc]
      · rw [hasPair_cons_cons, i2]
        simp

theorem reduceChars_no_double (s : List Char) (h : hasPair ' ' ' ' (removeNT s) = false) :
    hasPair '(' ' ' (reduceChars s) = false ∧ hasPair ' ' ')' (reduceChars s) = false := by
  obtain ⟨a1, a2, _⟩ := replaceOpen_no_double (removeNT s) h
  obtain ⟨b1, b2, _⟩ := replaceClose_no_double (replaceOpen (removeNT s)) a2 a1
  exact ⟨b2, b1⟩

/-- Claim C24: for every text whose newline/tab-stripped form has no two spaces in a row,
`getReducedString(s)` contains neither "( " nor " )" and is a fixed point of
`getReducedString`. -/
theorem getReducedString_fixed_point (s : String)
    (h : ¬ "  ".data <:+: removeNT s.data) :
    ¬ "( ".data <:+: (getReducedString s).data
    ∧ ¬ " )".data <:+: (getReducedString s).data
    ∧ getReducedString (getReducedString s) = getReducedString s := by
  have e0 : "  ".data = [' ', ' '] := rfl
  have e1 : "( ".data = ['(', ' '] := rfl
  have e2 : " )".data = [' ', ')'] := rfl
  have hd : (getReducedString s).data = reduceChars s.data := rfl
  rw [e0, ← hasPair_iff_infix, Bool.not_eq_true] at h
  obtain ⟨b1, b2⟩ := reduceChars_no_double s.data h
  rw [e1, e2, hd, ← hasPair_iff_infix, ← hasPair_iff_infix, b1, b2]
  refine ⟨by simp, by simp, ?_⟩
  apply String.ext
  show reduceChars (reduceChars s.data) = reduceChars s.data
  exact (reduceChars_fixed_iff _ (reduceChars_no_nt s.data)).mpr ⟨b1, b2⟩

/-- Witness of claim C24: the text "( ( and\n\t ) )" of the unit test has, without its
newline and tab, single spaces only; it reduces to "((and))", which is a fixed point. -/
theorem getReducedString_fixed_point_witness :
    ¬ "  ".data <:+: removeNT "( ( and\n\t ) )".data
    ∧ getReducedString "( ( and\n\t ) )" = "((and))"
    ∧ ¬ "( ".data <:+: (getReducedString "( ( and\n\t ) )").data
    ∧ ¬ " )".data <:+: (getReducedString "( ( and\n\t ) )").data
    ∧ getReducedString (getReducedString "( ( and\n\t ) )")
        = getReducedString "( ( and\n\t ) )" :=
  ⟨by decide, by decide, getReducedString_fixed_point "( ( and\n\t ) )" (by decide)⟩

end plansys2
